import Mathlib

/-!
External sort (`pkg/sort/sort.go`): model and verification

A shallow embedding of `LinesInPlace`, `mergeFilesInto`, the `priorityQueue`
used with Go's `container/heap`, and of the run store (`FileOpener`) the sort
runs against.

Modelling conventions.

* A record is the byte string of one line without its terminator; Go's `<` on
  strings is the lexicographic order on bytes, here the lexicographic order on
  `List Nat`.
* A run store is explicit state: the content of every slot `(age, num)`, the
  list of operations issued so far, and a failure schedule that says, from the
  operations issued so far, whether the next operation fails.
* A `*bufio.Scanner` is the list of records it has not yet returned, fixed when
  the run is opened; a nil scanner and a nil closer are `none`. Records are the
  lines a scanner returns: no terminator inside, no trailing carriage return,
  shorter than the scanner's token limit. Reading never fails and does not
  change the store.
* `sort.Strings` and `container/heap` are the Go standard library; the first is
  modelled by its result, the second algorithm by algorithm (`Init`, `Push`,
  `Pop`, `up`, `down`).
* Opening a run for writing: the interface asks that an existing file be
  overwritten. The store operations of the first part do so; `FileManager`,
  which opens without `os.O_TRUNC`, is modelled after them, byte by byte, and
  `LinesInPlaceOn` is `LinesInPlace` over either.
* A run-time panic (nil dereference, index out of range) is the outcome
  `Outcome.panic`: the call does not return.
* Loops whose trip count is not a list length carry a fuel argument; the
  outcome `Outcome.fuel` marks exhaustion.
-/

namespace ExternalSort

/-- The bytes of one line, terminator removed. -/
abbrev Record := List Nat

/-- The unread records of an opened run (`*bufio.Scanner`). -/
abbrev Scanner := List Record

/-- Operations a `FileOpener` and the handles it returns can be asked to do. -/
inductive Op
  | GetTempFile (age num : Nat)
  | NewTempFile (age num : Nat)
  | Write (age num : Nat) (line : Record)
  | closeReader (age num : Nat)
  | closeWriter (age num : Nat)
deriving DecidableEq

/-- Error values returned by `LinesInPlace`. -/
inductive Err
  | maxLines (maxLinesInMem : Int)
  | nilManager
  | notFound (age num : Nat)
  | failed (op : Op)
deriving DecidableEq

/-- How a call ends: `nil` error, a non-nil error, a panic, or (model only) no fuel left. -/
inductive Outcome
  | nil
  | err (e : Err)
  | panic
  | fuel
deriving DecidableEq

/-- The run store behind a `FileOpener`. -/
structure Store where
  /-- Content of slot `(age, num)`; `none` when the run does not exist. -/
  files : Nat → Nat → Option (List Record)
  /-- Failure schedule: given the operations issued so far, does this one fail? -/
  fails : List Op → Op → Bool
  /-- Operations issued so far, oldest first. -/
  log : List Op

/-- Either control continues with a value, or the enclosing function ends with an outcome. -/
inductive Step (α : Type)
  | next (a : α) (s : Store)
  | stop (o : Outcome) (s : Store)

/-- The store reached by a step. -/
def Step.store {α : Type} : Step α → Store
  | .next _ s => s
  | .stop _ s => s

/-- Append an operation to the log. -/
def Store.record (s : Store) (op : Op) : Store :=
  { s with log := s.log ++ [op] }

/-- Replace the content of one slot. -/
def Store.setFile (s : Store) (age num : Nat) (c : List Record) : Store :=
  { s with files := fun a n => if a = age ∧ n = num then some c else s.files a n }

/-- Model of `FileOpener.GetTempFile`: opens an existing run for reading. A run that does
not exist is an error, as with `FileManager`, where `os.OpenFile` fails. -/
def GetTempFile (s : Store) (age num : Nat) : Step Scanner :=
  if s.fails s.log (Op.GetTempFile age num) then
    .stop (.err (.failed (Op.GetTempFile age num))) (s.record (Op.GetTempFile age num))
  else
    match s.files age num with
    | none => .stop (.err (.notFound age num)) (s.record (Op.GetTempFile age num))
    | some c => .next c (s.record (Op.GetTempFile age num))

/-- Model of `NewTempFile` as the interface `FileOpener` describes it ("existing file shall
be over written") and as `mockManager.NewTempFile` does it: the slot is created or
emptied, and its writer returned. `FileManager.NewTempFile`, which keeps the bytes of a
file that exists, is modelled in `FileManager` below. -/
def NewTempFile (s : Store) (age num : Nat) : Step (Nat × Nat) :=
  if s.fails s.log (Op.NewTempFile age num) then
    .stop (.err (.failed (Op.NewTempFile age num))) (s.record (Op.NewTempFile age num))
  else
    .next (age, num) ((s.record (Op.NewTempFile age num)).setFile age num [])

/-- Model of `w.Write([]byte(line + "\n"))` on the writer of slot `w`. -/
def Write (s : Store) (w : Nat × Nat) (line : Record) : Step Unit :=
  if s.fails s.log (Op.Write w.1 w.2 line) then
    .stop (.err (.failed (Op.Write w.1 w.2 line))) (s.record (Op.Write w.1 w.2 line))
  else
    .next () ((s.record (Op.Write w.1 w.2 line)).setFile w.1 w.2
      (((s.files w.1 w.2).getD []) ++ [line]))

/-- Writes to the slot `w` never fail, whatever has been issued before. -/
def Store.writable (s : Store) (w : Nat × Nat) : Prop :=
  ∀ log line, s.fails log (Op.Write w.1 w.2 line) = false

/-- No operation of the store ever fails. -/
def Store.neverFails (s : Store) : Prop := ∀ log op, s.fails log op = false

/-- Calling a closer `func()`: a nil closer panics, any other records its release. -/
def callCloser (c : Option Op) (s : Store) : Step Unit :=
  match c with
  | none => .stop .panic s
  | some op => .next () (s.record op)

/-- The in-memory store of the tests, holding only the subject file `0_0`. -/
def newMockFileManager (c : List Record) : Store :=
  { files := fun a n => if a = 0 ∧ n = 0 then some c else none
    fails := fun _ _ => false
    log := [] }

/-- Content of the subject file. -/
def getResult (m : Store) : Option (List Record) := m.files 0 0

/-- Model of `sort.Strings`: the non-decreasing rearrangement of the slice. -/
def sortStrings (buf : List Record) : List Record := buf.insertionSort (· ≤ ·)

/-- The reference sort of the tests, on records. -/
def naiveSort (content : List Record) : List Record := sortStrings content

/-! ## priorityQueue and container/heap -/

/-- Heap entry: the line and the index of the file it came from. -/
structure pqElement where
  fileIndex : Nat
  line : Record
deriving DecidableEq, Inhabited

/-- The slice type the heap algorithms work on. -/
abbrev priorityQueue := List pqElement

/-- Model of `priorityQueue.Len`. -/
def priorityQueue.Len (p : priorityQueue) : Nat := p.length

/-- Model of `priorityQueue.Less`: strict comparison of the lines. The heap algorithms
only ever pass indices inside the slice, so the default element is never compared. -/
def priorityQueue.Less (p : priorityQueue) (i j : Nat) : Bool :=
  decide ((p.getD i default).line < (p.getD j default).line)

/-- Model of `priorityQueue.Swap`. -/
def priorityQueue.Swap (p : priorityQueue) (i j : Nat) : priorityQueue :=
  (p.set i (p.getD j default)).set j (p.getD i default)

/-- Model of `priorityQueue.Push`: append. -/
def priorityQueue.Push (p : priorityQueue) (x : pqElement) : priorityQueue := p ++ [x]

/-- Model of `priorityQueue.Pop`: remove and return the last element. -/
def priorityQueue.Pop (p : priorityQueue) : pqElement × priorityQueue :=
  (p.getD (p.length - 1) default, p.take (p.length - 1))

/-- Loop of `heap.up`: move the element at `j` towards the root. -/
def heap.upLoop : Nat → priorityQueue → Nat → priorityQueue
  | 0, h, _ => h
  | fuel + 1, h, j =>
    let i := (j - 1) / 2
    if i = j ∨ !h.Less j i then h
    else heap.upLoop fuel (h.Swap i j) i

/-- Model of `heap.up`. -/
def heap.up (h : priorityQueue) (j : Nat) : priorityQueue := heap.upLoop (j + 1) h j

/-- Loop of `heap.down`: move the element at `i` towards the leaves, within `h[0:n]`. -/
def heap.downLoop : Nat → priorityQueue → Nat → Nat → priorityQueue
  | 0, h, _, _ => h
  | fuel + 1, h, i, n =>
    let j1 := 2 * i + 1
    if j1 ≥ n then h
    else
      let j := if j1 + 1 < n ∧ h.Less (j1 + 1) j1 then j1 + 1 else j1
      if !h.Less j i then h
      else heap.downLoop fuel (h.Swap i j) j n

/-- Model of `heap.down`. -/
def heap.down (h : priorityQueue) (i0 n : Nat) : priorityQueue := heap.downLoop n h i0 n

/-- Loop of `heap.Init`: `down` at `k - 1`, ..., `0`. -/
def heap.initLoop (n : Nat) : Nat → priorityQueue → priorityQueue
  | 0, h => h
  | k + 1, h => heap.initLoop n k (heap.down h k n)

/-- Model of `heap.Init`. -/
def heap.Init (h : priorityQueue) : priorityQueue := heap.initLoop h.Len (h.Len / 2) h

/-- Model of `heap.Push`. -/
def heap.Push (h : priorityQueue) (x : pqElement) : priorityQueue :=
  heap.up (h.Push x) ((h.Push x).Len - 1)

/-- Model of `heap.Pop`: the minimum moves to the end and is removed. -/
def heap.Pop (h : priorityQueue) : pqElement × priorityQueue :=
  (heap.down (h.Swap 0 (h.Len - 1)) 0 (h.Len - 1)).Pop

/-- The line at index `i` of a queue. -/
def key (h : priorityQueue) (i : Nat) : Record := (h.getD i default).line

/-- Heap order on `h[0:n]`, restricted to the nodes whose parent is at `k` or later. -/
def HeapFrom (h : priorityQueue) (k n : Nat) : Prop :=
  ∀ c, 0 < c → c < n → k ≤ (c - 1) / 2 → key h ((c - 1) / 2) ≤ key h c

/-- The whole queue is heap ordered: no line is smaller than the line of its parent. -/
def IsHeap (h : priorityQueue) : Prop := HeapFrom h 0 h.length

/-! ## mergeFilesInto -/

/-- An input of a merge: scanner and closer, both nil in the zero value. -/
structure fileWithCloser where
  f : Option Scanner
  c : Option Op
deriving DecidableEq

/-- The deferred function of `mergeFilesInto`: call every closer in order. -/
def closeAll : List fileWithCloser → Store → Step Unit
  | [], s => .next () s
  | file :: rest, s =>
    match callCloser file.c s with
    | .stop o s => .stop o s
    | .next _ s => closeAll rest s

/-- First loop of `mergeFilesInto`: scan one line of every file into the queue.
`none` is the nil dereference of `file.f.Scan()`. -/
def seedQueue : List fileWithCloser → Nat → priorityQueue →
    Option (priorityQueue × List fileWithCloser)
  | [], _, h => some (h, [])
  | file :: rest, i, h =>
    match file.f with
    | none => none
    | some [] =>
      (seedQueue rest (i + 1) h).map fun r => (r.1, file :: r.2)
    | some (l :: ls) =>
      (seedQueue rest (i + 1) (h ++ [{ fileIndex := i, line := l }])).map
        fun r => (r.1, { file with f := some ls } :: r.2)

/-- Main loop of `mergeFilesInto`: pop, write, scan the popped file, push. -/
def mergeLoop : Nat → priorityQueue → List fileWithCloser → Nat × Nat → Store →
    Step (List fileWithCloser)
  | fuel, h, files, dst, s =>
    if h.Len > 0 then
      match fuel with
      | 0 => .stop .fuel s
      | fuel + 1 =>
        match Write s dst (heap.Pop h).1.line with
        | .stop o s => .stop o s
        | .next _ s =>
          match files[(heap.Pop h).1.fileIndex]? with
          | none => .stop .panic s
          | some file =>
            match file.f with
            | none => .stop .panic s
            | some [] => mergeLoop fuel (heap.Pop h).2 files dst s
            | some (l :: ls) =>
              mergeLoop fuel
                (heap.Push (heap.Pop h).2 { fileIndex := (heap.Pop h).1.fileIndex, line := l })
                (files.set (heap.Pop h).1.fileIndex { file with f := some ls }) dst s
    else .next files s

/-- The records the scanners of `files` have not returned yet, in file order. -/
def pending (files : List fileWithCloser) : List Record :=
  files.flatMap fun file => file.f.getD []

/-- Number of records the scanners of `files` have not returned yet. -/
def unread (files : List fileWithCloser) : Nat :=
  (files.map fun file => (file.f.getD []).length).sum

/-- Model of `mergeFilesInto`. The result carries the scanners as the merge left them. -/
def mergeFilesInto (files : List fileWithCloser) (dst : Nat × Nat) (s : Store) :
    Step (List fileWithCloser) :=
  match seedQueue files 0 [] with
  | none =>
    match closeAll files s with
    | .stop o s => .stop o s
    | .next _ s => .stop .panic s
  | some (h, scanned) =>
    match mergeLoop (unread files) (heap.Init h) scanned dst s with
    | .stop o s =>
      match closeAll files s with
      | .stop o2 s => .stop o2 s
      | .next _ s => .stop o s
    | .next merged s =>
      match closeAll files s with
      | .stop o s => .stop o s
      | .next _ s => .next merged s

/-! ## LinesInPlace -/

/-- Variables of the split stage. -/
structure SplitState where
  buf : List Record
  pos : Nat
  currentLevelFiles : Nat
deriving DecidableEq

/-- Write loop of `dumpBuf`: one `Write` per element of the slice. -/
def writeLines (w : Nat × Nat) : List Record → Store → Step Unit
  | [], s => .next () s
  | l :: rest, s =>
    match Write s w l with
    | .stop o s => .stop o s
    | .next _ s => writeLines w rest s

/-- Model of the closure `dumpBuf`. -/
def dumpBuf (st : SplitState) (s : Store) : Step SplitState :=
  match NewTempFile s 1 st.currentLevelFiles with
  | .stop o s => .stop o s
  | .next file s =>
    match writeLines file (sortStrings st.buf) s with
    | .stop o s => .stop o s
    | .next _ s =>
      .next { buf := sortStrings st.buf, pos := 0,
              currentLevelFiles := st.currentLevelFiles + 1 }
        (s.record (Op.closeWriter 1 st.currentLevelFiles))

/-- The scan loop of the split stage, over the lines `original` still has. -/
def scanLoop (maxLinesInMem : Nat) : Scanner → SplitState → Store → Step SplitState
  | [], st, s => .next st s
  | line :: rest, st, s =>
    match (if st.pos + 1 ≥ maxLinesInMem then dumpBuf st s else .next st s) with
    | .stop o s => .stop o s
    | .next st s =>
      if st.pos < st.buf.length then
        scanLoop maxLinesInMem rest
          { st with buf := st.buf.set st.pos line, pos := st.pos + 1 } s
      else .stop .panic s

/-- The split stage: scan loop, then the flush after the loop. -/
def splitStage (maxLinesInMem : Nat) (original : Scanner) (s : Store) : Step SplitState :=
  match scanLoop maxLinesInMem original
      { buf := List.replicate maxLinesInMem [], pos := 0, currentLevelFiles := 0 } s with
  | .stop o s => .stop o s
  | .next st s => if st.buf.length > 0 then dumpBuf st s else .next st s

/-- Variables of the merge stage. -/
structure MergeState where
  age : Nat
  currentLevelFiles : Nat
  newCurrentFiles : Nat
  files : List fileWithCloser
  pos : Nat
deriving DecidableEq

/-- Model of the closure `mergeFiles`. -/
def mergeFiles (maxLinesInMem : Nat) (st : MergeState) (s : Store) : Step MergeState :=
  match (if st.currentLevelFiles ≤ maxLinesInMem then NewTempFile s 0 0
         else NewTempFile s (st.age + 1) st.newCurrentFiles) with
  | .stop o s => .stop o s
  | .next f s =>
    match mergeFilesInto st.files f s with
    | .stop o s => .stop o s
    | .next merged s =>
      .next { st with
              newCurrentFiles :=
                if st.currentLevelFiles ≤ maxLinesInMem then st.newCurrentFiles
                else st.newCurrentFiles + 1
              files := merged
              pos := 0 }
        (s.record (if st.currentLevelFiles ≤ maxLinesInMem then Op.closeWriter 0 0
                   else Op.closeWriter (st.age + 1) st.newCurrentFiles))

/-- Inner loop of a merge round: `n` runs still to open, the next one is `i`. -/
def openLoop (maxLinesInMem : Nat) : Nat → Nat → MergeState → Store → Step MergeState
  | 0, _, st, s => .next st s
  | n + 1, i, st, s =>
    match (if st.pos + 1 ≥ maxLinesInMem then mergeFiles maxLinesInMem st s
           else .next st s) with
    | .stop o s => .stop o s
    | .next st s =>
      match GetTempFile s st.age i with
      | .stop o s => .stop o s
      | .next f s =>
        if st.pos < st.files.length then
          openLoop maxLinesInMem n (i + 1)
            { st with
              files := st.files.set st.pos { f := some f, c := some (Op.closeReader st.age i) }
              pos := st.pos + 1 } s
        else .stop .panic s

/-- The loop `for currentLevelFiles > 1`. A `stop` is a return from inside the loop. -/
def mergeRounds (maxLinesInMem : Nat) : Nat → MergeState → Store → Step MergeState
  | fuel, st, s =>
    if st.currentLevelFiles > 1 then
      match fuel with
      | 0 => .stop .fuel s
      | fuel + 1 =>
        match openLoop maxLinesInMem st.currentLevelFiles 0 st s with
        | .stop o s => .stop o s
        | .next st s =>
          match (if st.files.length > 0 then mergeFiles maxLinesInMem st s
                 else .next st s) with
          | .stop o s => .stop o s
          | .next st s =>
            if st.currentLevelFiles ≤ maxLinesInMem then .stop .nil s
            else
              mergeRounds maxLinesInMem fuel
                { st with age := st.age + 1, currentLevelFiles := st.newCurrentFiles,
                          newCurrentFiles := 0 } s
    else .next st s

/-- The last part of `LinesInPlace`: copy run `(age, 0)` into the subject file.
The two deferred closers run on every return after their `defer`. -/
def copyBack (age : Nat) (s : Store) : Outcome × Store :=
  match NewTempFile s 0 0 with
  | .stop o s => (o, s)
  | .next dst s =>
    match GetTempFile s age 0 with
    | .stop o s => (o, s.record (Op.closeWriter 0 0))
    | .next src s =>
      match writeLines dst src s with
      | .stop o s => (o, (s.record (Op.closeReader age 0)).record (Op.closeWriter 0 0))
      | .next _ s => (.nil, (s.record (Op.closeReader age 0)).record (Op.closeWriter 0 0))

/-- The part of `LinesInPlace` up to the end of the split stage: open the subject file,
scan it, flush. -/
def splitFrom (maxLinesInMem : Nat) (s : Store) : Step SplitState :=
  match GetTempFile s 0 0 with
  | .stop o s => .stop o s
  | .next original s => splitStage maxLinesInMem original s

/-- Body of `LinesInPlace` once the two argument checks have passed. -/
def sortLines (maxLinesInMem : Nat) (s : Store) : Outcome × Store :=
  match splitFrom maxLinesInMem s with
  | .stop o s => (o, s)
  | .next st s =>
    if st.currentLevelFiles = 0 then (.nil, s.record (Op.closeReader 0 0))
    else
      match mergeRounds maxLinesInMem st.currentLevelFiles
          { age := 1, currentLevelFiles := st.currentLevelFiles, newCurrentFiles := 0,
            files := List.replicate maxLinesInMem { f := none, c := none }, pos := 0 }
          (s.record (Op.closeReader 0 0)) with
      | .stop o s => (o, s)
      | .next ms s => copyBack ms.age s

/-- The records of the runs `(age, 0)`, ..., `(age, count - 1)`, run after run. -/
def runsOf (s : Store) (age count : Nat) : List Record :=
  (List.range count).flatMap fun i => (s.files age i).getD []

/-- Model of `LinesInPlace`; a nil `FileOpener` is `none`. -/
def LinesInPlace (maxLinesInMem : Int) (manager : Option Store) : Outcome × Option Store :=
  if maxLinesInMem < 2 then (.err (.maxLines maxLinesInMem), manager)
  else
    match manager with
    | none => (.err .nilManager, none)
    | some s => ((sortLines maxLinesInMem.toNat s).1, some (sortLines maxLinesInMem.toNat s).2)

/-- The value of a step after which control continues. -/
def Step.value? {α : Type} : Step α → Option α
  | .next a _ => some a
  | .stop _ _ => none

/-- The in-memory store of the tests, except that every operation equal to `bad` fails. -/
def failingOn (bad : Op) (c : List Record) : Store :=
  { files := fun a n => if a = 0 ∧ n = 0 then some c else none
    fails := fun _ op => decide (op = bad)
    log := [] }

/-- The operations that consult the failure schedule: opening a run and writing to it. -/
def Op.canFail : Op → Bool
  | .GetTempFile _ _ => true
  | .NewTempFile _ _ => true
  | .Write _ _ _ => true
  | .closeReader _ _ => false
  | .closeWriter _ _ => false

/-- Every operation of `ops` that can fail was let through by the schedule `f`, the
history being `L` followed by the operations of `ops` before it. -/
def Passed (f : List Op → Op → Bool) (L ops : List Op) : Prop :=
  ∀ a op b, ops = a ++ op :: b → op.canFail = true → f (L ++ a) op = false

/-- A stage that ended with outcome `o` after issuing `ops`: either nothing failed and `o`
is not the error of a failed operation, or the last operation failed and `o` is its error. -/
def StopOk (f : List Op → Op → Bool) (L ops : List Op) (o : Outcome) : Prop :=
  (Passed f L ops ∧ ∀ op, o ≠ .err (.failed op)) ∨
    ∃ a op, ops = a ++ [op] ∧ Passed f L a ∧ f (L ++ a) op = true ∧ o = .err (.failed op)

/-- What a part of the split stage does to a store: the schedule is kept, only slots of
generation 1 change, the subject file is not opened for writing, and the operations added
to the log are consistent with the schedule. -/
def SplitTrace {α : Type} (s : Store) (r : Step α) : Prop :=
  r.store.fails = s.fails ∧ (∀ a n, a ≠ 1 → r.store.files a n = s.files a n) ∧
    ∃ ops, r.store.log = s.log ++ ops ∧ Op.NewTempFile 0 0 ∉ ops ∧
      match r with
      | .next _ _ => Passed s.fails s.log ops
      | .stop o _ => StopOk s.fails s.log ops o

/-! ## Two implementations of `FileOpener`

The definitions above follow the comment of the interface, "NewTempFile opens file for
write, existing file shall be over written": opening a run for writing leaves its slot
empty, and a write appends. `mockManager.NewTempFile` of the tests does so with a fresh
`bytes.Buffer`. The file-backed `FileManager` opens with `os.O_WRONLY | os.O_CREATE`,
without `os.O_TRUNC`: a file that exists keeps its bytes, and the writes replace them from
offset 0 on, so what lay beyond the last write stays. The definitions below give both as
values of one structure, and `LinesInPlace` over either of them. -/

/-- The bytes of a run on disk: every record followed by the terminator. -/
def bytesOf (recs : List Record) : List Nat := recs.flatMap fun r => r ++ [10]

/-- Model of `dropCR` of `bufio`: a trailing carriage return is removed. -/
def dropCR (line : Record) : Record :=
  if line.getLast? = some 13 then line.dropLast else line

/-- Model of `bufio.ScanLines` run over a whole file: `cur` is the line read so far. -/
def linesOfAux : List Nat → Record → List Record
  | [], cur => if cur = [] then [] else [dropCR cur]
  | b :: rest, cur =>
    if b = 10 then dropCR cur :: linesOfAux rest [] else linesOfAux rest (cur ++ [b])

/-- The records a scanner returns from a file with the given bytes. -/
def linesOf (bytes : List Nat) : List Record := linesOfAux bytes []

/-- Writing `b` at offset `off` of a file holding `old`: the bytes under `b` are replaced,
the bytes after it stay. -/
def overwrite (old : List Nat) (off : Nat) (b : List Nat) : List Nat :=
  old.take off ++ b ++ old.drop (off + b.length)

/-- A file opened for writing: its slot and the offset of the next write. -/
structure Writer where
  age : Nat
  num : Nat
  offset : Nat
deriving DecidableEq

/-- An implementation of the interface `FileOpener`, with the `Write` of its writers. -/
structure FileOpener where
  GetTempFile : Store → Nat → Nat → Step Scanner
  NewTempFile : Store → Nat → Nat → Step Writer
  Write : Store → Writer → Record → Step Writer

/-- The operations defined above as a `FileOpener`: `NewTempFile` replaces a file that
exists, the way the interface comment asks and `mockManager.NewTempFile` does. -/
def truncatingManager : FileOpener where
  GetTempFile := GetTempFile
  NewTempFile := fun s age num =>
    match NewTempFile s age num with
    | .stop o s => .stop o s
    | .next w s => .next { age := w.1, num := w.2, offset := 0 } s
  Write := fun s w line =>
    match Write s (w.age, w.num) line with
    | .stop o s => .stop o s
    | .next _ s => .next w s

/-- Model of `FileManager`. `GetTempFile` opens read-only and fails on a missing file.
`NewTempFile` opens with `os.O_WRONLY | os.O_CREATE`: the file is created when it is
missing and keeps its content when it exists, and the writer starts at offset 0. `Write`
replaces the bytes at the offset of the writer and moves the offset past them; the store
keeps the records a scanner would read from the resulting bytes. -/
def FileManager : FileOpener where
  GetTempFile := GetTempFile
  NewTempFile := fun s age num =>
    if s.fails s.log (Op.NewTempFile age num) then
      .stop (.err (.failed (Op.NewTempFile age num))) (s.record (Op.NewTempFile age num))
    else
      .next { age := age, num := num, offset := 0 }
        ((s.record (Op.NewTempFile age num)).setFile age num ((s.files age num).getD []))
  Write := fun s w line =>
    if s.fails s.log (Op.Write w.age w.num line) then
      .stop (.err (.failed (Op.Write w.age w.num line))) (s.record (Op.Write w.age w.num line))
    else
      .next { w with offset := w.offset + (line ++ [10]).length }
        ((s.record (Op.Write w.age w.num line)).setFile w.age w.num
          (linesOf (overwrite (bytesOf ((s.files w.age w.num).getD [])) w.offset
            (line ++ [10]))))

/-- Write loop of `dumpBuf` and of the final copy, over a manager. -/
def writeLinesOn (m : FileOpener) (w : Writer) : List Record → Store → Step Writer
  | [], s => .next w s
  | l :: rest, s =>
    match m.Write s w l with
    | .stop o s => .stop o s
    | .next w s => writeLinesOn m w rest s

/-- The closure `dumpBuf`, over a manager. -/
def dumpBufOn (m : FileOpener) (st : SplitState) (s : Store) : Step SplitState :=
  match m.NewTempFile s 1 st.currentLevelFiles with
  | .stop o s => .stop o s
  | .next file s =>
    match writeLinesOn m file (sortStrings st.buf) s with
    | .stop o s => .stop o s
    | .next _ s =>
      .next { buf := sortStrings st.buf, pos := 0,
              currentLevelFiles := st.currentLevelFiles + 1 }
        (s.record (Op.closeWriter 1 st.currentLevelFiles))

/-- The scan loop of the split stage, over a manager. -/
def scanLoopOn (m : FileOpener) (maxLinesInMem : Nat) :
    Scanner → SplitState → Store → Step SplitState
  | [], st, s => .next st s
  | line :: rest, st, s =>
    match (if st.pos + 1 ≥ maxLinesInMem then dumpBufOn m st s else .next st s) with
    | .stop o s => .stop o s
    | .next st s =>
      if st.pos < st.buf.length then
        scanLoopOn m maxLinesInMem rest
          { st with buf := st.buf.set st.pos line, pos := st.pos + 1 } s
      else .stop .panic s

/-- The split stage, over a manager. -/
def splitStageOn (m : FileOpener) (maxLinesInMem : Nat) (original : Scanner) (s : Store) :
    Step SplitState :=
  match scanLoopOn m maxLinesInMem original
      { buf := List.replicate maxLinesInMem [], pos := 0, currentLevelFiles := 0 } s with
  | .stop o s => .stop o s
  | .next st s => if st.buf.length > 0 then dumpBufOn m st s else .next st s

/-- The part of `LinesInPlace` up to the end of the split stage, over a manager. -/
def splitFromOn (m : FileOpener) (maxLinesInMem : Nat) (s : Store) : Step SplitState :=
  match m.GetTempFile s 0 0 with
  | .stop o s => .stop o s
  | .next original s => splitStageOn m maxLinesInMem original s

/-- Main loop of `mergeFilesInto`, over a manager. -/
def mergeLoopOn (m : FileOpener) : Nat → priorityQueue → List fileWithCloser → Writer →
    Store → Step (List fileWithCloser)
  | fuel, h, files, dst, s =>
    if h.Len > 0 then
      match fuel with
      | 0 => .stop .fuel s
      | fuel + 1 =>
        match m.Write s dst (heap.Pop h).1.line with
        | .stop o s => .stop o s
        | .next dst s =>
          match files[(heap.Pop h).1.fileIndex]? with
          | none => .stop .panic s
          | some file =>
            match file.f with
            | none => .stop .panic s
            | some [] => mergeLoopOn m fuel (heap.Pop h).2 files dst s
            | some (l :: ls) =>
              mergeLoopOn m fuel
                (heap.Push (heap.Pop h).2 { fileIndex := (heap.Pop h).1.fileIndex, line := l })
                (files.set (heap.Pop h).1.fileIndex { file with f := some ls }) dst s
    else .next files s

/-- Model of `mergeFilesInto`, over a manager. -/
def mergeFilesIntoOn (m : FileOpener) (files : List fileWithCloser) (dst : Writer)
    (s : Store) : Step (List fileWithCloser) :=
  match seedQueue files 0 [] with
  | none =>
    match closeAll files s with
    | .stop o s => .stop o s
    | .next _ s => .stop .panic s
  | some (h, scanned) =>
    match mergeLoopOn m (unread files) (heap.Init h) scanned dst s with
    | .stop o s =>
      match closeAll files s with
      | .stop o2 s => .stop o2 s
      | .next _ s => .stop o s
    | .next merged s =>
      match closeAll files s with
      | .stop o s => .stop o s
      | .next _ s => .next merged s

/-- The closure `mergeFiles`, over a manager. -/
def mergeFilesOn (m : FileOpener) (maxLinesInMem : Nat) (st : MergeState) (s : Store) :
    Step MergeState :=
  match (if st.currentLevelFiles ≤ maxLinesInMem then m.NewTempFile s 0 0
         else m.NewTempFile s (st.age + 1) st.newCurrentFiles) with
  | .stop o s => .stop o s
  | .next f s =>
    match mergeFilesIntoOn m st.files f s with
    | .stop o s => .stop o s
    | .next merged s =>
      .next { st with
              newCurrentFiles :=
                if st.currentLevelFiles ≤ maxLinesInMem then st.newCurrentFiles
                else st.newCurrentFiles + 1
              files := merged
              pos := 0 }
        (s.record (if st.currentLevelFiles ≤ maxLinesInMem then Op.closeWriter 0 0
                   else Op.closeWriter (st.age + 1) st.newCurrentFiles))

/-- Inner loop of a merge round, over a manager. -/
def openLoopOn (m : FileOpener) (maxLinesInMem : Nat) :
    Nat → Nat → MergeState → Store → Step MergeState
  | 0, _, st, s => .next st s
  | n + 1, i, st, s =>
    match (if st.pos + 1 ≥ maxLinesInMem then mergeFilesOn m maxLinesInMem st s
           else .next st s) with
    | .stop o s => .stop o s
    | .next st s =>
      match m.GetTempFile s st.age i with
      | .stop o s => .stop o s
      | .next f s =>
        if st.pos < st.files.length then
          openLoopOn m maxLinesInMem n (i + 1)
            { st with
              files := st.files.set st.pos { f := some f, c := some (Op.closeReader st.age i) }
              pos := st.pos + 1 } s
        else .stop .panic s

/-- The loop `for currentLevelFiles > 1`, over a manager. -/
def mergeRoundsOn (m : FileOpener) (maxLinesInMem : Nat) :
    Nat → MergeState → Store → Step MergeState
  | fuel, st, s =>
    if st.currentLevelFiles > 1 then
      match fuel with
      | 0 => .stop .fuel s
      | fuel + 1 =>
        match openLoopOn m maxLinesInMem st.currentLevelFiles 0 st s with
        | .stop o s => .stop o s
        | .next st s =>
          match (if st.files.length > 0 then mergeFilesOn m maxLinesInMem st s
                 else .next st s) with
          | .stop o s => .stop o s
          | .next st s =>
            if st.currentLevelFiles ≤ maxLinesInMem then .stop .nil s
            else
              mergeRoundsOn m maxLinesInMem fuel
                { st with age := st.age + 1, currentLevelFiles := st.newCurrentFiles,
                          newCurrentFiles := 0 } s
    else .next st s

/-- The final copy of `LinesInPlace`, over a manager. -/
def copyBackOn (m : FileOpener) (age : Nat) (s : Store) : Outcome × Store :=
  match m.NewTempFile s 0 0 with
  | .stop o s => (o, s)
  | .next dst s =>
    match m.GetTempFile s age 0 with
    | .stop o s => (o, s.record (Op.closeWriter 0 0))
    | .next src s =>
      match writeLinesOn m dst src s with
      | .stop o s => (o, (s.record (Op.closeReader age 0)).record (Op.closeWriter 0 0))
      | .next _ s => (.nil, (s.record (Op.closeReader age 0)).record (Op.closeWriter 0 0))

/-- Body of `LinesInPlace` after the two argument checks, over a manager. -/
def sortLinesOn (m : FileOpener) (maxLinesInMem : Nat) (s : Store) : Outcome × Store :=
  match splitFromOn m maxLinesInMem s with
  | .stop o s => (o, s)
  | .next st s =>
    if st.currentLevelFiles = 0 then (.nil, s.record (Op.closeReader 0 0))
    else
      match mergeRoundsOn m maxLinesInMem st.currentLevelFiles
          { age := 1, currentLevelFiles := st.currentLevelFiles, newCurrentFiles := 0,
            files := List.replicate maxLinesInMem { f := none, c := none }, pos := 0 }
          (s.record (Op.closeReader 0 0)) with
      | .stop o s => (o, s)
      | .next ms s => copyBackOn m ms.age s

/-- Model of `LinesInPlace` called with the manager `m` on the store `manager`. -/
def LinesInPlaceOn (m : FileOpener) (maxLinesInMem : Int) (manager : Option Store) :
    Outcome × Option Store :=
  if maxLinesInMem < 2 then (.err (.maxLines maxLinesInMem), manager)
  else
    match manager with
    | none => (.err .nilManager, none)
    | some s =>
      ((sortLinesOn m maxLinesInMem.toNat s).1, some (sortLinesOn m maxLinesInMem.toNat s).2)

/-- A store that holds the subject file and the run `(1, 0)` left by an earlier call. -/
def withStaleRun (c stale : List Record) : Store :=
  { files := fun a n =>
      if a = 0 ∧ n = 0 then some c else if a = 1 ∧ n = 0 then some stale else none
    fails := fun _ _ => false
    log := [] }

/-! ## Facts about the queue operations -/

theorem Less_iff (h : priorityQueue) (i j : Nat) :
    h.Less i j = true ↔ key h i < key h j := by
  simp [priorityQueue.Less, key]

theorem length_Swap (h : priorityQueue) (i j : Nat) : (h.Swap i j).length = h.length := by
  simp [priorityQueue.Swap]

theorem getD_Swap (h : priorityQueue) (i j k : Nat) (hi : i < h.length) (hj : j < h.length) :
    (h.Swap i j).getD k default =
      if k = j then h.getD i default else if k = i then h.getD j default
      else h.getD k default := by
  simp only [priorityQueue.Swap, List.getD_eq_getElem?_getD, List.getElem?_set, List.length_set]
  by_cases h1 : j = k
  · subst h1; simp [hj]
  · have h1' : ¬ k = j := fun e => h1 e.symm
    by_cases h2 : i = k
    · subst h2; simp [h1, hi, h1']
    · have h2' : ¬ k = i := fun e => h2 e.symm
      simp [h1, h2, h1', h2']

theorem key_Swap (h : priorityQueue) (i j k : Nat) (hi : i < h.length) (hj : j < h.length) :
    key (h.Swap i j) k =
      if k = j then key h i else if k = i then key h j else key h k := by
  unfold key
  rw [getD_Swap h i j k hi hj]
  split_ifs <;> rfl

theorem perm_set_getD (xs : priorityQueue) (x : pqElement) (j : Nat) (hj : j < xs.length) :
    (xs.getD j default :: xs.set j x).Perm (x :: xs) := by
  induction xs generalizing j with
  | nil => simp at hj
  | cons y ys ih =>
    cases j with
    | zero => simpa using List.Perm.swap x y ys
    | succ j =>
      have hj' : j < ys.length := by simpa using hj
      have := ih j hj'
      simp only [List.getD_cons_succ, List.set_cons_succ]
      exact (List.Perm.swap y _ _).trans ((this.cons y).trans (List.Perm.swap x y ys))

theorem perm_Swap (h : priorityQueue) (i j : Nat) (hi : i < h.length) (hj : j < h.length) :
    (h.Swap i j).Perm h := by
  induction h generalizing i j with
  | nil => simp at hi
  | cons y ys ih =>
    cases i with
    | zero =>
      cases j with
      | zero => simp [priorityQueue.Swap]
      | succ j =>
        have hj' : j < ys.length := by simpa using hj
        simpa [priorityQueue.Swap] using perm_set_getD ys y j hj'
    | succ i =>
      have hi' : i < ys.length := by simpa using hi
      cases j with
      | zero =>
        simpa [priorityQueue.Swap] using perm_set_getD ys y i hi'
      | succ j =>
        have hj' : j < ys.length := by simpa using hj
        have := ih i j hi' hj'
        simpa [priorityQueue.Swap] using this


/-! ## heap.down -/

theorem downLoop_frame (fuel : Nat) (h : priorityQueue) (i n : Nat) (hn : n ≤ h.length) :
    (heap.downLoop fuel h i n).length = h.length ∧ (heap.downLoop fuel h i n).Perm h ∧
      ∀ k, n ≤ k → (heap.downLoop fuel h i n).getD k default = h.getD k default := by
  induction fuel generalizing h i with
  | zero => simp [heap.downLoop]
  | succ fuel ih =>
    unfold heap.downLoop
    simp only []
    split_ifs with h1 h2 h3 h3
    · simp
    · simp
    · have hj : 2 * i + 1 + 1 < h.length := by omega
      have hi : i < h.length := by omega
      obtain ⟨a, b, c⟩ := ih (h.Swap i (2 * i + 1 + 1)) (2 * i + 1 + 1)
        (by rw [length_Swap]; exact hn)
      refine ⟨by rw [a, length_Swap], b.trans (perm_Swap h _ _ hi hj), ?_⟩
      intro k hk
      rw [c k hk, getD_Swap h _ _ _ hi hj]
      have : k ≠ 2 * i + 1 + 1 := by omega
      have : k ≠ i := by omega
      simp [*]
    · simp
    · have hj : 2 * i + 1 < h.length := by omega
      have hi : i < h.length := by omega
      obtain ⟨a, b, c⟩ := ih (h.Swap i (2 * i + 1)) (2 * i + 1)
        (by rw [length_Swap]; exact hn)
      refine ⟨by rw [a, length_Swap], b.trans (perm_Swap h _ _ hi hj), ?_⟩
      intro k hk
      rw [c k hk, getD_Swap h _ _ _ hi hj]
      have : k ≠ 2 * i + 1 := by omega
      have : k ≠ i := by omega
      simp [*]

theorem downLoop_heap (fuel : Nat) (h : priorityQueue) (i0 i n : Nat) (hn : n ≤ h.length)
    (hi0 : i0 ≤ i) (hfuel : n ≤ i + fuel)
    (ha : ∀ c, 0 < c → c < n → i0 ≤ (c - 1) / 2 → (c - 1) / 2 ≠ i →
      key h ((c - 1) / 2) ≤ key h c)
    (hb : i0 < i → ∀ c, 0 < c → c < n → (c - 1) / 2 = i → key h ((i - 1) / 2) ≤ key h c) :
    HeapFrom (heap.downLoop fuel h i n) i0 n := by
  induction fuel generalizing h i with
  | zero =>
    intro c hc0 hcn hp
    simp only [heap.downLoop]
    exact ha c hc0 hcn hp (by omega)
  | succ fuel ih =>
    unfold heap.downLoop
    simp only []
    by_cases h1 : 2 * i + 1 ≥ n
    · rw [if_pos h1]
      intro c hc0 hcn hp
      exact ha c hc0 hcn hp (by omega)
    · rw [if_neg h1]
      have hi : i < h.length := by omega
      -- the smaller child
      obtain ⟨j, hjdef, hjlt, hij, hjpar, hjmin⟩ : ∃ j,
          (if 2 * i + 1 + 1 < n ∧ h.Less (2 * i + 1 + 1) (2 * i + 1) = true
            then 2 * i + 1 + 1 else 2 * i + 1) = j ∧ j < n ∧ i < j ∧ (j - 1) / 2 = i ∧
          ∀ c, 0 < c → c < n → (c - 1) / 2 = i → key h j ≤ key h c := by
        by_cases h2 : 2 * i + 1 + 1 < n ∧ h.Less (2 * i + 1 + 1) (2 * i + 1) = true
        · refine ⟨2 * i + 1 + 1, by rw [if_pos h2], h2.1, by omega, by omega, ?_⟩
          intro c hc0 hcn hcp
          have hlt := (Less_iff h _ _).1 h2.2
          have : c = 2 * i + 1 ∨ c = 2 * i + 1 + 1 := by omega
          rcases this with rfl | rfl
          · exact le_of_lt hlt
          · exact le_refl _
        · refine ⟨2 * i + 1, by rw [if_neg h2], by omega, by omega, by omega, ?_⟩
          intro c hc0 hcn hcp
          have : c = 2 * i + 1 ∨ c = 2 * i + 1 + 1 := by omega
          rcases this with rfl | rfl
          · exact le_refl _
          · have : ¬ h.Less (2 * i + 1 + 1) (2 * i + 1) = true := fun hl => h2 ⟨hcn, hl⟩
            rw [Less_iff] at this
            exact le_of_not_lt this
      rw [hjdef]
      have hj : j < h.length := by omega
      by_cases h3 : (!h.Less j i) = true
      · rw [if_pos h3]
        have hle : key h i ≤ key h j := by
          have : ¬ h.Less j i = true := by simpa using h3
          rw [Less_iff] at this
          exact le_of_not_lt this
        intro c hc0 hcn hp
        by_cases hpc : (c - 1) / 2 = i
        · rw [hpc]; exact le_trans hle (hjmin c hc0 hcn hpc)
        · exact ha c hc0 hcn hp hpc
      · rw [if_neg h3]
        have hlt : key h j < key h i := by
          have : h.Less j i = true := by simpa using h3
          exact (Less_iff h _ _).1 this
        apply ih (h.Swap i j) j (by rw [length_Swap]; exact hn) (by omega) (by omega)
        · intro c hc0 hcn hp hpj
          rw [key_Swap h i j _ hi hj, key_Swap h i j _ hi hj]
          by_cases hpc : (c - 1) / 2 = i
          · have hcj : c ≠ i := by omega
            simp only [hpc, if_neg (ne_of_lt hij), if_true]
            by_cases hcj2 : c = j
            · simp only [hcj2, if_true]; exact le_of_lt hlt
            · simp only [if_neg hcj2, if_neg hcj]; exact hjmin c hc0 hcn hpc
          · simp only [if_neg hpj, if_neg hpc]
            have hcj2 : c ≠ j := by intro e; apply hpc; rw [e]; exact hjpar
            simp only [if_neg hcj2]
            by_cases hci : c = i
            · subst hci
              simp only [if_true]
              have hi0c : i0 < c := by omega
              exact hb hi0c j (by omega) hjlt hjpar
            · simp only [if_neg hci]
              exact ha c hc0 hcn hp hpc
        · intro _ c hc0 hcn hpc
          rw [key_Swap h i j _ hi hj, key_Swap h i j _ hi hj]
          have e1 : (j - 1) / 2 ≠ j := by omega
          have e2 : c ≠ j := by omega
          have e3 : c ≠ i := by omega
          simp only [hjpar, if_neg (ne_of_lt hij), if_true, if_neg e2, if_neg e3]
          have := ha c hc0 hcn (by omega) (by omega)
          rw [hpc] at this
          exact this

theorem down_frame (h : priorityQueue) (i n : Nat) (hn : n ≤ h.length) :
    (heap.down h i n).length = h.length ∧ (heap.down h i n).Perm h ∧
      ∀ k, n ≤ k → (heap.down h i n).getD k default = h.getD k default :=
  downLoop_frame n h i n hn

theorem down_heap (h : priorityQueue) (i0 n : Nat) (hn : n ≤ h.length)
    (ha : ∀ c, 0 < c → c < n → i0 ≤ (c - 1) / 2 → (c - 1) / 2 ≠ i0 →
      key h ((c - 1) / 2) ≤ key h c) :
    HeapFrom (heap.down h i0 n) i0 n :=
  downLoop_heap n h i0 i0 n hn (le_refl _) (by omega) ha (fun hlt => absurd hlt (lt_irrefl _))


/-! ## heap.up -/

theorem upLoop_frame (fuel : Nat) (h : priorityQueue) (j : Nat) (hj : j < h.length) :
    (heap.upLoop fuel h j).length = h.length ∧ (heap.upLoop fuel h j).Perm h := by
  induction fuel generalizing h j with
  | zero => simp [heap.upLoop]
  | succ fuel ih =>
    unfold heap.upLoop
    simp only []
    split_ifs with h1
    · simp
    · have hi : (j - 1) / 2 < h.length := by omega
      obtain ⟨a, b⟩ := ih (h.Swap ((j - 1) / 2) j) ((j - 1) / 2)
        (by rw [length_Swap]; exact hi)
      exact ⟨by rw [a, length_Swap], b.trans (perm_Swap h _ _ hi hj)⟩

theorem upLoop_heap (fuel : Nat) (h : priorityQueue) (j : Nat) (hj : j < h.length)
    (hfuel : j < fuel)
    (ha : ∀ c, 0 < c → c < h.length → c ≠ j → key h ((c - 1) / 2) ≤ key h c)
    (hb : 0 < j → ∀ c, 0 < c → c < h.length → (c - 1) / 2 = j →
      key h ((j - 1) / 2) ≤ key h c) :
    IsHeap (heap.upLoop fuel h j) := by
  induction fuel generalizing h j with
  | zero => omega
  | succ fuel ih =>
    unfold heap.upLoop
    simp only []
    by_cases h1 : (j - 1) / 2 = j ∨ (!h.Less j ((j - 1) / 2)) = true
    · rw [if_pos h1]
      intro c hc0 hcn _
      by_cases hcj : c = j
      · subst hcj
        rcases h1 with h1 | h1
        · omega
        · have : ¬ h.Less c ((c - 1) / 2) = true := by simpa using h1
          rw [Less_iff] at this
          exact le_of_not_lt this
      · exact ha c hc0 hcn hcj
    · rw [if_neg h1]
      have h1a : (j - 1) / 2 ≠ j := fun e => h1 (Or.inl e)
      have hlt : key h j < key h ((j - 1) / 2) := by
        have : h.Less j ((j - 1) / 2) = true := by
          by_contra hne
          exact h1 (Or.inr (by simpa using hne))
        exact (Less_iff h _ _).1 this
      have hj0 : 0 < j := by omega
      have hi : (j - 1) / 2 < h.length := by omega
      have hij : (j - 1) / 2 < j := by omega
      have hlen : (h.Swap ((j - 1) / 2) j).length = h.length := length_Swap h _ _
      apply ih (h.Swap ((j - 1) / 2) j) ((j - 1) / 2) (by rw [hlen]; exact hi) (by omega)
      · intro c hc0 hcn hci
        rw [hlen] at hcn
        rw [key_Swap h _ j _ hi hj, key_Swap h _ j _ hi hj]
        by_cases hcj : c = j
        · subst hcj
          simp only [if_neg h1a, if_true]
          exact le_of_lt hlt
        · simp only [if_neg hcj, if_neg hci]
          by_cases hpj : (c - 1) / 2 = j
          · simp only [hpj, if_true]
            exact hb hj0 c hc0 hcn hpj
          · simp only [if_neg hpj]
            by_cases hpi : (c - 1) / 2 = (j - 1) / 2
            · simp only [hpi, if_true]
              have := ha c hc0 hcn hcj
              rw [hpi] at this
              exact le_trans (le_of_lt hlt) this
            · simp only [if_neg hpi]
              exact ha c hc0 hcn hcj
      · intro hi0 c hc0 hcn hpc
        rw [hlen] at hcn
        rw [key_Swap h _ j _ hi hj, key_Swap h _ j _ hi hj]
        have e1 : ((j - 1) / 2 - 1) / 2 ≠ j := by omega
        have e2 : ((j - 1) / 2 - 1) / 2 ≠ (j - 1) / 2 := by omega
        have e3 : c ≠ (j - 1) / 2 := by omega
        have hpi := ha ((j - 1) / 2) hi0 hi (ne_of_lt hij)
        simp only [if_neg e1, if_neg e2, if_neg e3]
        by_cases hcj : c = j
        · simp only [hcj, if_true]; exact hpi
        · simp only [if_neg hcj]
          have := ha c hc0 hcn hcj
          rw [hpc] at this
          exact le_trans hpi this

/-! ## heap.Init, heap.Push, heap.Pop -/

theorem initLoop_spec (n k : Nat) (h : priorityQueue) (hn : n = h.length)
    (hk : HeapFrom h k n) :
    IsHeap (heap.initLoop n k h) ∧ (heap.initLoop n k h).Perm h := by
  induction k generalizing h with
  | zero =>
    simp only [heap.initLoop]
    exact ⟨by unfold IsHeap; rw [← hn]; exact hk, List.Perm.refl _⟩
  | succ k ih =>
    simp only [heap.initLoop]
    obtain ⟨hl, hp, _⟩ := down_frame h k n (le_of_eq hn)
    have hh : HeapFrom (heap.down h k n) k n := by
      apply down_heap h k n (le_of_eq hn)
      intro c hc0 hcn hpk hne
      exact hk c hc0 hcn (by omega)
    obtain ⟨a, b⟩ := ih (heap.down h k n) (by rw [hl]; exact hn) hh
    exact ⟨a, b.trans hp⟩

theorem Init_spec (h : priorityQueue) : IsHeap (heap.Init h) ∧ (heap.Init h).Perm h := by
  unfold heap.Init priorityQueue.Len
  apply initLoop_spec _ _ h rfl
  intro c hc0 hcn hp
  omega

theorem key_append_left (h : priorityQueue) (x : pqElement) (c : Nat) (hc : c < h.length) :
    key (h ++ [x]) c = key h c := by
  simp [key, List.getD_eq_getElem?_getD, List.getElem?_append_left hc]

theorem Push_spec (h : priorityQueue) (x : pqElement) (hh : IsHeap h) :
    IsHeap (heap.Push h x) ∧ (heap.Push h x).Perm (x :: h) := by
  unfold heap.Push heap.up priorityQueue.Push priorityQueue.Len
  have hlen : (h ++ [x]).length - 1 = h.length := by simp
  rw [hlen]
  have hj : h.length < (h ++ [x]).length := by simp
  refine ⟨?_, (upLoop_frame _ _ _ hj).2.trans (List.perm_append_singleton x h)⟩
  apply upLoop_heap _ _ _ hj (by omega)
  · intro c hc0 hcn hne
    have hc : c < h.length := by simp at hcn; omega
    rw [key_append_left h x c hc, key_append_left h x _ (by omega)]
    exact hh c hc0 hc (Nat.zero_le _)
  · intro _ c hc0 hcn hpc
    simp at hcn
    omega

theorem heap_root_le (h : priorityQueue) (hh : IsHeap h) (c : Nat) (hc : c < h.length) :
    key h 0 ≤ key h c := by
  induction c using Nat.strong_induction_on with
  | _ c ih =>
    by_cases hc0 : c = 0
    · subst hc0; exact le_refl _
    · have hp : (c - 1) / 2 < c := by omega
      exact le_trans (ih _ hp (by omega)) (hh c (by omega) hc (Nat.zero_le _))

theorem mem_iff_getD (h : priorityQueue) (e : pqElement) :
    e ∈ h ↔ ∃ c, c < h.length ∧ h.getD c default = e := by
  constructor
  · intro he
    obtain ⟨c, hc, rfl⟩ := List.getElem_of_mem he
    exact ⟨c, hc, by simp [List.getD_eq_getElem?_getD, List.getElem?_eq_getElem hc]⟩
  · rintro ⟨c, hc, rfl⟩
    simp [List.getD_eq_getElem?_getD, List.getElem?_eq_getElem hc]

theorem Pop_frame (h : priorityQueue) (hne : 0 < h.length) :
    h.Perm ((heap.Pop h).1 :: (heap.Pop h).2) ∧ (heap.Pop h).2.length + 1 = h.length ∧
      (heap.Pop h).1 = h.getD 0 default ∧
      (heap.Pop h).2 = List.take (h.length - 1)
        (heap.down (h.Swap 0 (h.length - 1)) 0 (h.length - 1)) := by
  unfold heap.Pop priorityQueue.Len
  have h0 : 0 < h.length := hne
  have hl : h.length - 1 < h.length := by omega
  have hsl : (h.Swap 0 (h.length - 1)).length = h.length := length_Swap h _ _
  obtain ⟨dl, dp, df⟩ := down_frame (h.Swap 0 (h.length - 1)) 0 (h.length - 1)
    (by rw [hsl]; omega)
  generalize heap.down (h.Swap 0 (h.length - 1)) 0 (h.length - 1) = d at dl dp df
  rw [hsl] at dl
  have hlast : d.getD (h.length - 1) default = h.getD 0 default := by
    rw [df _ (le_refl _), getD_Swap h 0 _ _ h0 hl]
    simp
  unfold priorityQueue.Pop
  simp only [dl, hlast]
  refine ⟨?_, ?_, trivial, trivial⟩
  · have hsplit : d = List.take (h.length - 1) d ++ [h.getD 0 default] := by
      conv_lhs => rw [← List.take_append_drop (h.length - 1) d]
      congr 1
      have hdl : (List.drop (h.length - 1) d).length = 1 := by simp [dl]; omega
      match hdd : List.drop (h.length - 1) d, hdl with
      | [x], _ =>
        have : d.getD (h.length - 1) default = x := by
          have := congrArg (fun l => l.getD 0 default) hdd
          simpa [List.getD_eq_getElem?_getD] using this
        rw [← this, hlast]
    have p1 : d.Perm h := dp.trans (perm_Swap h _ _ h0 hl)
    have p2 : d.Perm (h.getD 0 default :: List.take (h.length - 1) d) := by
      conv_lhs => rw [hsplit]
      exact List.perm_append_singleton _ _
    exact p1.symm.trans p2
  · simp [dl]; omega

theorem Pop_heap (h : priorityQueue) (hh : IsHeap h) (hne : 0 < h.length) :
    IsHeap (heap.Pop h).2 ∧ ∀ e ∈ h, (heap.Pop h).1.line ≤ e.line := by
  obtain ⟨_, hlen, h1, h2⟩ := Pop_frame h hne
  have h0 : 0 < h.length := hne
  have hl : h.length - 1 < h.length := by omega
  have hsl : (h.Swap 0 (h.length - 1)).length = h.length := length_Swap h _ _
  have dh : HeapFrom (heap.down (h.Swap 0 (h.length - 1)) 0 (h.length - 1)) 0 (h.length - 1) := by
    apply down_heap _ 0 _ (by rw [hsl]; omega)
    intro c hc0 hcn _ hp
    rw [key_Swap h 0 _ _ h0 hl, key_Swap h 0 _ _ h0 hl]
    have e1 : (c - 1) / 2 ≠ h.length - 1 := by omega
    have e2 : c ≠ h.length - 1 := by omega
    have e3 : c ≠ 0 := by omega
    simp only [if_neg e1, if_neg hp, if_neg e2, if_neg e3]
    exact hh c hc0 (by omega) (Nat.zero_le _)
  constructor
  · intro c hc0 hcn _
    have hcn' : c < h.length - 1 := by omega
    have := dh c hc0 hcn' (Nat.zero_le _)
    rw [h2]
    simpa [key, List.getD_eq_getElem?_getD, List.getElem?_take, hcn',
      show (c - 1) / 2 < h.length - 1 by omega] using this
  · intro e he
    obtain ⟨c, hc, rfl⟩ := (mem_iff_getD h e).1 he
    rw [h1]
    exact heap_root_le h hh c hc

theorem Push_perm (h : priorityQueue) (x : pqElement) : (heap.Push h x).Perm (x :: h) := by
  unfold heap.Push heap.up priorityQueue.Push priorityQueue.Len
  have hlen : (h ++ [x]).length - 1 = h.length := by simp
  rw [hlen]
  have hj : h.length < (h ++ [x]).length := by simp
  exact (upLoop_frame _ _ _ hj).2.trans (List.perm_append_singleton x h)

/-! ## Store operations -/

theorem Write_ok (s : Store) (w : Nat × Nat) (l : Record)
    (h : s.fails s.log (Op.Write w.1 w.2 l) = false) :
    Write s w l = .next () ((s.record (Op.Write w.1 w.2 l)).setFile w.1 w.2
      (((s.files w.1 w.2).getD []) ++ [l])) := by
  simp [Write, h]

theorem Write_fail (s : Store) (w : Nat × Nat) (l : Record)
    (h : s.fails s.log (Op.Write w.1 w.2 l) = true) :
    Write s w l = .stop (.err (.failed (Op.Write w.1 w.2 l)))
      (s.record (Op.Write w.1 w.2 l)) := by
  simp [Write, h]

theorem writable_record (s : Store) (w : Nat × Nat) (op : Op) (h : s.writable w) :
    (s.record op).writable w := h

theorem writable_setFile (s : Store) (w : Nat × Nat) (a n : Nat) (c : List Record)
    (h : s.writable w) : (s.setFile a n c).writable w := h

theorem files_setFile_self (s : Store) (a n : Nat) (c : List Record) :
    (s.setFile a n c).files a n = some c := by
  simp [Store.setFile]

theorem files_setFile_ne (s : Store) (a n a2 n2 : Nat) (c : List Record)
    (h : ¬ (a2 = a ∧ n2 = n)) : (s.setFile a n c).files a2 n2 = s.files a2 n2 := by
  simp [Store.setFile, h]

theorem files_record (s : Store) (op : Op) : (s.record op).files = s.files := rfl

theorem fails_record (s : Store) (op : Op) : (s.record op).fails = s.fails := rfl

theorem fails_setFile (s : Store) (a n : Nat) (c : List Record) :
    (s.setFile a n c).fails = s.fails := rfl

/-! ## closeAll -/

theorem closeAll_files (files : List fileWithCloser) (s : Store) :
    (closeAll files s).store.files = s.files ∧ (closeAll files s).store.fails = s.fails := by
  induction files generalizing s with
  | nil => simp [closeAll, Step.store]
  | cons file rest ih =>
    cases hc : file.c with
    | none => simp [closeAll, callCloser, hc, Step.store]
    | some op =>
      simp only [closeAll, callCloser, hc]
      have := ih (s.record op)
      simpa [files_record, fails_record] using this

theorem closeAll_stop (files : List fileWithCloser) (s s2 : Store) (o : Outcome)
    (h : closeAll files s = .stop o s2) : o = .panic := by
  induction files generalizing s with
  | nil => simp [closeAll] at h
  | cons file rest ih =>
    cases hc : file.c with
    | none =>
      simp [closeAll, callCloser, hc] at h
      exact h.1.symm
    | some op =>
      simp only [closeAll, callCloser, hc] at h
      exact ih _ h

theorem closeAll_next (files : List fileWithCloser) (s : Store)
    (h : ∀ file ∈ files, file.c ≠ none) :
    ∃ s2, closeAll files s = .next () s2 := by
  induction files generalizing s with
  | nil => exact ⟨s, rfl⟩
  | cons file rest ih =>
    cases hc : file.c with
    | none => exact absurd hc (h file (List.mem_cons_self _ _))
    | some op =>
      simp only [closeAll, callCloser, hc]
      exact ih _ (fun f hf => h f (List.mem_cons_of_mem _ hf))

/-! ## seedQueue -/

theorem pending_nil : pending [] = [] := rfl

theorem pending_cons (file : fileWithCloser) (rest : List fileWithCloser) :
    pending (file :: rest) = file.f.getD [] ++ pending rest := by
  simp [pending]

theorem unread_eq (files : List fileWithCloser) : unread files = (pending files).length := by
  induction files with
  | nil => rfl
  | cons file rest ih =>
    rw [pending_cons]
    simp only [unread, List.map_cons, List.sum_cons, List.length_append] at ih ⊢
    rw [ih]

theorem seedQueue_none (files : List fileWithCloser) (i : Nat) (h : priorityQueue)
    (hnil : ∃ file ∈ files, file.f = none) : seedQueue files i h = none := by
  induction files generalizing i h with
  | nil => simp at hnil
  | cons file rest ih =>
    match hf : file.f with
    | none => simp [seedQueue, hf]
    | some [] =>
      have hr : ∃ f ∈ rest, f.f = none := by
        obtain ⟨f, hm, hn⟩ := hnil
        rcases List.mem_cons.1 hm with rfl | hm
        · rw [hf] at hn; cases hn
        · exact ⟨f, hm, hn⟩
      simp [seedQueue, hf, ih _ _ hr]
    | some (l :: ls) =>
      have hr : ∃ f ∈ rest, f.f = none := by
        obtain ⟨f, hm, hn⟩ := hnil
        rcases List.mem_cons.1 hm with rfl | hm
        · rw [hf] at hn; cases hn
        · exact ⟨f, hm, hn⟩
      simp [seedQueue, hf, ih _ _ hr]

theorem seedQueue_some (files : List fileWithCloser) (i : Nat) (h0 : priorityQueue)
    (hopen : ∀ file ∈ files, file.f ≠ none) :
    ∃ h scanned, seedQueue files i h0 = some (h, scanned) ∧
      scanned.length = files.length ∧
      (∀ file ∈ scanned, file.f ≠ none) ∧
      (h.map (·.line) ++ pending scanned).Perm (h0.map (·.line) ++ pending files) ∧
      (∀ e ∈ h, e ∈ h0 ∨ ∃ k file sc l, e.fileIndex = i + k ∧ e.line = l ∧
        files[k]? = some file ∧ file.f = some (l :: sc) ∧
        ∃ file2, scanned[k]? = some file2 ∧ file2.f = some sc) ∧
      (∀ (k : Nat) (file : fileWithCloser), scanned[k]? = some file →
        ∃ file0 : fileWithCloser, files[k]? = some file0 ∧
        ∃ d, file0.f.getD [] = d ++ file.f.getD []) ∧
      (∀ e ∈ h0, e ∈ h) ∧
      (∀ (k : Nat) (file : fileWithCloser), scanned[k]? = some file →
        file.f.getD [] ≠ [] → ∃ e ∈ h, e.fileIndex = i + k) := by
  induction files generalizing i h0 with
  | nil =>
    exact ⟨h0, [], rfl, rfl, by simp, List.Perm.refl _, fun e he => Or.inl he, by simp,
      fun e he => he, by simp⟩
  | cons file rest ih =>
    have hrest : ∀ f ∈ rest, f.f ≠ none := fun f hf => hopen f (List.mem_cons_of_mem _ hf)
    match hf : file.f with
    | none => exact absurd hf (hopen file (List.mem_cons_self _ _))
    | some [] =>
      obtain ⟨h, sc, e1, e2, e3, e4, e5, e6, e7, e8⟩ := ih (i + 1) h0 hrest
      refine ⟨h, file :: sc, by simp [seedQueue, hf, e1], by simp [e2], ?_, ?_, ?_, ?_,
        e7, ?_⟩
      · intro f hm
        rcases List.mem_cons.1 hm with rfl | hm
        · rw [hf]; simp
        · exact e3 f hm
      · simpa [pending_cons, hf] using e4
      · intro e he
        rcases e5 e he with hin | ⟨k, fl, s1, l, a, b, c, d, fl2, g1, g2⟩
        · exact Or.inl hin
        · exact Or.inr ⟨k + 1, fl, s1, l, by omega, b, by simpa using c, d, fl2,
            by simpa using g1, g2⟩
      · intro k fl hk
        cases k with
        | zero =>
          have hk2 : file = fl := by simpa using hk
          subst hk2
          exact ⟨file, by simp, [], by simp⟩
        | succ k =>
          obtain ⟨f0, a, b⟩ := e6 k fl (by simpa using hk)
          exact ⟨f0, by simpa using a, b⟩
      · intro k fl hk hne
        cases k with
        | zero =>
          have hk2 : file = fl := by simpa using hk
          subst hk2
          rw [hf] at hne
          simp at hne
        | succ k =>
          obtain ⟨e, he, hek⟩ := e8 k fl (by simpa using hk) hne
          exact ⟨e, he, by omega⟩
    | some (l :: ls) =>
      obtain ⟨h, sc, e1, e2, e3, e4, e5, e6, e7, e8⟩ :=
        ih (i + 1) (h0 ++ [{ fileIndex := i, line := l }]) hrest
      refine ⟨h, { file with f := some ls } :: sc, by simp [seedQueue, hf, e1], by simp [e2],
        ?_, ?_, ?_, ?_, fun e he => e7 e (List.mem_append_left _ he), ?_⟩
      · intro f hm
        rcases List.mem_cons.1 hm with rfl | hm
        · simp
        · exact e3 f hm
      · have : (h.map (·.line) ++ pending ({ file with f := some ls } :: sc)).Perm
            (ls ++ (h.map (·.line) ++ pending sc)) := by
          rw [pending_cons]
          simp only [Option.getD_some]
          rw [← List.append_assoc, ← List.append_assoc]
          exact List.Perm.append_right _ List.perm_append_comm
        refine this.trans ?_
        refine (List.Perm.append_left ls e4).trans ?_
        rw [pending_cons, hf]
        simp only [List.map_append, List.map_cons, List.map_nil, Option.getD_some,
          List.append_assoc, List.singleton_append, List.cons_append]
        refine List.perm_append_comm.trans ?_
        simp only [List.append_assoc, List.cons_append]
        refine List.Perm.append_left _ ?_
        simpa using (List.perm_append_comm : (pending rest ++ ls).Perm (ls ++ pending rest))
      · intro e he
        rcases e5 e he with hin | ⟨k, fl, s1, l2, a, b, c, d, fl2, g1, g2⟩
        · rcases List.mem_append.1 hin with hin | hin
          · exact Or.inl hin
          · simp at hin
            subst hin
            exact Or.inr ⟨0, file, ls, l, rfl, rfl, by simp, hf, { file with f := some ls },
              by simp, rfl⟩
        · exact Or.inr ⟨k + 1, fl, s1, l2, by omega, b, by simpa using c, d, fl2,
            by simpa using g1, g2⟩
      · intro k fl hk
        cases k with
        | zero =>
          have hk2 : { file with f := some ls } = fl := by simpa using hk
          subst hk2
          exact ⟨file, by simp, [l], by simp [hf]⟩
        | succ k =>
          obtain ⟨f0, a, b⟩ := e6 k fl (by simpa using hk)
          exact ⟨f0, by simpa using a, b⟩
      · intro k fl hk hne
        cases k with
        | zero =>
          exact ⟨{ fileIndex := i, line := l }, e7 _ (by simp), rfl⟩
        | succ k =>
          obtain ⟨e, he, hek⟩ := e8 k fl (by simpa using hk) hne
          exact ⟨e, he, by omega⟩

/-! ## The merge loop: every record is written once -/

theorem pending_set (files : List fileWithCloser) (k : Nat) (file : fileWithCloser)
    (l : Record) (ls : List Record) (hk : files[k]? = some file) (hf : file.f = some (l :: ls)) :
    (pending files).Perm (l :: pending (files.set k { file with f := some ls })) := by
  induction files generalizing k with
  | nil => simp at hk
  | cons x xs ih =>
    cases k with
    | zero =>
      have hx : x = file := by simpa using hk
      subst hx
      simp [pending_cons, hf]
    | succ k =>
      have := ih k (by simpa using hk)
      simp only [List.set_cons_succ, pending_cons]
      exact (List.Perm.append_left _ this).trans List.perm_middle

theorem mergeLoop_perm (fuel : Nat) (h : priorityQueue) (files : List fileWithCloser)
    (dst : Nat × Nat) (s : Store) (hw : s.writable dst)
    (hopen : ∀ file ∈ files, file.f ≠ none)
    (hidx : ∀ e ∈ h, e.fileIndex < files.length)
    (hcov : ∀ (k : Nat) (file : fileWithCloser), files[k]? = some file →
      file.f.getD [] ≠ [] → ∃ e ∈ h, e.fileIndex = k)
    (hfuel : h.length + unread files ≤ fuel) :
    ∃ merged s2 out, mergeLoop fuel h files dst s = .next merged s2 ∧
      (s2.files dst.1 dst.2).getD [] = (s.files dst.1 dst.2).getD [] ++ out ∧
      out.Perm (h.map (·.line) ++ pending files) ∧ s2.fails = s.fails ∧
      ∀ a n, ¬ (a = dst.1 ∧ n = dst.2) → s2.files a n = s.files a n := by
  induction fuel generalizing h files s with
  | zero =>
    have hh : h = [] := List.length_eq_zero.1 (by omega)
    have hp : pending files = [] := List.length_eq_zero.1 (by rw [← unread_eq]; omega)
    subst hh
    rw [mergeLoop]
    simp only [priorityQueue.Len, List.length_nil, gt_iff_lt, lt_self_iff_false, if_false]
    exact ⟨files, s, [], rfl, by simp, by simp [hp], rfl, fun _ _ _ => rfl⟩
  | succ fuel ih =>
    rw [mergeLoop]
    by_cases hlen : h.Len > 0
    · rw [if_pos hlen]
      have hlen' : 0 < h.length := hlen
      obtain ⟨pp, pl, -, -⟩ := Pop_frame h hlen'
      generalize heap.Pop h = p at pp pl
      obtain ⟨el, h'⟩ := p
      simp only at pp pl ⊢
      have hel : el ∈ h := pp.symm.subset (List.mem_cons_self _ _)
      have hsub : ∀ e ∈ h', e ∈ h := fun e he => pp.symm.subset (List.mem_cons_of_mem _ he)
      rw [Write_ok s dst el.line (hw _ _)]
      simp only
      have hlt := hidx el hel
      have hget : files[el.fileIndex]? = some files[el.fileIndex] :=
        List.getElem?_eq_getElem hlt
      rw [hget]
      simp only
      generalize hfile : files[el.fileIndex] = file at hget
      have hs1w : ((s.record (Op.Write dst.1 dst.2 el.line)).setFile dst.1 dst.2
          ((s.files dst.1 dst.2).getD [] ++ [el.line])).writable dst := hw
      have hlines : (h.map (·.line)).Perm (el.line :: h'.map (·.line)) := by
        simpa using pp.map (·.line)
      match hf : file.f with
      | none => exact absurd hf (hopen file (List.mem_iff_getElem?.2 ⟨_, hget⟩))
      | some [] =>
        simp only
        obtain ⟨merged, s2, out, e1, e2, e3, e4, e5⟩ := ih h' files _ hs1w hopen
          (fun e he => hidx e (hsub e he))
          (by
            intro k fl hk hne
            obtain ⟨e, he, hek⟩ := hcov k fl hk hne
            rcases List.mem_cons.1 (pp.subset he) with rfl | he'
            · rw [hek] at hget
              rw [hget] at hk
              cases hk
              rw [hf] at hne
              simp at hne
            · exact ⟨e, he', hek⟩)
          (by omega)
        refine ⟨merged, s2, el.line :: out, e1, ?_, ?_, e4, ?_⟩
        · rw [e2, files_setFile_self]; simp
        · exact (List.Perm.cons _ e3).trans (List.Perm.append_right _ hlines.symm)
        · intro a n hne
          rw [e5 a n hne, files_setFile_ne _ _ _ _ _ _ hne, files_record]
      | some (l :: ls) =>
        simp only
        have hps := pending_set files el.fileIndex file l ls hget hf
        have hpush := Push_perm h' { fileIndex := el.fileIndex, line := l }
        obtain ⟨merged, s2, out, e1, e2, e3, e4, e5⟩ := ih
          (heap.Push h' { fileIndex := el.fileIndex, line := l })
          (files.set el.fileIndex { file with f := some ls }) _ hs1w
          (by
            intro fl hfl
            rcases List.mem_or_eq_of_mem_set hfl with hm | rfl
            · exact hopen fl hm
            · simp)
          (by
            intro e he
            rw [List.length_set]
            rcases List.mem_cons.1 (hpush.subset he) with rfl | he'
            · exact hlt
            · exact hidx e (hsub e he'))
          (by
            intro k fl hk hne
            by_cases hkk : el.fileIndex = k
            · exact ⟨_, hpush.symm.subset (List.mem_cons_self _ _), hkk⟩
            · rw [List.getElem?_set_ne hkk] at hk
              obtain ⟨e, he, hek⟩ := hcov k fl hk hne
              rcases List.mem_cons.1 (pp.subset he) with rfl | he'
              · exact absurd hek hkk
              · exact ⟨e, hpush.symm.subset (List.mem_cons_of_mem _ he'), hek⟩)
          (by
            have h1 := hpush.length_eq
            have h2 := hps.length_eq
            rw [unread_eq] at hfuel ⊢
            simp only [List.length_cons] at h1 h2
            omega)
        refine ⟨merged, s2, el.line :: out, e1, ?_, ?_, e4, ?_⟩
        · rw [e2, files_setFile_self]; simp
        · have hl2 : ((heap.Push h' { fileIndex := el.fileIndex, line := l }).map (·.line)).Perm
              (l :: h'.map (·.line)) := by simpa using hpush.map (·.line)
          have : (h.map (·.line) ++ pending files).Perm
              (el.line :: (l :: h'.map (·.line)
                ++ pending (files.set el.fileIndex { file with f := some ls }))) := by
            refine (List.Perm.append hlines hps).trans ?_
            simp only [List.cons_append]
            refine List.Perm.cons _ ?_
            exact List.perm_middle
          refine (List.Perm.cons _ (e3.trans ?_)).trans this.symm
          exact List.Perm.append_right _ hl2
        · intro a n hne
          rw [e5 a n hne, files_setFile_ne _ _ _ _ _ _ hne, files_record]
    · rw [if_neg hlen]
      have hh : h = [] := List.length_eq_zero.1 (by unfold priorityQueue.Len at hlen; omega)
      subst hh
      have hp : pending files = [] := by
        unfold pending
        rw [List.flatMap_eq_nil_iff]
        intro fl hfl
        by_contra hne
        obtain ⟨k, hk⟩ := List.getElem?_of_mem hfl
        obtain ⟨e, he, _⟩ := hcov k fl hk hne
        simp at he
      exact ⟨files, s, [], rfl, by simp, by simp [hp], rfl, fun _ _ _ => rfl⟩

/-! ## The merge loop: what is written is non-decreasing -/

theorem mergeLoop_sorted (fuel : Nat) (h : priorityQueue) (files : List fileWithCloser)
    (dst : Nat × Nat) (s : Store) (b : Record) (hheap : IsHeap h)
    (hsorted : ∀ file ∈ files, (file.f.getD []).Sorted (· ≤ ·))
    (hle : ∀ e ∈ h, ∀ file : fileWithCloser, files[e.fileIndex]? = some file →
      ∀ x ∈ file.f.getD [], e.line ≤ x)
    (hb : ∀ e ∈ h, b ≤ e.line) :
    ∃ out, ((mergeLoop fuel h files dst s).store.files dst.1 dst.2).getD [] =
        (s.files dst.1 dst.2).getD [] ++ out ∧
      out.Sorted (· ≤ ·) ∧ ∀ x ∈ out, b ≤ x := by
  induction fuel generalizing h files s b with
  | zero =>
    rw [mergeLoop]
    refine ⟨[], ?_, List.sorted_nil, by simp⟩
    split_ifs <;> simp [Step.store]
  | succ fuel ih =>
    rw [mergeLoop]
    by_cases hlen : h.Len > 0
    · rw [if_pos hlen]
      have hlen' : 0 < h.length := hlen
      obtain ⟨pp, -, -, -⟩ := Pop_frame h hlen'
      obtain ⟨ph, pmin⟩ := Pop_heap h hheap hlen'
      generalize heap.Pop h = p at pp ph pmin
      obtain ⟨el, h'⟩ := p
      simp only at pp ph pmin ⊢
      have hel : el ∈ h := pp.symm.subset (List.mem_cons_self _ _)
      have hsub : ∀ e ∈ h', e ∈ h := fun e he => pp.symm.subset (List.mem_cons_of_mem _ he)
      by_cases hfail : s.fails s.log (Op.Write dst.1 dst.2 el.line) = true
      · rw [Write_fail s dst el.line hfail]
        exact ⟨[], by simp [Step.store, files_record], List.sorted_nil, by simp⟩
      · rw [Write_ok s dst el.line (by simpa using hfail)]
        simp only
        have hone : ∀ s1 : Store, s1.files dst.1 dst.2 =
            some ((s.files dst.1 dst.2).getD [] ++ [el.line]) →
            ∃ out, (s1.files dst.1 dst.2).getD [] = (s.files dst.1 dst.2).getD [] ++ out ∧
              out.Sorted (· ≤ ·) ∧ ∀ x ∈ out, b ≤ x := by
          intro s1 h1
          exact ⟨[el.line], by simp [h1], List.sorted_singleton _, by simpa using hb el hel⟩
        match hget : files[el.fileIndex]? with
        | none => exact hone _ (files_setFile_self _ _ _ _)
        | some file =>
          simp only
          match hf : file.f with
          | none => exact hone _ (files_setFile_self _ _ _ _)
          | some [] =>
            simp only
            obtain ⟨out, e1, e2, e3⟩ := ih h' files
              ((s.record (Op.Write dst.1 dst.2 el.line)).setFile dst.1 dst.2
                ((s.files dst.1 dst.2).getD [] ++ [el.line])) el.line ph hsorted
              (fun e he => hle e (hsub e he)) (fun e he => pmin e (hsub e he))
            refine ⟨el.line :: out, ?_, ?_, ?_⟩
            · rw [e1, files_setFile_self]; simp
            · exact List.sorted_cons.2 ⟨e3, e2⟩
            · intro x hx
              rcases List.mem_cons.1 hx with rfl | hx
              · exact hb el hel
              · exact le_trans (hb el hel) (e3 x hx)
          | some (l :: ls) =>
            simp only
            have hfm : file ∈ files := List.mem_iff_getElem?.2 ⟨_, hget⟩
            have hfs : (l :: ls).Sorted (· ≤ ·) := by simpa [hf] using hsorted file hfm
            obtain ⟨pushh, pushp⟩ := Push_spec h' { fileIndex := el.fileIndex, line := l } ph
            obtain ⟨out, e1, e2, e3⟩ := ih
              (heap.Push h' { fileIndex := el.fileIndex, line := l })
              (files.set el.fileIndex { file with f := some ls })
              ((s.record (Op.Write dst.1 dst.2 el.line)).setFile dst.1 dst.2
                ((s.files dst.1 dst.2).getD [] ++ [el.line])) el.line pushh
              (by
                intro fl hfl
                rcases List.mem_or_eq_of_mem_set hfl with hm | rfl
                · exact hsorted fl hm
                · simpa using (List.sorted_cons.1 hfs).2)
              (by
                intro e he fl hk x hx
                by_cases hkk : el.fileIndex = e.fileIndex
                · rw [← hkk] at hk
                  have hlt : el.fileIndex < files.length := by
                    by_contra hnot
                    rw [List.getElem?_eq_none (by omega)] at hget
                    cases hget
                  rw [List.getElem?_set_self hlt] at hk
                  cases hk
                  have hx' : x ∈ ls := by simpa using hx
                  rcases List.mem_cons.1 (pushp.subset he) with rfl | he'
                  · exact (List.sorted_cons.1 hfs).1 x hx'
                  · apply hle e (hsub e he') file (by rw [← hkk]; exact hget) x
                    rw [hf]
                    exact List.mem_cons_of_mem _ hx'
                · rw [List.getElem?_set_ne hkk] at hk
                  rcases List.mem_cons.1 (pushp.subset he) with rfl | he'
                  · exact absurd rfl hkk
                  · exact hle e (hsub e he') fl hk x hx)
              (by
                intro e he
                rcases List.mem_cons.1 (pushp.subset he) with rfl | he'
                · exact hle el hel file hget l (by simp [hf])
                · exact pmin e (hsub e he'))
            refine ⟨el.line :: out, ?_, ?_, ?_⟩
            · rw [e1, files_setFile_self]; simp
            · exact List.sorted_cons.2 ⟨e3, e2⟩
            · intro x hx
              rcases List.mem_cons.1 hx with rfl | hx
              · exact hb el hel
              · exact le_trans (hb el hel) (e3 x hx)
    · rw [if_neg hlen]
      exact ⟨[], by simp [Step.store], List.sorted_nil, by simp⟩

/-! ## mergeFilesInto -/

theorem mergeFilesInto_nil (files : List fileWithCloser) (dst : Nat × Nat) (s : Store)
    (hnil : ∃ file ∈ files, file.f = none) :
    ∃ s2, mergeFilesInto files dst s = .stop .panic s2 ∧ s2.files = s.files ∧
      s2.fails = s.fails := by
  unfold mergeFilesInto
  rw [seedQueue_none files 0 [] hnil]
  simp only
  have hc := closeAll_files files s
  match hca : closeAll files s with
  | .stop o s2 =>
    rw [hca] at hc
    rw [closeAll_stop files s s2 o hca]
    exact ⟨s2, rfl, hc.1, hc.2⟩
  | .next _ s2 =>
    rw [hca] at hc
    exact ⟨s2, rfl, hc.1, hc.2⟩

theorem coe_pending (files : List fileWithCloser) :
    (↑(pending files) : Multiset Record) =
      (files.map fun file => (↑(file.f.getD []) : Multiset Record)).sum := by
  induction files with
  | nil => rfl
  | cons file rest ih =>
    rw [pending_cons, ← Multiset.coe_add, ih]
    simp

theorem mergeFilesInto_perm (files : List fileWithCloser) (dst : Nat × Nat) (s : Store)
    (hopen : ∀ file ∈ files, file.f ≠ none ∧ file.c ≠ none) (hw : s.writable dst) :
    ∃ merged s2 out, mergeFilesInto files dst s = .next merged s2 ∧
      (s2.files dst.1 dst.2).getD [] = (s.files dst.1 dst.2).getD [] ++ out ∧
      out.Perm (pending files) := by
  obtain ⟨h, scanned, e1, e2, e3, e4, e5, -, -, e8⟩ :=
    seedQueue_some files 0 [] (fun f hf => (hopen f hf).1)
  obtain ⟨_, ip⟩ := Init_spec h
  have hfuel : (heap.Init h).length + unread scanned ≤ unread files := by
    have := e4.length_eq
    rw [unread_eq, unread_eq, ip.length_eq]
    simpa using le_of_eq this
  obtain ⟨merged, s2, out, m1, m2, m3, m4, m5⟩ :=
    mergeLoop_perm (unread files) (heap.Init h) scanned dst s hw e3
      (by
        intro e he
        rcases e5 e (ip.subset he) with hin | ⟨k, fl, sc, l, a, -, c, -, -⟩
        · simp at hin
        · have hk : k < files.length := by
            by_contra hnot
            rw [List.getElem?_eq_none (by omega)] at c
            cases c
          omega)
      (by
        intro k fl hk hne
        obtain ⟨e, he, hek⟩ := e8 k fl hk hne
        exact ⟨e, ip.symm.subset he, by omega⟩)
      hfuel
  obtain ⟨s3, hs3⟩ := closeAll_next files s2 (fun f hf => (hopen f hf).2)
  have hc := closeAll_files files s2
  rw [hs3] at hc
  refine ⟨merged, s3, out, ?_, ?_, ?_⟩
  · unfold mergeFilesInto
    rw [e1]
    simp only
    rw [m1]
    simp only
    rw [hs3]
  · have : s3.files = s2.files := hc.1
    rw [this, m2]
  · refine m3.trans ?_
    have hl : ((heap.Init h).map (·.line)).Perm (h.map (·.line)) := ip.map _
    exact (List.Perm.append_right _ hl).trans (by simpa using e4)

theorem mergeFilesInto_sorted_aux (files : List fileWithCloser) (dst : Nat × Nat) (s : Store)
    (hsorted : ∀ file ∈ files, (file.f.getD []).Sorted (· ≤ ·)) :
    ∃ out, ((mergeFilesInto files dst s).store.files dst.1 dst.2).getD [] =
        (s.files dst.1 dst.2).getD [] ++ out ∧ out.Sorted (· ≤ ·) := by
  by_cases hnil : ∃ file ∈ files, file.f = none
  · obtain ⟨s2, h1, h2, -⟩ := mergeFilesInto_nil files dst s hnil
    exact ⟨[], by simp [h1, Step.store, h2], List.sorted_nil⟩
  · have hopen : ∀ file ∈ files, file.f ≠ none := fun f hf hn => hnil ⟨f, hf, hn⟩
    obtain ⟨h, scanned, e1, e2, e3, e4, e5, e6, -, -⟩ := seedQueue_some files 0 [] hopen
    obtain ⟨ih, ip⟩ := Init_spec h
    obtain ⟨out, m1, m2, -⟩ :=
      mergeLoop_sorted (unread files) (heap.Init h) scanned dst s [] ih
        (by
          intro fl hfl
          obtain ⟨k, hk⟩ := List.getElem?_of_mem hfl
          obtain ⟨f0, a, d, hd⟩ := e6 k fl hk
          have := hsorted f0 (List.mem_iff_getElem?.2 ⟨_, a⟩)
          rw [hd] at this
          exact (List.pairwise_append.1 this).2.1)
        (by
          intro e he fl hk x hx
          rcases e5 e (ip.subset he) with hin | ⟨k, f0, sc, l, a, b, c, d, f2, g1, g2⟩
          · simp at hin
          · have hek : e.fileIndex = k := by omega
            rw [hek, g1] at hk
            cases hk
            have := hsorted f0 (List.mem_iff_getElem?.2 ⟨_, c⟩)
            rw [d] at this
            rw [g2] at hx
            rw [b]
            exact (List.sorted_cons.1 this).1 x (by simpa using hx))
        (fun e _ => by
          show ([] : List Nat) ≤ e.line
          exact List.nil_le)
    have hfin : (mergeFilesInto files dst s).store.files =
        (mergeLoop (unread files) (heap.Init h) scanned dst s).store.files := by
      unfold mergeFilesInto
      rw [e1]
      simp only
      match hm : mergeLoop (unread files) (heap.Init h) scanned dst s with
      | .stop o s2 =>
        simp only
        have hc := closeAll_files files s2
        match hca : closeAll files s2 with
        | .stop o2 s3 => rw [hca] at hc; simpa [Step.store] using hc.1
        | .next _ s3 => rw [hca] at hc; simpa [Step.store] using hc.1
      | .next merged s2 =>
        simp only
        have hc := closeAll_files files s2
        match hca : closeAll files s2 with
        | .stop o2 s3 => rw [hca] at hc; simpa [Step.store] using hc.1
        | .next _ s3 => rw [hca] at hc; simpa [Step.store] using hc.1
    exact ⟨out, by rw [hfin, m1], m2⟩

/-! ## The split stage -/

theorem NewTempFile_next (s s2 : Store) (age num : Nat) (w : Nat × Nat)
    (h : NewTempFile s age num = .next w s2) :
    w = (age, num) ∧ s2.files age num = some [] ∧ s2.fails = s.fails ∧
      ∀ a n, ¬ (a = age ∧ n = num) → s2.files a n = s.files a n := by
  unfold NewTempFile at h
  split_ifs at h
  cases h
  exact ⟨rfl, files_setFile_self _ _ _ _, rfl, fun a n hne => files_setFile_ne _ _ _ _ _ _ hne⟩

theorem GetTempFile_next (s s2 : Store) (age num : Nat) (sc : Scanner)
    (h : GetTempFile s age num = .next sc s2) :
    s.files age num = some sc ∧ s2.files = s.files ∧ s2.fails = s.fails := by
  unfold GetTempFile at h
  split_ifs at h
  match hf : s.files age num with
  | none => rw [hf] at h; cases h
  | some c =>
    rw [hf] at h
    cases h
    exact ⟨rfl, rfl, rfl⟩

theorem writeLines_next (w : Nat × Nat) (lines : List Record) (s s2 : Store) (c : List Record)
    (hc : s.files w.1 w.2 = some c) (h : writeLines w lines s = .next () s2) :
    s2.files w.1 w.2 = some (c ++ lines) ∧ s2.fails = s.fails ∧
      ∀ a n, ¬ (a = w.1 ∧ n = w.2) → s2.files a n = s.files a n := by
  induction lines generalizing s c with
  | nil =>
    simp only [writeLines] at h
    cases h
    exact ⟨by simpa using hc, rfl, fun _ _ _ => rfl⟩
  | cons l rest ih =>
    simp only [writeLines] at h
    by_cases hfail : s.fails s.log (Op.Write w.1 w.2 l) = true
    · rw [Write_fail s w l hfail] at h
      cases h
    · rw [Write_ok s w l (by simpa using hfail)] at h
      simp only at h
      obtain ⟨a, b, d⟩ := ih _ (c ++ [l]) (by rw [files_setFile_self, hc]; rfl) h
      refine ⟨by simpa using a, b, ?_⟩
      intro a2 n2 hne
      rw [d a2 n2 hne, files_setFile_ne _ _ _ _ _ _ hne, files_record]

theorem dumpBuf_next (st st2 : SplitState) (s s2 : Store) (h : dumpBuf st s = .next st2 s2) :
    st2 = { buf := sortStrings st.buf, pos := 0,
            currentLevelFiles := st.currentLevelFiles + 1 } ∧
      s2.files 1 st.currentLevelFiles = some (sortStrings st.buf) ∧ s2.fails = s.fails ∧
      ∀ a n, ¬ (a = 1 ∧ n = st.currentLevelFiles) → s2.files a n = s.files a n := by
  unfold dumpBuf at h
  match hn : NewTempFile s 1 st.currentLevelFiles with
  | .stop o s1 => rw [hn] at h; cases h
  | .next file s1 =>
    rw [hn] at h
    simp only at h
    obtain ⟨rfl, n2, n3, n4⟩ := NewTempFile_next _ _ _ _ _ hn
    match hw : writeLines (1, st.currentLevelFiles) (sortStrings st.buf) s1 with
    | .stop o s3 => rw [hw] at h; cases h
    | .next _ s3 =>
      rw [hw] at h
      cases h
      obtain ⟨w1, w2, w3⟩ := writeLines_next _ _ _ _ [] n2 hw
      refine ⟨rfl, by simpa [files_record] using w1, by rw [fails_record, w2, n3], ?_⟩
      intro a n hne
      rw [files_record, w3 a n hne, n4 a n hne]

theorem length_sortStrings (buf : List Record) : (sortStrings buf).length = buf.length :=
  (List.perm_insertionSort _ buf).length_eq

theorem sorted_sortStrings (buf : List Record) : (sortStrings buf).Sorted (· ≤ ·) :=
  List.sorted_insertionSort _ buf

theorem perm_sortStrings (buf : List Record) : (sortStrings buf).Perm buf :=
  List.perm_insertionSort _ buf

theorem scanLoop_next (K : Nat) (original : Scanner) (st st2 : SplitState) (s s2 : Store)
    (h : scanLoop K original st s = .next st2 s2) :
    st2.buf.length = st.buf.length ∧ st.currentLevelFiles ≤ st2.currentLevelFiles ∧
      s2.fails = s.fails := by
  induction original generalizing st s with
  | nil =>
    simp only [scanLoop] at h
    cases h
    exact ⟨rfl, le_refl _, rfl⟩
  | cons line rest ih =>
    simp only [scanLoop] at h
    by_cases hp : st.pos + 1 ≥ K
    · rw [if_pos hp] at h
      match hd : dumpBuf st s with
      | .stop o s1 => rw [hd] at h; cases h
      | .next st1 s1 =>
        rw [hd] at h
        simp only at h
        obtain ⟨rfl, -, d3, -⟩ := dumpBuf_next _ _ _ _ hd
        split_ifs at h
        obtain ⟨a, b, c⟩ := ih _ _ h
        simp only [List.length_set, length_sortStrings] at a b
        exact ⟨a, by omega, by rw [c, d3]⟩
    · rw [if_neg hp] at h
      simp only at h
      split_ifs at h
      obtain ⟨a, b, c⟩ := ih _ _ h
      simp only [List.length_set] at a b
      exact ⟨a, b, c⟩

theorem splitStage_next (K : Nat) (hK : 0 < K) (original : Scanner) (st : SplitState)
    (s s2 : Store) (h : splitStage K original s = .next st s2) :
    ∃ st1 : SplitState, st.currentLevelFiles = st1.currentLevelFiles + 1 ∧
      st.buf = sortStrings st1.buf ∧
      st1.buf.length = K ∧
      s2.files 1 st1.currentLevelFiles = some (sortStrings st1.buf) ∧ s2.fails = s.fails := by
  unfold splitStage at h
  match hs : scanLoop K original
      { buf := List.replicate K [], pos := 0, currentLevelFiles := 0 } s with
  | .stop o s1 => rw [hs] at h; cases h
  | .next st1 s1 =>
    rw [hs] at h
    simp only at h
    obtain ⟨a, -, c⟩ := scanLoop_next _ _ _ _ _ _ hs
    simp only [List.length_replicate] at a
    rw [if_pos (by omega)] at h
    obtain ⟨rfl, d2, d3, -⟩ := dumpBuf_next _ _ _ _ h
    exact ⟨st1, rfl, rfl, a, d2, by rw [d3, c]⟩

/-! ## The merge stage -/

theorem mergeFiles_stop (K : Nat) (st : MergeState) (s : Store)
    (hnil : ∃ file ∈ st.files, file.f = none) :
    ∃ o s2, mergeFiles K st s = .stop o s2 ∧ (o = .panic ∨ ∃ e, o = .err e) ∧
      s2.fails = s.fails := by
  unfold mergeFiles
  match hn : (if st.currentLevelFiles ≤ K then NewTempFile s 0 0
      else NewTempFile s (st.age + 1) st.newCurrentFiles) with
  | .stop o s1 =>
    simp only
    refine ⟨o, s1, rfl, ?_, ?_⟩
    · split_ifs at hn <;>
      · unfold NewTempFile at hn
        split_ifs at hn
        cases hn
        exact Or.inr ⟨_, rfl⟩
    · split_ifs at hn <;>
      · unfold NewTempFile at hn
        split_ifs at hn
        cases hn
        rfl
  | .next f s1 =>
    simp only
    have hf1 : s1.fails = s.fails := by
      split_ifs at hn
      · exact (NewTempFile_next _ _ _ _ _ hn).2.2.1
      · exact (NewTempFile_next _ _ _ _ _ hn).2.2.1
    obtain ⟨s2, h1, -, h3⟩ := mergeFilesInto_nil st.files f s1 hnil
    rw [h1]
    exact ⟨_, s2, rfl, Or.inl rfl, by rw [h3, hf1]⟩

theorem openLoop_spec (K n i : Nat) (st : MergeState) (s : Store) (hK : 0 < K)
    (hlen : st.files.length = K)
    (hnil : ∃ file, st.files[K - 1]? = some file ∧ file.f = none) (hpos : st.pos < K) :
    (∃ o s2, openLoop K n i st s = .stop o s2 ∧ (o = .panic ∨ ∃ e, o = .err e) ∧
      s2.fails = s.fails) ∨
    (∃ st2 s2, openLoop K n i st s = .next st2 s2 ∧ st2.files.length = K ∧
      (∃ file, st2.files[K - 1]? = some file ∧ file.f = none) ∧
      st2.currentLevelFiles = st.currentLevelFiles ∧ s2.fails = s.fails) := by
  induction n generalizing i st s with
  | zero => exact Or.inr ⟨st, s, rfl, hlen, hnil, rfl, rfl⟩
  | succ n ih =>
    simp only [openLoop]
    by_cases hp : st.pos + 1 ≥ K
    · rw [if_pos hp]
      obtain ⟨file, hget, hf⟩ := hnil
      obtain ⟨o, s2, h1, h2, h3⟩ := mergeFiles_stop K st s
        ⟨file, List.mem_iff_getElem?.2 ⟨_, hget⟩, hf⟩
      rw [h1]
      exact Or.inl ⟨o, s2, rfl, h2, h3⟩
    · rw [if_neg hp]
      simp only
      match hg : GetTempFile s st.age i with
      | .stop o s1 =>
        simp only
        refine Or.inl ⟨o, s1, rfl, ?_, ?_⟩
        · unfold GetTempFile at hg
          split_ifs at hg
          · cases hg; exact Or.inr ⟨_, rfl⟩
          · match hfile : s.files st.age i with
            | none => rw [hfile] at hg; cases hg; exact Or.inr ⟨_, rfl⟩
            | some c => rw [hfile] at hg; cases hg
        · unfold GetTempFile at hg
          split_ifs at hg
          · cases hg; rfl
          · match hfile : s.files st.age i with
            | none => rw [hfile] at hg; cases hg; rfl
            | some c => rw [hfile] at hg; cases hg
      | .next f s1 =>
        simp only
        obtain ⟨-, -, g3⟩ := GetTempFile_next _ _ _ _ _ hg
        rw [if_pos (by omega)]
        obtain ⟨file, hget, hf⟩ := hnil
        rcases ih (i + 1)
          { st with
            files := st.files.set st.pos { f := some f, c := some (Op.closeReader st.age i) }
            pos := st.pos + 1 } s1 (by simp [hlen])
          ⟨file, by
            simp only
            rw [List.getElem?_set_ne (by omega)]
            exact hget, hf⟩ (by simp only; omega) with
          ⟨o, s2, h1, h2, h3⟩ | ⟨st2, s2, h1, h2, h3, h4, h5⟩
        · exact Or.inl ⟨o, s2, h1, h2, by rw [h3, g3]⟩
        · exact Or.inr ⟨st2, s2, h1, h2, h3, h4, by rw [h5, g3]⟩

theorem mergeRounds_stop (K fuel : Nat) (st : MergeState) (s : Store) (hK : 0 < K)
    (hlen : st.files.length = K)
    (hnil : ∃ file, st.files[K - 1]? = some file ∧ file.f = none) (hpos : st.pos < K)
    (hclf : st.currentLevelFiles > 1) (hfuel : 0 < fuel) :
    ∃ o s2, mergeRounds K fuel st s = .stop o s2 ∧ (o = .panic ∨ ∃ e, o = .err e) ∧
      s2.fails = s.fails := by
  cases fuel with
  | zero => omega
  | succ fuel =>
    rw [mergeRounds]
    rw [if_pos hclf]
    rcases openLoop_spec K st.currentLevelFiles 0 st s hK hlen hnil hpos with
      ⟨o, s2, h1, h2, h3⟩ | ⟨st2, s2, h1, h2, ⟨file, hget, hf⟩, h4, h5⟩
    · rw [h1]
      exact ⟨o, s2, rfl, h2, h3⟩
    · rw [h1]
      simp only
      rw [if_pos (by omega)]
      obtain ⟨o, s3, m1, m2, m3⟩ := mergeFiles_stop K st2 s2
        ⟨file, List.mem_iff_getElem?.2 ⟨_, hget⟩, hf⟩
      rw [m1]
      exact ⟨o, s3, rfl, m2, by rw [m3, h5]⟩

/-! ## Ways the stages stop -/

theorem NewTempFile_stop (s s2 : Store) (age num : Nat) (o : Outcome)
    (h : NewTempFile s age num = .stop o s2) :
    o = .err (.failed (Op.NewTempFile age num)) ∧ s2 = s.record (Op.NewTempFile age num) := by
  unfold NewTempFile at h
  split_ifs at h
  cases h
  exact ⟨rfl, rfl⟩

theorem GetTempFile_stop (s s2 : Store) (age num : Nat) (o : Outcome)
    (h : GetTempFile s age num = .stop o s2) :
    (∃ e, o = .err e) ∧ s2 = s.record (Op.GetTempFile age num) := by
  unfold GetTempFile at h
  split_ifs at h
  · cases h; exact ⟨⟨_, rfl⟩, rfl⟩
  · match hfile : s.files age num with
    | none => rw [hfile] at h; cases h; exact ⟨⟨_, rfl⟩, rfl⟩
    | some c => rw [hfile] at h; cases h

theorem Write_stop (s s2 : Store) (w : Nat × Nat) (l : Record) (o : Outcome)
    (h : Write s w l = .stop o s2) :
    o = .err (.failed (Op.Write w.1 w.2 l)) ∧ s2 = s.record (Op.Write w.1 w.2 l) := by
  unfold Write at h
  split_ifs at h
  cases h
  exact ⟨rfl, rfl⟩

theorem writeLines_stop (w : Nat × Nat) (lines : List Record) (s s2 : Store) (o : Outcome)
    (h : writeLines w lines s = .stop o s2) : ∃ e, o = .err e := by
  induction lines generalizing s with
  | nil => simp [writeLines] at h
  | cons l rest ih =>
    simp only [writeLines] at h
    match hw : Write s w l with
    | .stop o1 s1 =>
      rw [hw] at h
      cases h
      exact ⟨_, (Write_stop _ _ _ _ _ hw).1⟩
    | .next _ s1 =>
      rw [hw] at h
      exact ih _ h

theorem dumpBuf_stop (st : SplitState) (s s2 : Store) (o : Outcome)
    (h : dumpBuf st s = .stop o s2) : ∃ e, o = .err e := by
  unfold dumpBuf at h
  match hn : NewTempFile s 1 st.currentLevelFiles with
  | .stop o1 s1 =>
    rw [hn] at h
    cases h
    exact ⟨_, (NewTempFile_stop _ _ _ _ _ hn).1⟩
  | .next file s1 =>
    rw [hn] at h
    simp only at h
    match hw : writeLines file (sortStrings st.buf) s1 with
    | .stop o1 s3 =>
      rw [hw] at h
      cases h
      exact writeLines_stop _ _ _ _ _ hw
    | .next _ s3 => rw [hw] at h; cases h

theorem scanLoop_stop (K : Nat) (original : Scanner) (st : SplitState) (s s2 : Store)
    (o : Outcome) (h : scanLoop K original st s = .stop o s2) :
    o = .panic ∨ ∃ e, o = .err e := by
  induction original generalizing st s with
  | nil => simp [scanLoop] at h
  | cons line rest ih =>
    simp only [scanLoop] at h
    by_cases hp : st.pos + 1 ≥ K
    · rw [if_pos hp] at h
      match hd : dumpBuf st s with
      | .stop o1 s1 =>
        rw [hd] at h
        cases h
        exact Or.inr (dumpBuf_stop _ _ _ _ hd)
      | .next st1 s1 =>
        rw [hd] at h
        simp only at h
        split_ifs at h
        · exact ih _ _ h
        · cases h; exact Or.inl rfl
    · rw [if_neg hp] at h
      simp only at h
      split_ifs at h
      · exact ih _ _ h
      · cases h; exact Or.inl rfl

theorem splitStage_stop (K : Nat) (original : Scanner) (s s2 : Store) (o : Outcome)
    (h : splitStage K original s = .stop o s2) : o = .panic ∨ ∃ e, o = .err e := by
  unfold splitStage at h
  match hs : scanLoop K original
      { buf := List.replicate K [], pos := 0, currentLevelFiles := 0 } s with
  | .stop o1 s1 =>
    rw [hs] at h
    cases h
    exact scanLoop_stop _ _ _ _ _ _ hs
  | .next st1 s1 =>
    rw [hs] at h
    simp only at h
    split_ifs at h
    · exact Or.inr (dumpBuf_stop _ _ _ _ h)

theorem not_nil_of_abort (o : Outcome) (h : o = .panic ∨ ∃ e, o = .err e) : o ≠ .nil := by
  rcases h with rfl | ⟨e, rfl⟩ <;> simp

theorem mergeRounds_done (K fuel : Nat) (st : MergeState) (s : Store)
    (h : ¬ st.currentLevelFiles > 1) : mergeRounds K fuel st s = .next st s := by
  cases fuel <;> rw [mergeRounds, if_neg h]

/-! ## LinesInPlace: a nil return leaves a sorted subject file -/

theorem splitFrom_stop (K : Nat) (s s2 : Store) (o : Outcome)
    (h : splitFrom K s = .stop o s2) : o = .panic ∨ ∃ e, o = .err e := by
  unfold splitFrom at h
  match hg : GetTempFile s 0 0 with
  | .stop o1 s1 =>
    rw [hg] at h
    cases h
    exact Or.inr (GetTempFile_stop _ _ _ _ _ hg).1
  | .next original s1 =>
    rw [hg] at h
    exact splitStage_stop _ _ _ _ _ h

theorem splitFrom_next (K : Nat) (hK : 0 < K) (st : SplitState) (s s2 : Store)
    (h : splitFrom K s = .next st s2) :
    ∃ st1 : SplitState, st.currentLevelFiles = st1.currentLevelFiles + 1 ∧
      st.buf = sortStrings st1.buf ∧ st1.buf.length = K ∧
      s2.files 1 st1.currentLevelFiles = some (sortStrings st1.buf) ∧ s2.fails = s.fails := by
  unfold splitFrom at h
  match hg : GetTempFile s 0 0 with
  | .stop o1 s1 => rw [hg] at h; cases h
  | .next original s1 =>
    rw [hg] at h
    obtain ⟨st1, a, b, c, d, e⟩ := splitStage_next K hK _ _ _ _ h
    exact ⟨st1, a, b, c, d, by rw [e, (GetTempFile_next _ _ _ _ _ hg).2.2]⟩

theorem sortLines_nil (K : Nat) (hK : 2 ≤ K) (s : Store) (h : (sortLines K s).1 = .nil) :
    ∃ buf : List Record, buf.length = K ∧
      (sortLines K s).2.files 0 0 = some (sortStrings buf) := by
  unfold sortLines at h ⊢
  match hs : splitFrom K s with
  | .stop o s2 =>
    rw [hs] at h
    exact absurd h (not_nil_of_abort o (splitFrom_stop _ _ _ _ hs))
  | .next st s2 =>
    rw [hs] at h
    simp only at h ⊢
    obtain ⟨st1, c1, -, c3, c4, -⟩ := splitFrom_next K (by omega) _ _ _ hs
    rw [if_neg (by omega)] at h ⊢
    by_cases hclf : st.currentLevelFiles > 1
    · obtain ⟨o, s3, m1, m2, -⟩ := mergeRounds_stop K st.currentLevelFiles
        { age := 1, currentLevelFiles := st.currentLevelFiles, newCurrentFiles := 0,
          files := List.replicate K { f := none, c := none }, pos := 0 }
        (s2.record (Op.closeReader 0 0)) (by omega) (by simp)
        ⟨{ f := none, c := none }, (by simp [List.getElem?_replicate]; omega), rfl⟩
        (by simp only; omega) hclf (by omega)
      rw [m1] at h
      exact absurd h (not_nil_of_abort o m2)
    · rw [mergeRounds_done K _ _ _ hclf] at h ⊢
      simp only at h ⊢
      have hz : st1.currentLevelFiles = 0 := by omega
      rw [hz] at c4
      refine ⟨st1.buf, c3, ?_⟩
      unfold copyBack at h ⊢
      match hn : NewTempFile (s2.record (Op.closeReader 0 0)) 0 0 with
      | .stop o s3 =>
        rw [hn] at h
        simp only at h
        rw [(NewTempFile_stop _ _ _ _ _ hn).1] at h
        simp at h
      | .next dst s3 =>
        rw [hn] at h
        simp only at h ⊢
        obtain ⟨rfl, n2, -, n4⟩ := NewTempFile_next _ _ _ _ _ hn
        match hg2 : GetTempFile s3 1 0 with
        | .stop o s4 =>
          rw [hg2] at h
          obtain ⟨⟨e, rfl⟩, -⟩ := GetTempFile_stop _ _ _ _ _ hg2
          simp at h
        | .next src s4 =>
          rw [hg2] at h
          simp only at h ⊢
          obtain ⟨g1, g2, -⟩ := GetTempFile_next _ _ _ _ _ hg2
          rw [n4 1 0 (by simp), files_record, c4] at g1
          cases g1
          match hw : writeLines (0, 0) (sortStrings st1.buf) s4 with
          | .stop o s5 =>
            rw [hw] at h
            obtain ⟨e, rfl⟩ := writeLines_stop _ _ _ _ _ hw
            simp at h
          | .next _ s5 =>
            simp only
            obtain ⟨w1, -, -⟩ := writeLines_next (0, 0) _ s4 s5 [] (by rw [g2]; exact n2) hw
            simpa [files_record] using w1

/-! ## The fuel of the model is never exhausted -/

theorem mergeLoop_stop (fuel : Nat) (h : priorityQueue) (files : List fileWithCloser)
    (dst : Nat × Nat) (s s2 : Store) (o : Outcome)
    (hopen : ∀ file ∈ files, file.f ≠ none)
    (hidx : ∀ e ∈ h, e.fileIndex < files.length)
    (hfuel : h.length + unread files ≤ fuel)
    (hstop : mergeLoop fuel h files dst s = .stop o s2) : ∃ e, o = .err e := by
  induction fuel generalizing h files s with
  | zero =>
    have hh : h = [] := List.length_eq_zero.1 (by omega)
    subst hh
    rw [mergeLoop] at hstop
    simp [priorityQueue.Len] at hstop
  | succ fuel ih =>
    rw [mergeLoop] at hstop
    by_cases hlen : h.Len > 0
    · rw [if_pos hlen] at hstop
      have hlen' : 0 < h.length := hlen
      obtain ⟨pp, pl, -, -⟩ := Pop_frame h hlen'
      generalize heap.Pop h = p at pp pl hstop
      obtain ⟨el, h'⟩ := p
      simp only at pp pl hstop
      have hel : el ∈ h := pp.symm.subset (List.mem_cons_self _ _)
      have hsub : ∀ e ∈ h', e ∈ h := fun e he => pp.symm.subset (List.mem_cons_of_mem _ he)
      by_cases hfail : s.fails s.log (Op.Write dst.1 dst.2 el.line) = true
      · rw [Write_fail s dst el.line hfail] at hstop
        cases hstop
        exact ⟨_, rfl⟩
      · rw [Write_ok s dst el.line (by simpa using hfail)] at hstop
        simp only at hstop
        have hlt := hidx el hel
        have hget : files[el.fileIndex]? = some files[el.fileIndex] :=
          List.getElem?_eq_getElem hlt
        rw [hget] at hstop
        simp only at hstop
        generalize hfile : files[el.fileIndex] = file at hget hstop
        match hf : file.f with
        | none => exact absurd hf (hopen file (List.mem_iff_getElem?.2 ⟨_, hget⟩))
        | some [] =>
          rw [hf] at hstop
          simp only at hstop
          exact ih h' files _ hopen (fun e he => hidx e (hsub e he)) (by omega) hstop
        | some (l :: ls) =>
          rw [hf] at hstop
          simp only at hstop
          have hps := pending_set files el.fileIndex file l ls hget hf
          have hpush := Push_perm h' { fileIndex := el.fileIndex, line := l }
          refine ih _ _ _ ?_ ?_ ?_ hstop
          · intro fl hfl
            rcases List.mem_or_eq_of_mem_set hfl with hm | rfl
            · exact hopen fl hm
            · simp
          · intro e he
            rw [List.length_set]
            rcases List.mem_cons.1 (hpush.subset he) with rfl | he'
            · exact hlt
            · exact hidx e (hsub e he')
          · have h1 := hpush.length_eq
            have h2 := hps.length_eq
            rw [unread_eq] at hfuel ⊢
            simp only [List.length_cons] at h1 h2
            omega
    · rw [if_neg hlen] at hstop
      cases hstop

/-- With every input opened, `mergeFilesInto` returns: nil, or the error of a failed write.
It neither panics nor exhausts the fuel of the model. -/
theorem mergeFilesInto_returns (files : List fileWithCloser) (dst : Nat × Nat) (s : Store)
    (hopen : ∀ file ∈ files, file.f ≠ none ∧ file.c ≠ none) :
    (∃ merged s2, mergeFilesInto files dst s = .next merged s2) ∨
      ∃ e s2, mergeFilesInto files dst s = .stop (.err e) s2 := by
  obtain ⟨h, scanned, e1, -, e3, e4, e5, -, -, -⟩ :=
    seedQueue_some files 0 [] (fun f hf => (hopen f hf).1)
  obtain ⟨-, ip⟩ := Init_spec h
  have hfuel : (heap.Init h).length + unread scanned ≤ unread files := by
    have := e4.length_eq
    rw [unread_eq, unread_eq, ip.length_eq]
    simpa using le_of_eq this
  have hidx : ∀ e ∈ heap.Init h, e.fileIndex < scanned.length := by
    intro e he
    rcases e5 e (ip.subset he) with hin | ⟨k, fl, sc, l, a, -, -, -, f2, g1, -⟩
    · simp at hin
    · have hk : k < scanned.length := by
        by_contra hnot
        rw [List.getElem?_eq_none (by omega)] at g1
        cases g1
      omega
  unfold mergeFilesInto
  rw [e1]
  simp only
  match hm : mergeLoop (unread files) (heap.Init h) scanned dst s with
  | .stop o s2 =>
    simp only
    obtain ⟨e, rfl⟩ := mergeLoop_stop _ _ _ _ _ _ _ e3 hidx hfuel hm
    obtain ⟨s3, hs3⟩ := closeAll_next files s2 (fun f hf => (hopen f hf).2)
    rw [hs3]
    exact Or.inr ⟨e, s3, rfl⟩
  | .next merged s2 =>
    simp only
    obtain ⟨s3, hs3⟩ := closeAll_next files s2 (fun f hf => (hopen f hf).2)
    rw [hs3]
    exact Or.inl ⟨merged, s3, rfl⟩

theorem copyBack_outcome (age : Nat) (s : Store) :
    (copyBack age s).1 = .nil ∨ ∃ e, (copyBack age s).1 = .err e := by
  unfold copyBack
  match hn : NewTempFile s 0 0 with
  | .stop o s3 =>
    simp only
    exact Or.inr ⟨_, (NewTempFile_stop _ _ _ _ _ hn).1⟩
  | .next dst s3 =>
    simp only
    match hg : GetTempFile s3 age 0 with
    | .stop o s4 =>
      simp only
      exact Or.inr (GetTempFile_stop _ _ _ _ _ hg).1
    | .next src s4 =>
      simp only
      match hw : writeLines dst src s4 with
      | .stop o s5 =>
        simp only
        exact Or.inr (writeLines_stop _ _ _ _ _ hw)
      | .next _ s5 => exact Or.inl rfl

/-- For a capacity of at least 1 the body of `LinesInPlace` ends with nil, an error or a
panic: the fuel given to the merge rounds is never used up. -/
theorem sortLines_outcome (K : Nat) (hK : 1 ≤ K) (s : Store) :
    (sortLines K s).1 = .nil ∨ (sortLines K s).1 = .panic ∨ ∃ e, (sortLines K s).1 = .err e := by
  unfold sortLines
  match hs : splitFrom K s with
  | .stop o s2 =>
    simp only
    rcases splitFrom_stop _ _ _ _ hs with rfl | ⟨e, rfl⟩
    · exact Or.inr (Or.inl rfl)
    · exact Or.inr (Or.inr ⟨e, rfl⟩)
  | .next st s2 =>
    simp only
    by_cases hz : st.currentLevelFiles = 0
    · rw [if_pos hz]
      exact Or.inl rfl
    · rw [if_neg hz]
      by_cases hclf : st.currentLevelFiles > 1
      · obtain ⟨o, s3, m1, m2, -⟩ := mergeRounds_stop K st.currentLevelFiles
          { age := 1, currentLevelFiles := st.currentLevelFiles, newCurrentFiles := 0,
            files := List.replicate K { f := none, c := none }, pos := 0 }
          (s2.record (Op.closeReader 0 0)) (by omega) (by simp)
          ⟨{ f := none, c := none }, (by simp [List.getElem?_replicate]; omega), rfl⟩
          (by simp only; omega) hclf (by omega)
        rw [m1]
        simp only
        rcases m2 with rfl | ⟨e, rfl⟩
        · exact Or.inr (Or.inl rfl)
        · exact Or.inr (Or.inr ⟨e, rfl⟩)
      · rw [mergeRounds_done K _ _ _ hclf]
        simp only
        rcases copyBack_outcome 1 (s2.record (Op.closeReader 0 0)) with h | h
        · exact Or.inl h
        · exact Or.inr (Or.inr h)

/-! ## Steps on a store that never fails -/

theorem neverFails_of_fails_eq (s s2 : Store) (h : s2.fails = s.fails) (hnf : s.neverFails) :
    s2.neverFails := by
  intro log op
  rw [h]
  exact hnf log op

theorem GetTempFile_ok (s : Store) (age num : Nat) (c : List Record) (hnf : s.neverFails)
    (hc : s.files age num = some c) :
    GetTempFile s age num = .next c (s.record (Op.GetTempFile age num)) := by
  unfold GetTempFile
  rw [hnf _ _, hc]
  simp

theorem NewTempFile_ok (s : Store) (age num : Nat) (hnf : s.neverFails) :
    NewTempFile s age num =
      .next (age, num) ((s.record (Op.NewTempFile age num)).setFile age num []) := by
  unfold NewTempFile
  rw [hnf _ _]
  simp

theorem writeLines_ok (w : Nat × Nat) (lines : List Record) (s : Store) (hnf : s.neverFails) :
    ∃ s2, writeLines w lines s = .next () s2 := by
  induction lines generalizing s with
  | nil => exact ⟨s, rfl⟩
  | cons l rest ih =>
    simp only [writeLines]
    rw [Write_ok s w l (hnf _ _)]
    exact ih _ hnf

theorem dumpBuf_ok (st : SplitState) (s : Store) (hnf : s.neverFails) :
    ∃ s2, dumpBuf st s =
        .next (SplitState.mk (sortStrings st.buf) 0 (st.currentLevelFiles + 1)) s2 ∧
      s2.files 1 st.currentLevelFiles = some (sortStrings st.buf) ∧ s2.fails = s.fails ∧
      ∀ a n, ¬ (a = 1 ∧ n = st.currentLevelFiles) → s2.files a n = s.files a n := by
  have hd : ∃ st2 s2, dumpBuf st s = .next st2 s2 := by
    unfold dumpBuf
    rw [NewTempFile_ok s 1 st.currentLevelFiles hnf]
    simp only
    obtain ⟨s3, h3⟩ := writeLines_ok (1, st.currentLevelFiles) (sortStrings st.buf)
      ((s.record (Op.NewTempFile 1 st.currentLevelFiles)).setFile 1 st.currentLevelFiles [])
      hnf
    rw [h3]
    exact ⟨_, _, rfl⟩
  obtain ⟨st2, s2, h⟩ := hd
  obtain ⟨rfl, a, b, c⟩ := dumpBuf_next st st2 s s2 h
  exact ⟨s2, h, a, b, c⟩

/-! ## runsOf -/

theorem runsOf_zero (s : Store) (age : Nat) : runsOf s age 0 = [] := rfl

theorem runsOf_succ (s : Store) (age count : Nat) :
    runsOf s age (count + 1) = runsOf s age count ++ (s.files age count).getD [] := by
  simp [runsOf, List.range_succ, List.flatMap_append]

theorem runsOf_congr (s s2 : Store) (age count : Nat)
    (h : ∀ i, i < count → s2.files age i = s.files age i) :
    runsOf s2 age count = runsOf s age count := by
  induction count with
  | zero => rfl
  | succ c ih =>
    rw [runsOf_succ, runsOf_succ, ih (fun i hi => h i (by omega)), h c (by omega)]

theorem length_runsOf (s : Store) (age count K : Nat)
    (h : ∀ i, i < count → ∃ run, s.files age i = some run ∧ run.length = K) :
    (runsOf s age count).length = K * count := by
  induction count with
  | zero => simp [runsOf_zero]
  | succ c ih =>
    obtain ⟨run, hr, hl⟩ := h c (by omega)
    rw [runsOf_succ, List.length_append, ih (fun i hi => h i (by omega)), hr]
    simp only [Option.getD_some, hl]
    rw [Nat.mul_succ]

/-! ## The scan loop on a store that never fails -/

theorem take_set_succ (buf : List Record) (pos : Nat) (line : Record) (h : pos < buf.length) :
    (buf.set pos line).take (pos + 1) = buf.take pos ++ [line] := by
  induction buf generalizing pos with
  | nil => simp at h
  | cons x xs ih =>
    cases pos with
    | zero => simp
    | succ p =>
      have hp : p < xs.length := by simpa using h
      simp [ih p hp]

theorem scanLoop_small (K : Nat) (original : Scanner) (st : SplitState) (s : Store)
    (hlen : st.buf.length = K) (hsmall : st.pos + original.length < K) :
    ∃ buf, scanLoop K original st s =
        .next (SplitState.mk buf (st.pos + original.length) st.currentLevelFiles) s ∧
      buf.length = K ∧ buf.take (st.pos + original.length) = st.buf.take st.pos ++ original ∧
      buf.drop (st.pos + original.length) = st.buf.drop (st.pos + original.length) := by
  induction original generalizing st with
  | nil => exact ⟨st.buf, by simp [scanLoop], hlen, by simp, by simp⟩
  | cons line rest ih =>
    simp only [List.length_cons] at hsmall
    simp only [scanLoop]
    rw [if_neg (by omega)]
    simp only
    rw [if_pos (by omega)]
    obtain ⟨buf, h1, h2, h3, h4⟩ := ih
      { st with buf := st.buf.set st.pos line, pos := st.pos + 1 } (by simp [hlen])
      (by simp only; omega)
    simp only at h1 h3 h4
    refine ⟨buf, ?_, h2, ?_, ?_⟩
    · rw [h1]
      simp only [List.length_cons]
      congr 2
      omega
    · have e : st.pos + (rest.length + 1) = st.pos + 1 + rest.length := by omega
      simp only [List.length_cons]
      rw [e, h3, take_set_succ st.buf st.pos line (by omega)]
      simp
    · have e : st.pos + (rest.length + 1) = st.pos + 1 + rest.length := by omega
      simp only [List.length_cons]
      rw [e, h4]
      rw [List.drop_set_of_lt _ _ (by omega)]

theorem le_add_sorted_buf (M A : Multiset Record) (buf : List Record) (pos : Nat)
    (h : M ≤ A + ↑(buf.take pos)) : M ≤ A + ↑(sortStrings buf) := by
  refine le_trans h (add_le_add_left ?_ A)
  have h1 : (↑(buf.take pos) : Multiset Record) ≤ ↑buf :=
    Multiset.coe_le.2 (List.take_sublist pos buf).subperm
  have h2 : (↑(sortStrings buf) : Multiset Record) = ↑buf :=
    Multiset.coe_eq_coe.2 (perm_sortStrings buf)
  rw [h2]
  exact h1

theorem scanLoop_ok (K : Nat) (hK : 2 ≤ K) (original : Scanner) (st : SplitState) (s : Store)
    (hnf : s.neverFails) (hlen : st.buf.length = K) (hpos : st.pos < K) :
    ∃ st2 s2, scanLoop K original st s = .next st2 s2 ∧ s2.fails = s.fails ∧
      st2.buf.length = K ∧ st2.pos < K ∧
      st2.currentLevelFiles * (K - 1) + st2.pos =
        st.currentLevelFiles * (K - 1) + st.pos + original.length ∧
      (original ≠ [] → 1 ≤ st2.pos) ∧ st.currentLevelFiles ≤ st2.currentLevelFiles ∧
      (∀ a n, ¬ (a = 1 ∧ st.currentLevelFiles ≤ n ∧ n < st2.currentLevelFiles) →
        s2.files a n = s.files a n) ∧
      (∀ i, st.currentLevelFiles ≤ i → i < st2.currentLevelFiles →
        ∃ run, s2.files 1 i = some run ∧ run.length = K) ∧
      (∀ M : Multiset Record,
        M ≤ ↑(runsOf s 1 st.currentLevelFiles) + ↑(st.buf.take st.pos) →
        M + ↑original ≤ ↑(runsOf s2 1 st2.currentLevelFiles) + ↑(st2.buf.take st2.pos)) := by
  induction original generalizing st s with
  | nil =>
    refine ⟨st, s, by simp [scanLoop], rfl, hlen, hpos, by simp, by simp, le_refl _,
      fun _ _ _ => rfl, fun i h1 h2 => by omega, ?_⟩
    intro M hM
    simpa using hM
  | cons line rest ih =>
    simp only [scanLoop]
    by_cases hp : st.pos + 1 ≥ K
    · rw [if_pos hp]
      obtain ⟨s1, d1, d2, d3, d4⟩ := dumpBuf_ok st s hnf
      rw [d1]
      simp only
      rw [if_pos (by rw [length_sortStrings]; omega)]
      obtain ⟨st2, s2, e1, e2, e3, e4, e5, e6, e7, e8, e9, e10⟩ := ih
        { buf := (sortStrings st.buf).set 0 line, pos := 0 + 1,
          currentLevelFiles := st.currentLevelFiles + 1 } s1
        (neverFails_of_fails_eq s s1 d3 hnf) (by simp [length_sortStrings, hlen])
        (by simp only; omega)
      simp only at e5 e7 e8 e9 e10
      refine ⟨st2, s2, e1, by rw [e2, d3], e3, e4, ?_, fun _ => ?_, by omega, ?_, ?_, ?_⟩
      · rw [e5, Nat.succ_mul]
        simp only [List.length_cons]
        omega
      · by_cases hr : rest = []
        · subst hr
          simp only [scanLoop] at e1
          cases e1
          simp
        · exact e6 hr
      · intro a n hne
        rw [e8 a n (by intro h; exact hne ⟨h.1, by omega, h.2.2⟩)]
        exact d4 a n (by intro h; exact hne ⟨h.1, by omega, by omega⟩)
      · intro i hi1 hi2
        by_cases hic : i = st.currentLevelFiles
        · subst hic
          rw [e8 1 st.currentLevelFiles (by intro h; omega), d2]
          exact ⟨_, rfl, by rw [length_sortStrings, hlen]⟩
        · exact e9 i (by omega) hi2
      · intro M hM
        have hruns : runsOf s1 1 (st.currentLevelFiles + 1) =
            runsOf s 1 st.currentLevelFiles ++ sortStrings st.buf := by
          rw [runsOf_succ, d2, runsOf_congr s s1 1 st.currentLevelFiles
            (fun i hi => d4 1 i (by intro h; omega))]
          rfl
        have hM1 : M + {line} ≤ ↑(runsOf s1 1 (st.currentLevelFiles + 1)) +
            ↑(((sortStrings st.buf).set 0 line).take (0 + 1)) := by
          rw [hruns, take_set_succ _ 0 line (by rw [length_sortStrings]; omega)]
          simp only [List.take_zero, List.nil_append, ← Multiset.coe_add]
          rw [Multiset.coe_add, Multiset.coe_singleton]
          exact add_le_add_right (le_add_sorted_buf M _ st.buf st.pos hM) _
        have := e10 (M + {line}) hM1
        have hsplit : (↑(line :: rest) : Multiset Record) = {line} + ↑rest := by
          rw [← Multiset.cons_coe, Multiset.singleton_add]
        rw [hsplit, ← add_assoc]
        exact this
    · rw [if_neg hp]
      simp only
      rw [if_pos (by omega)]
      obtain ⟨st2, s2, e1, e2, e3, e4, e5, e6, e7, e8, e9, e10⟩ := ih
        { st with buf := st.buf.set st.pos line, pos := st.pos + 1 } s hnf
        (by simp [hlen]) (by simp only; omega)
      simp only at e5 e7 e8 e9 e10
      refine ⟨st2, s2, e1, e2, e3, e4, ?_, fun _ => ?_, e7, e8, e9, ?_⟩
      · rw [e5]
        simp only [List.length_cons]
        omega
      · by_cases hr : rest = []
        · subst hr
          simp only [scanLoop] at e1
          cases e1
          simp
        · exact e6 hr
      · intro M hM
        have hM1 : M + {line} ≤ ↑(runsOf s 1 st.currentLevelFiles) +
            ↑((st.buf.set st.pos line).take (st.pos + 1)) := by
          rw [take_set_succ _ _ line (by omega), ← Multiset.coe_add, ← add_assoc,
            Multiset.coe_singleton]
          exact add_le_add_right hM _
        have := e10 (M + {line}) hM1
        have hsplit : (↑(line :: rest) : Multiset Record) = {line} + ↑rest := by
          rw [← Multiset.cons_coe, Multiset.singleton_add]
        rw [hsplit, ← add_assoc]
        exact this

/-! ## The log of the split stage -/

theorem Passed_nil (f : List Op → Op → Bool) (L : List Op) : Passed f L [] := by
  intro a op b h
  simp at h

theorem Passed_append (f : List Op → Op → Bool) (L ops1 ops2 : List Op)
    (h1 : Passed f L ops1) (h2 : Passed f (L ++ ops1) ops2) : Passed f L (ops1 ++ ops2) := by
  intro a op b h hc
  rcases List.append_eq_append_iff.1 h with ⟨a2, ha, hb⟩ | ⟨c2, ha, hb⟩
  · have := h2 a2 op b hb hc
    rw [ha, ← List.append_assoc]
    exact this
  · cases c2 with
    | nil =>
      simp only [List.nil_append, List.append_nil] at ha hb
      have := h2 [] op b hb.symm hc
      rw [← ha]
      simpa using this
    | cons x c3 =>
      simp only [List.cons_append, List.cons.injEq] at hb
      obtain ⟨rfl, -⟩ := hb
      exact h1 a op c3 ha hc

theorem Passed_single (f : List Op → Op → Bool) (L : List Op) (op : Op)
    (h : op.canFail = true → f L op = false) : Passed f L [op] := by
  intro a x b hx hc
  cases a with
  | nil =>
    simp only [List.nil_append, List.cons.injEq] at hx
    obtain ⟨rfl, -⟩ := hx
    simpa using h hc
  | cons y ys =>
    simp only [List.cons_append, List.cons.injEq] at hx
    have := hx.2
    simp at this

theorem StopOk_append (f : List Op → Op → Bool) (L ops1 ops2 : List Op) (o : Outcome)
    (h1 : Passed f L ops1) (h2 : StopOk f (L ++ ops1) ops2 o) : StopOk f L (ops1 ++ ops2) o := by
  rcases h2 with ⟨hp, ho⟩ | ⟨a, op, rfl, hp, hf, ho⟩
  · exact Or.inl ⟨Passed_append f L ops1 ops2 h1 hp, ho⟩
  · refine Or.inr ⟨ops1 ++ a, op, by simp, Passed_append f L ops1 a h1 hp, ?_, ho⟩
    rw [← List.append_assoc]
    exact hf

theorem SplitTrace_seq {α β : Type} (s s1 : Store) (x : α) (r : Step β)
    (h1 : SplitTrace s (.next x s1)) (h2 : SplitTrace s1 r) : SplitTrace s r := by
  obtain ⟨a1, b1, ops1, c1, d1, e1⟩ := h1
  obtain ⟨a2, b2, ops2, c2, d2, e2⟩ := h2
  simp only [Step.store] at a1 b1 c1 e1
  refine ⟨by rw [a2, a1], fun a n ha => by rw [b2 a n ha, b1 a n ha], ops1 ++ ops2,
    by rw [c2, c1, List.append_assoc], by simp [d1, d2], ?_⟩
  rw [a1, c1] at e2
  cases r with
  | next y s2 => exact Passed_append _ _ _ _ e1 e2
  | stop o s2 => exact StopOk_append _ _ _ _ _ e1 e2

theorem SplitTrace_refl {α : Type} (s : Store) (x : α) : SplitTrace s (.next x s) :=
  ⟨rfl, fun _ _ _ => rfl, [], by simp [Step.store], by simp, Passed_nil _ _⟩

theorem SplitTrace_panic {α : Type} (s : Store) :
    SplitTrace s (.stop .panic s : Step α) :=
  ⟨rfl, fun _ _ _ => rfl, [], by simp [Step.store], by simp,
    Or.inl ⟨Passed_nil _ _, fun op h => by cases h⟩⟩

theorem SplitTrace_record {α : Type} (s : Store) (x : α) (op : Op) (hc : op.canFail = false)
    (hop : op ≠ Op.NewTempFile 0 0) : SplitTrace s (.next x (s.record op)) :=
  ⟨rfl, fun _ _ _ => rfl, [op], rfl, by simpa using hop.symm,
    Passed_single _ _ _ (fun h => by rw [hc] at h; cases h)⟩

theorem SplitTrace_GetTempFile (s : Store) (age num : Nat) :
    SplitTrace s (GetTempFile s age num) := by
  unfold GetTempFile
  by_cases hf : s.fails s.log (Op.GetTempFile age num) = true
  · rw [if_pos hf]
    exact ⟨rfl, fun _ _ _ => rfl, [Op.GetTempFile age num], rfl, by simp,
      Or.inr ⟨[], _, rfl, Passed_nil _ _, by simpa using hf, rfl⟩⟩
  · rw [if_neg hf]
    have hf2 : s.fails s.log (Op.GetTempFile age num) = false := by simpa using hf
    match hc : s.files age num with
    | none =>
      exact ⟨rfl, fun _ _ _ => rfl, [Op.GetTempFile age num], rfl, by simp,
        Or.inl ⟨Passed_single _ _ _ (fun _ => hf2), fun op h => by cases h⟩⟩
    | some c =>
      exact ⟨rfl, fun _ _ _ => rfl, [Op.GetTempFile age num], rfl, by simp,
        Passed_single _ _ _ (fun _ => hf2)⟩

theorem SplitTrace_NewTempFile (s : Store) (num : Nat) :
    SplitTrace s (NewTempFile s 1 num) := by
  unfold NewTempFile
  by_cases hf : s.fails s.log (Op.NewTempFile 1 num) = true
  · rw [if_pos hf]
    exact ⟨rfl, fun _ _ _ => rfl, [Op.NewTempFile 1 num], rfl, by simp,
      Or.inr ⟨[], _, rfl, Passed_nil _ _, by simpa using hf, rfl⟩⟩
  · rw [if_neg hf]
    have hf2 : s.fails s.log (Op.NewTempFile 1 num) = false := by simpa using hf
    refine ⟨rfl, fun a n ha => ?_, [Op.NewTempFile 1 num], rfl, by simp,
      Passed_single _ _ _ (fun _ => hf2)⟩
    simp only [Step.store]
    rw [files_setFile_ne _ _ _ _ _ _ (by intro h; exact ha h.1), files_record]

theorem SplitTrace_Write (s : Store) (num : Nat) (l : Record) :
    SplitTrace s (Write s (1, num) l) := by
  unfold Write
  by_cases hf : s.fails s.log (Op.Write 1 num l) = true
  · rw [if_pos hf]
    exact ⟨rfl, fun _ _ _ => rfl, [Op.Write 1 num l], rfl, by simp,
      Or.inr ⟨[], _, rfl, Passed_nil _ _, by simpa using hf, rfl⟩⟩
  · rw [if_neg hf]
    have hf2 : s.fails s.log (Op.Write 1 num l) = false := by simpa using hf
    refine ⟨rfl, fun a n ha => ?_, [Op.Write 1 num l], rfl, by simp,
      Passed_single _ _ _ (fun _ => hf2)⟩
    simp only [Step.store]
    rw [files_setFile_ne _ _ _ _ _ _ (by intro h; exact ha h.1), files_record]

theorem SplitTrace_writeLines (num : Nat) (lines : List Record) (s : Store) :
    SplitTrace s (writeLines (1, num) lines s) := by
  induction lines generalizing s with
  | nil => exact SplitTrace_refl s ()
  | cons l rest ih =>
    simp only [writeLines]
    have hw := SplitTrace_Write s num l
    match hm : Write s (1, num) l with
    | .stop o s1 => rw [hm] at hw; exact hw
    | .next _ s1 =>
      rw [hm] at hw
      exact SplitTrace_seq s s1 () _ hw (ih s1)

theorem SplitTrace_dumpBuf (st : SplitState) (s : Store) : SplitTrace s (dumpBuf st s) := by
  unfold dumpBuf
  have hn := SplitTrace_NewTempFile s st.currentLevelFiles
  match hm : NewTempFile s 1 st.currentLevelFiles with
  | .stop o s1 => rw [hm] at hn; exact hn
  | .next file s1 =>
    rw [hm] at hn
    simp only
    obtain ⟨rfl, -⟩ := NewTempFile_next _ _ _ _ _ hm
    have hw := SplitTrace_writeLines st.currentLevelFiles (sortStrings st.buf) s1
    match hm2 : writeLines (1, st.currentLevelFiles) (sortStrings st.buf) s1 with
    | .stop o s2 =>
      rw [hm2] at hw
      exact SplitTrace_seq s s1 _ _ hn hw
    | .next _ s2 =>
      rw [hm2] at hw
      simp only
      refine SplitTrace_seq s s1 _ _ hn (SplitTrace_seq s1 s2 () _ hw ?_)
      exact SplitTrace_record s2 _ _ rfl (by simp)

theorem SplitTrace_scanLoop (K : Nat) (original : Scanner) (st : SplitState) (s : Store) :
    SplitTrace s (scanLoop K original st s) := by
  induction original generalizing st s with
  | nil => exact SplitTrace_refl s st
  | cons line rest ih =>
    simp only [scanLoop]
    by_cases hp : st.pos + 1 ≥ K
    · rw [if_pos hp]
      have hd := SplitTrace_dumpBuf st s
      match hm : dumpBuf st s with
      | .stop o s1 => rw [hm] at hd; exact hd
      | .next st1 s1 =>
        rw [hm] at hd
        simp only
        split_ifs
        · exact SplitTrace_seq s s1 _ _ hd (ih _ s1)
        · exact SplitTrace_seq s s1 _ _ hd (SplitTrace_panic s1)
    · rw [if_neg hp]
      simp only
      split_ifs
      · exact ih _ s
      · exact SplitTrace_panic s

theorem SplitTrace_splitFrom (K : Nat) (s : Store) : SplitTrace s (splitFrom K s) := by
  unfold splitFrom
  have hg := SplitTrace_GetTempFile s 0 0
  match hm : GetTempFile s 0 0 with
  | .stop o s1 => rw [hm] at hg; exact hg
  | .next original s1 =>
    rw [hm] at hg
    simp only
    refine SplitTrace_seq s s1 _ _ hg ?_
    unfold splitStage
    have hs := SplitTrace_scanLoop K original
      { buf := List.replicate K [], pos := 0, currentLevelFiles := 0 } s1
    match hm2 : scanLoop K original
        { buf := List.replicate K [], pos := 0, currentLevelFiles := 0 } s1 with
    | .stop o s2 => rw [hm2] at hs; exact hs
    | .next st2 s2 =>
      rw [hm2] at hs
      simp only
      split_ifs
      · exact SplitTrace_seq s1 s2 _ _ hs (SplitTrace_dumpBuf st2 s2)
      · exact hs

/-- In a consistent log the first operation that fails is the last one, and the stage
stops with its error. -/
theorem SplitTrace_failure {α : Type} (s : Store) (r : Step α) (ht : SplitTrace s r)
    (a b : List Op) (op : Op) (hlog : r.store.log = s.log ++ a ++ op :: b)
    (hc : op.canFail = true) (hfail : s.fails (s.log ++ a) op = true) :
    b = [] ∧ r = .stop (.err (.failed op)) r.store ∧ Op.NewTempFile 0 0 ∉ a ++ [op] := by
  obtain ⟨-, -, ops, c, d, e⟩ := ht
  have hops : ops = a ++ op :: b := by
    rw [hlog, List.append_assoc] at c
    exact (List.append_cancel_left c).symm
  have hcontra : ∀ {P : Prop}, Passed s.fails s.log ops → P := by
    intro P hp
    have := hp a op b hops hc
    rw [this] at hfail
    cases hfail
  cases r with
  | next x s2 => exact hcontra e
  | stop o s2 =>
    rcases e with ⟨hp, -⟩ | ⟨a2, op2, h1, h2, h3, h4⟩
    · exact hcontra hp
    · rw [hops] at h1
      rcases List.append_eq_append_iff.1 h1 with ⟨a3, ha, hb⟩ | ⟨c3, ha, hb⟩
      · -- `a2 = a ++ a3`, and `op :: b = a3 ++ [op2]`
        cases a3 with
        | nil =>
          simp only [List.nil_append, List.cons.injEq] at hb
          obtain ⟨rfl, rfl⟩ := hb
          refine ⟨rfl, by rw [h4]; rfl, ?_⟩
          rw [hops] at d
          simpa using d
        | cons y ys =>
          simp only [List.cons_append, List.cons.injEq] at hb
          obtain ⟨rfl, -⟩ := hb
          have := h2 a op ys ha hc
          rw [this] at hfail
          cases hfail
      · -- `a = a2 ++ c3`, and `[op2] = c3 ++ op :: b`
        cases c3 with
        | nil =>
          simp only [List.nil_append, List.cons.injEq] at hb
          obtain ⟨rfl, hb⟩ := hb
          refine ⟨hb.symm, by rw [h4]; rfl, ?_⟩
          rw [hops] at d
          subst hb
          simpa using d
        | cons y ys =>
          simp only [List.cons_append, List.cons.injEq] at hb
          have := hb.2
          simp at this

/-! ## The split stage on a store that never fails -/

theorem splitFrom_ok (K : Nat) (hK : 2 ≤ K) (s : Store) (input : List Record)
    (hnf : s.neverFails) (hin : s.files 0 0 = some input) :
    ∃ st s2, splitFrom K s = .next st s2 ∧ s2.fails = s.fails ∧
      st.currentLevelFiles =
        (if input.length = 0 then 1 else (input.length - 1) / (K - 1) + 1) ∧
      (∀ i, i < st.currentLevelFiles → ∃ run, s2.files 1 i = some run ∧ run.length = K) ∧
      (∀ a n, ¬ (a = 1 ∧ n < st.currentLevelFiles) → s2.files a n = s.files a n) ∧
      (↑input : Multiset Record) ≤ ↑(runsOf s2 1 st.currentLevelFiles) := by
  unfold splitFrom
  rw [GetTempFile_ok s 0 0 input hnf hin]
  simp only
  unfold splitStage
  obtain ⟨st1, s2, e1, e2, e3, e4, e5, e6, -, e8, e9, e10⟩ := scanLoop_ok K hK input
    { buf := List.replicate K [], pos := 0, currentLevelFiles := 0 }
    (s.record (Op.GetTempFile 0 0)) hnf (by simp) (by simp only; omega)
  simp only [Nat.zero_mul, Nat.zero_add, files_record] at e5 e8 e9 e10
  rw [e1]
  simp only
  rw [if_pos (by omega)]
  have hnf2 : s2.neverFails := neverFails_of_fails_eq _ s2 e2 hnf
  obtain ⟨s3, d1, d2, d3, d4⟩ := dumpBuf_ok st1 s2 hnf2
  rw [d1]
  refine ⟨_, s3, rfl, by rw [d3, e2]; rfl, ?_, ?_, ?_, ?_⟩
  · simp only
    by_cases hz : input.length = 0
    · rw [if_pos hz]
      rw [hz] at e5
      have h0 : st1.currentLevelFiles * (K - 1) = 0 := by omega
      rcases Nat.mul_eq_zero.1 h0 with h | h
      · omega
      · omega
    · rw [if_neg hz]
      have hp := e6 (by intro h; apply hz; rw [h]; rfl)
      have hdiv : (input.length - 1) / (K - 1) = st1.currentLevelFiles := by
        apply Nat.div_eq_of_lt_le
        · omega
        · rw [Nat.succ_mul]
          omega
      rw [hdiv]
  · intro i hi
    simp only at hi
    by_cases hic : i = st1.currentLevelFiles
    · subst hic
      exact ⟨_, d2, by rw [length_sortStrings, e3]⟩
    · obtain ⟨run, hr, hl⟩ := e9 i (Nat.zero_le _) (by omega)
      exact ⟨run, by rw [d4 1 i (by intro h; exact hic h.2), hr], hl⟩
  · intro a n hne
    simp only at hne
    rw [d4 a n (by intro h; exact hne ⟨h.1, by omega⟩)]
    exact e8 a n (by intro h; exact hne ⟨h.1, by omega⟩)
  · simp only
    have h0 := e10 0 (by simp [runsOf_zero])
    rw [zero_add] at h0
    have hruns : runsOf s3 1 (st1.currentLevelFiles + 1) =
        runsOf s2 1 st1.currentLevelFiles ++ sortStrings st1.buf := by
      rw [runsOf_succ, d2, runsOf_congr s2 s3 1 st1.currentLevelFiles
        (fun i hi => d4 1 i (by intro h; omega))]
      rfl
    rw [hruns, ← Multiset.coe_add]
    exact le_add_sorted_buf _ _ st1.buf st1.pos h0

theorem sortStrings_pad (input : List Record) (m : Nat) :
    sortStrings (input ++ List.replicate m []) = List.replicate m [] ++ sortStrings input := by
  apply List.eq_of_perm_of_sorted (r := (· ≤ ·))
  · refine (perm_sortStrings _).trans (List.perm_append_comm.trans ?_)
    exact List.Perm.append_left _ (perm_sortStrings input).symm
  · exact sorted_sortStrings _
  · refine List.pairwise_append.2 ⟨?_, sorted_sortStrings input, ?_⟩
    · rw [List.pairwise_replicate]
      exact Or.inr (le_refl _)
    · intro a ha b _
      rw [List.eq_of_mem_replicate ha]
      exact List.nil_le

theorem splitFrom_small (K : Nat) (s : Store) (input : List Record)
    (hnf : s.neverFails) (hin : s.files 0 0 = some input) (hn : input.length < K) :
    ∃ st s2, splitFrom K s = .next st s2 ∧ s2.fails = s.fails ∧ st.currentLevelFiles = 1 ∧
      s2.files 1 0 = some (sortStrings (input ++ List.replicate (K - input.length) [])) ∧
      ∀ a n, ¬ (a = 1 ∧ n = 0) → s2.files a n = s.files a n := by
  unfold splitFrom
  rw [GetTempFile_ok s 0 0 input hnf hin]
  simp only
  unfold splitStage
  obtain ⟨buf, h1, h2, h3, h4⟩ := scanLoop_small K input
    { buf := List.replicate K [], pos := 0, currentLevelFiles := 0 }
    (s.record (Op.GetTempFile 0 0)) (by simp) (by simp only; omega)
  simp only [Nat.zero_add, List.take_zero, List.nil_append, List.drop_replicate] at h1 h3 h4
  have hbuf : buf = input ++ List.replicate (K - input.length) [] := by
    rw [← List.take_append_drop input.length buf, h3, h4]
  rw [h1]
  simp only
  rw [if_pos (by omega)]
  obtain ⟨s3, d1, d2, d3, d4⟩ := dumpBuf_ok (SplitState.mk buf input.length 0)
    (s.record (Op.GetTempFile 0 0)) hnf
  rw [d1]
  subst hbuf
  exact ⟨_, s3, rfl, by rw [d3]; rfl, rfl, d2, fun a n hne => by rw [d4 a n hne]; rfl⟩

theorem copyBack_ok (age : Nat) (s : Store) (src : List Record) (hnf : s.neverFails)
    (hsrc : s.files age 0 = some src) (hage : age ≠ 0) :
    ∃ s2, copyBack age s = (.nil, s2) ∧ s2.files 0 0 = some src ∧
      ∀ a n, ¬ (a = 0 ∧ n = 0) → s2.files a n = s.files a n := by
  unfold copyBack
  rw [NewTempFile_ok s 0 0 hnf]
  simp only
  have hnf1 : ((s.record (Op.NewTempFile 0 0)).setFile 0 0 []).neverFails := hnf
  have hsrc1 : ((s.record (Op.NewTempFile 0 0)).setFile 0 0 []).files age 0 = some src := by
    rw [files_setFile_ne _ _ _ _ _ _ (by intro h; exact hage h.1), files_record, hsrc]
  rw [GetTempFile_ok _ age 0 src hnf1 hsrc1]
  simp only
  obtain ⟨s3, h3⟩ := writeLines_ok (0, 0) src
    (((s.record (Op.NewTempFile 0 0)).setFile 0 0 []).record (Op.GetTempFile age 0)) hnf1
  obtain ⟨w1, -, w3⟩ := writeLines_next (0, 0) src _ s3 []
    (by rw [files_record, files_setFile_self]) h3
  rw [h3]
  refine ⟨_, rfl, by simpa [files_record] using w1, ?_⟩
  intro a n hne
  simp only [files_record]
  rw [w3 a n hne, files_record, files_setFile_ne _ _ _ _ _ _ hne, files_record]

theorem sortLines_small (K : Nat) (s : Store) (input : List Record)
    (hnf : s.neverFails) (hin : s.files 0 0 = some input) (hn : input.length < K) :
    (sortLines K s).1 = .nil ∧
      (sortLines K s).2.files 0 0 =
        some (List.replicate (K - input.length) [] ++ sortStrings input) := by
  obtain ⟨st, s2, h1, h2, h3, h4, -⟩ := splitFrom_small K s input hnf hin hn
  unfold sortLines
  rw [h1]
  simp only
  rw [if_neg (by omega), mergeRounds_done K _ _ _ (by simp only; omega)]
  simp only
  obtain ⟨s3, c1, c2, -⟩ := copyBack_ok 1 (s2.record (Op.closeReader 0 0)) _
    (neverFails_of_fails_eq s _ h2 hnf) (by rw [files_record]; exact h4) (by omega)
  rw [c1]
  exact ⟨rfl, by rw [c2, sortStrings_pad]⟩

/-! ## Every run of the split stage is sorted -/

theorem scanLoop_sorted (K : Nat) (original : Scanner) (st st2 : SplitState) (s s2 : Store)
    (hs : ∀ i, i < st.currentLevelFiles → ∃ run, s.files 1 i = some run ∧ run.Sorted (· ≤ ·))
    (h : scanLoop K original st s = .next st2 s2) :
    ∀ i, i < st2.currentLevelFiles → ∃ run, s2.files 1 i = some run ∧ run.Sorted (· ≤ ·) := by
  induction original generalizing st s with
  | nil =>
    simp only [scanLoop] at h
    cases h
    exact hs
  | cons line rest ih =>
    simp only [scanLoop] at h
    by_cases hp : st.pos + 1 ≥ K
    · rw [if_pos hp] at h
      match hd : dumpBuf st s with
      | .stop o s1 => rw [hd] at h; cases h
      | .next st1 s1 =>
        rw [hd] at h
        simp only at h
        obtain ⟨rfl, d2, -, d4⟩ := dumpBuf_next _ _ _ _ hd
        split_ifs at h
        refine ih _ _ ?_ h
        intro i hi
        simp only at hi
        by_cases hic : i = st.currentLevelFiles
        · subst hic
          exact ⟨_, d2, sorted_sortStrings _⟩
        · obtain ⟨run, hr, hsr⟩ := hs i (by omega)
          exact ⟨run, by rw [d4 1 i (by intro h; exact hic h.2), hr], hsr⟩
    · rw [if_neg hp] at h
      simp only at h
      split_ifs at h
      refine ih _ s ?_ h
      exact hs

theorem splitFrom_sorted (K : Nat) (s s2 : Store) (st : SplitState)
    (h : splitFrom K s = .next st s2) :
    ∀ i, i < st.currentLevelFiles → ∃ run, s2.files 1 i = some run ∧ run.Sorted (· ≤ ·) := by
  unfold splitFrom at h
  match hg : GetTempFile s 0 0 with
  | .stop o s1 => rw [hg] at h; cases h
  | .next original s1 =>
    rw [hg] at h
    simp only at h
    unfold splitStage at h
    match hs : scanLoop K original
        { buf := List.replicate K [], pos := 0, currentLevelFiles := 0 } s1 with
    | .stop o s3 => rw [hs] at h; cases h
    | .next st1 s3 =>
      rw [hs] at h
      simp only at h
      have h1 := scanLoop_sorted K original _ st1 s1 s3
        (fun i hi => by simp only at hi; omega) hs
      split_ifs at h
      · obtain ⟨rfl, d2, -, d4⟩ := dumpBuf_next _ _ _ _ h
        intro i hi
        simp only at hi
        by_cases hic : i = st1.currentLevelFiles
        · subst hic
          exact ⟨_, d2, sorted_sortStrings _⟩
        · obtain ⟨run, hr, hsr⟩ := h1 i (by omega)
          exact ⟨run, by rw [d4 1 i (by intro h; exact hic h.2), hr], hsr⟩
      · cases h
        exact h1

/-! ## The merge stage on a store that never fails -/

theorem mergeFiles_panic (K : Nat) (st : MergeState) (s : Store) (hnf : s.neverFails)
    (hnil : ∃ file ∈ st.files, file.f = none) :
    ∃ s2, mergeFiles K st s = .stop .panic s2 ∧ s2.fails = s.fails ∧
      (st.currentLevelFiles ≤ K → s2.files 0 0 = some [] ∧
        ∀ a n, ¬ (a = 0 ∧ n = 0) → s2.files a n = s.files a n) ∧
      (¬ st.currentLevelFiles ≤ K → s2.files (st.age + 1) st.newCurrentFiles = some [] ∧
        ∀ a n, ¬ (a = st.age + 1 ∧ n = st.newCurrentFiles) → s2.files a n = s.files a n) := by
  unfold mergeFiles
  by_cases hc : st.currentLevelFiles ≤ K
  · rw [if_pos hc, NewTempFile_ok s 0 0 hnf]
    simp only
    obtain ⟨s2, h1, h2, h3⟩ := mergeFilesInto_nil st.files (0, 0)
      ((s.record (Op.NewTempFile 0 0)).setFile 0 0 []) hnil
    rw [h1]
    refine ⟨s2, rfl, by rw [h3]; rfl, fun _ => ⟨by rw [h2, files_setFile_self], ?_⟩,
      fun h => absurd hc h⟩
    intro a n hne
    rw [h2, files_setFile_ne _ _ _ _ _ _ hne, files_record]
  · rw [if_neg hc, NewTempFile_ok s _ _ hnf]
    simp only
    obtain ⟨s2, h1, h2, h3⟩ := mergeFilesInto_nil st.files (st.age + 1, st.newCurrentFiles)
      ((s.record (Op.NewTempFile (st.age + 1) st.newCurrentFiles)).setFile (st.age + 1)
        st.newCurrentFiles []) hnil
    rw [h1]
    refine ⟨s2, rfl, by rw [h3]; rfl, fun h => absurd h hc,
      fun _ => ⟨by rw [h2, files_setFile_self], ?_⟩⟩
    intro a n hne
    rw [h2, files_setFile_ne _ _ _ _ _ _ hne, files_record]

theorem openLoop_nf (K n i : Nat) (st : MergeState) (s : Store) (hK : 2 ≤ K)
    (hnf : s.neverFails) (hlen : st.files.length = K)
    (hnil : ∃ file, st.files[K - 1]? = some file ∧ file.f = none) (hpos : st.pos < K)
    (hex : ∀ j, i ≤ j → j < i + n → ∃ c, s.files st.age j = some c) :
    (∃ s2, openLoop K n i st s = .stop .panic s2 ∧
      (st.currentLevelFiles ≤ K → s2.files 0 0 = some [] ∧
        ∀ a m, ¬ (a = 0 ∧ m = 0) → s2.files a m = s.files a m) ∧
      (¬ st.currentLevelFiles ≤ K → s2.files (st.age + 1) st.newCurrentFiles = some [] ∧
        ∀ a m, ¬ (a = st.age + 1 ∧ m = st.newCurrentFiles) → s2.files a m = s.files a m)) ∨
    (∃ st2 s2, openLoop K n i st s = .next st2 s2 ∧ st2.files.length = K ∧
      (∃ file, st2.files[K - 1]? = some file ∧ file.f = none) ∧
      st2.currentLevelFiles = st.currentLevelFiles ∧ st2.age = st.age ∧
      st2.newCurrentFiles = st.newCurrentFiles ∧ s2.files = s.files ∧ s2.fails = s.fails) := by
  induction n generalizing i st s with
  | zero => exact Or.inr ⟨st, s, rfl, hlen, hnil, rfl, rfl, rfl, rfl, rfl⟩
  | succ n ih =>
    simp only [openLoop]
    by_cases hp : st.pos + 1 ≥ K
    · rw [if_pos hp]
      obtain ⟨file, hget, hf⟩ := hnil
      obtain ⟨s2, h1, -, h3, h4⟩ := mergeFiles_panic K st s hnf
        ⟨file, List.mem_iff_getElem?.2 ⟨_, hget⟩, hf⟩
      rw [h1]
      exact Or.inl ⟨s2, rfl, h3, h4⟩
    · rw [if_neg hp]
      simp only
      obtain ⟨c, hc⟩ := hex i (le_refl _) (by omega)
      rw [GetTempFile_ok s st.age i c hnf hc]
      simp only
      rw [if_pos (by omega)]
      obtain ⟨file, hget, hf⟩ := hnil
      rcases ih (i + 1)
        { st with
          files := st.files.set st.pos { f := some c, c := some (Op.closeReader st.age i) }
          pos := st.pos + 1 } (s.record (Op.GetTempFile st.age i)) hnf (by simp [hlen])
        ⟨file, by
          simp only
          rw [List.getElem?_set_ne (by omega)]
          exact hget, hf⟩ (by simp only; omega)
        (fun j h1 h2 => by
          simp only [files_record]
          exact hex j (by omega) (by omega)) with
        ⟨s2, h1, h2, h3⟩ | ⟨st2, s2, h1, h2, h3, h4, h5, h6, h7, h8⟩
      · exact Or.inl ⟨s2, h1, h2, h3⟩
      · exact Or.inr ⟨st2, s2, h1, h2, h3, h4, h5, h6, h7, h8⟩

theorem mergeRounds_panic (K fuel : Nat) (st : MergeState) (s : Store) (hK : 2 ≤ K)
    (hnf : s.neverFails) (hlen : st.files.length = K)
    (hnil : ∃ file, st.files[K - 1]? = some file ∧ file.f = none) (hpos : st.pos < K)
    (hclf : st.currentLevelFiles > 1) (hfuel : 0 < fuel)
    (hex : ∀ j, j < st.currentLevelFiles → ∃ c, s.files st.age j = some c) :
    ∃ s2, mergeRounds K fuel st s = .stop .panic s2 ∧
      (st.currentLevelFiles ≤ K → s2.files 0 0 = some [] ∧
        ∀ a m, ¬ (a = 0 ∧ m = 0) → s2.files a m = s.files a m) ∧
      (¬ st.currentLevelFiles ≤ K → s2.files (st.age + 1) st.newCurrentFiles = some [] ∧
        ∀ a m, ¬ (a = st.age + 1 ∧ m = st.newCurrentFiles) → s2.files a m = s.files a m) := by
  cases fuel with
  | zero => omega
  | succ fuel =>
    rw [mergeRounds, if_pos hclf]
    rcases openLoop_nf K st.currentLevelFiles 0 st s hK hnf hlen hnil hpos
        (fun j _ h2 => hex j (by omega)) with
      ⟨s2, h1, h2, h3⟩ | ⟨st2, s2, h1, h2, ⟨file, hget, hf⟩, h4, h5, h6, h7, h8⟩
    · rw [h1]
      exact ⟨s2, rfl, h2, h3⟩
    · rw [h1]
      simp only
      rw [if_pos (by omega)]
      obtain ⟨s3, m1, -, m3, m4⟩ := mergeFiles_panic K st2 s2
        (neverFails_of_fails_eq s s2 h8 hnf) ⟨file, List.mem_iff_getElem?.2 ⟨_, hget⟩, hf⟩
      rw [m1]
      simp only [h4, h5, h6, h7] at m3 m4
      exact ⟨s3, rfl, m3, m4⟩

theorem sortLines_panic (K : Nat) (hK : 2 ≤ K) (s : Store) (input : List Record)
    (hnf : s.neverFails) (hin : s.files 0 0 = some input) (hn : K ≤ input.length) :
    ∃ st s1, splitFrom K s = .next st s1 ∧ 2 ≤ st.currentLevelFiles ∧
      (sortLines K s).1 = .panic ∧
      (st.currentLevelFiles ≤ K → (sortLines K s).2.files 0 0 = some []) ∧
      (¬ st.currentLevelFiles ≤ K → (sortLines K s).2.files 2 0 = some []) ∧
      ∀ i, (sortLines K s).2.files 1 i = s1.files 1 i := by
  obtain ⟨st, s1, h1, h2, h3, h4, -, -⟩ := splitFrom_ok K hK s input hnf hin
  have hR : 2 ≤ st.currentLevelFiles := by
    rw [h3, if_neg (by omega)]
    have : 1 ≤ (input.length - 1) / (K - 1) := by
      rw [Nat.le_div_iff_mul_le (by omega)]
      omega
    omega
  refine ⟨st, s1, h1, hR, ?_⟩
  unfold sortLines
  rw [h1]
  simp only
  rw [if_neg (by omega)]
  obtain ⟨s2, m1, m2, m3⟩ := mergeRounds_panic K st.currentLevelFiles
    { age := 1, currentLevelFiles := st.currentLevelFiles, newCurrentFiles := 0,
      files := List.replicate K { f := none, c := none }, pos := 0 }
    (s1.record (Op.closeReader 0 0)) hK (neverFails_of_fails_eq s _ h2 hnf) (by simp)
    ⟨{ f := none, c := none }, (by simp [List.getElem?_replicate]; omega), rfl⟩
    (by simp only; omega) (by simp only; omega) (by omega)
    (fun j hj => by
      obtain ⟨run, hr, -⟩ := h4 j hj
      exact ⟨run, by simpa [files_record] using hr⟩)
  rw [m1]
  simp only [files_record] at m2 m3 ⊢
  refine ⟨trivial, fun h => (m2 h).1, fun h => (m3 h).1, ?_⟩
  intro i
  by_cases hc : st.currentLevelFiles ≤ K
  · exact (m2 hc).2 1 i (by omega)
  · exact (m3 hc).2 1 i (by omega)

/-! ## `LinesInPlace` over `truncatingManager` is the model above -/

theorem truncating_GetTempFile (s : Store) (age num : Nat) :
    truncatingManager.GetTempFile s age num = GetTempFile s age num := rfl

theorem truncating_NewTempFile (s : Store) (age num : Nat) :
    truncatingManager.NewTempFile s age num =
      match NewTempFile s age num with
      | .stop o s2 => .stop o s2
      | .next w s2 => .next { age := w.1, num := w.2, offset := 0 } s2 := rfl

theorem truncating_Write (s : Store) (w : Writer) (line : Record) :
    truncatingManager.Write s w line =
      match Write s (w.age, w.num) line with
      | .stop o s2 => .stop o s2
      | .next _ s2 => .next w s2 := rfl

theorem writeLinesOn_truncating (w : Writer) (lines : List Record) (s : Store) :
    writeLinesOn truncatingManager w lines s =
      match writeLines (w.age, w.num) lines s with
      | .stop o s2 => .stop o s2
      | .next _ s2 => .next w s2 := by
  induction lines generalizing s with
  | nil => rfl
  | cons l rest ih =>
    simp only [writeLinesOn, writeLines, truncating_Write]
    cases hW : Write s (w.age, w.num) l with
    | stop o s1 => rfl
    | next u s1 => exact ih s1

theorem dumpBufOn_truncating (st : SplitState) (s : Store) :
    dumpBufOn truncatingManager st s = dumpBuf st s := by
  unfold dumpBufOn dumpBuf
  rw [truncating_NewTempFile]
  cases hN : NewTempFile s 1 st.currentLevelFiles with
  | stop o s1 => rfl
  | next w s1 =>
    simp only
    rw [writeLinesOn_truncating]
    cases hW : writeLines (w.1, w.2) (sortStrings st.buf) s1 with
    | stop o s2 => rfl
    | next u s2 => rfl

theorem scanLoopOn_truncating (K : Nat) (original : Scanner) (st : SplitState) (s : Store) :
    scanLoopOn truncatingManager K original st s = scanLoop K original st s := by
  induction original generalizing st s with
  | nil => rfl
  | cons line rest ih =>
    simp only [scanLoopOn, scanLoop, dumpBufOn_truncating]
    cases (if st.pos + 1 ≥ K then dumpBuf st s else Step.next st s) with
    | stop o s1 => rfl
    | next st1 s1 =>
      simp only
      split_ifs
      · exact ih _ s1
      · rfl

theorem splitFromOn_truncating (K : Nat) (s : Store) :
    splitFromOn truncatingManager K s = splitFrom K s := by
  unfold splitFromOn splitFrom splitStageOn splitStage
  simp only [scanLoopOn_truncating, dumpBufOn_truncating, truncating_GetTempFile]

theorem mergeLoopOn_truncating (fuel : Nat) (h : priorityQueue) (files : List fileWithCloser)
    (dst : Writer) (s : Store) :
    mergeLoopOn truncatingManager fuel h files dst s =
      mergeLoop fuel h files (dst.age, dst.num) s := by
  induction fuel generalizing h files s with
  | zero =>
    rw [mergeLoopOn, mergeLoop]
  | succ fuel ih =>
    rw [mergeLoopOn, mergeLoop]
    split_ifs
    · simp only [truncating_Write]
      cases hW : Write s (dst.age, dst.num) (heap.Pop h).1.line with
      | stop o s1 => rfl
      | next u s1 =>
        simp only
        cases hG : files[(heap.Pop h).1.fileIndex]? with
        | none => rfl
        | some file =>
          simp only
          match hf : file.f with
          | none => rfl
          | some [] => exact ih _ _ _
          | some (l :: ls) => exact ih _ _ _
    · rfl

theorem mergeFilesIntoOn_truncating (files : List fileWithCloser) (dst : Writer) (s : Store) :
    mergeFilesIntoOn truncatingManager files dst s = mergeFilesInto files (dst.age, dst.num) s := by
  unfold mergeFilesIntoOn mergeFilesInto
  simp only [mergeLoopOn_truncating]

theorem mergeFilesOn_truncating (K : Nat) (st : MergeState) (s : Store) :
    mergeFilesOn truncatingManager K st s = mergeFiles K st s := by
  unfold mergeFilesOn mergeFiles
  by_cases hc : st.currentLevelFiles ≤ K
  · simp only [if_pos hc, truncating_NewTempFile]
    cases hN : NewTempFile s 0 0 with
    | stop o s1 => rfl
    | next w s1 =>
      simp only
      rw [mergeFilesIntoOn_truncating]
  · simp only [if_neg hc, truncating_NewTempFile]
    cases hN : NewTempFile s (st.age + 1) st.newCurrentFiles with
    | stop o s1 => rfl
    | next w s1 =>
      simp only
      rw [mergeFilesIntoOn_truncating]

theorem openLoopOn_truncating (K n i : Nat) (st : MergeState) (s : Store) :
    openLoopOn truncatingManager K n i st s = openLoop K n i st s := by
  induction n generalizing i st s with
  | zero => rfl
  | succ n ih =>
    simp only [openLoopOn, openLoop, mergeFilesOn_truncating]
    cases (if st.pos + 1 ≥ K then mergeFiles K st s else Step.next st s) with
    | stop o s1 => rfl
    | next st1 s1 =>
      simp only
      rw [truncating_GetTempFile]
      cases GetTempFile s1 st1.age i with
      | stop o s2 => rfl
      | next f s2 =>
        simp only
        split_ifs
        · exact ih _ _ _
        · rfl

theorem mergeRoundsOn_truncating (K fuel : Nat) (st : MergeState) (s : Store) :
    mergeRoundsOn truncatingManager K fuel st s = mergeRounds K fuel st s := by
  induction fuel generalizing st s with
  | zero => rw [mergeRoundsOn, mergeRounds]
  | succ fuel ih =>
    rw [mergeRoundsOn, mergeRounds]
    simp only [openLoopOn_truncating, mergeFilesOn_truncating]
    split_ifs
    · cases openLoop K st.currentLevelFiles 0 st s with
      | stop o s1 => rfl
      | next st1 s1 =>
        simp only
        cases (if st1.files.length > 0 then mergeFiles K st1 s1 else Step.next st1 s1) with
        | stop o s2 => rfl
        | next st2 s2 =>
          simp only
          split_ifs
          · rfl
          · exact ih _ _
    · rfl

theorem copyBackOn_truncating (age : Nat) (s : Store) :
    copyBackOn truncatingManager age s = copyBack age s := by
  unfold copyBackOn copyBack
  simp only [truncating_NewTempFile, truncating_GetTempFile]
  cases hN : NewTempFile s 0 0 with
  | stop o s1 => rfl
  | next w s1 =>
    simp only
    cases hG : GetTempFile s1 age 0 with
    | stop o s2 => rfl
    | next src s2 =>
      simp only
      rw [writeLinesOn_truncating]
      cases writeLines (w.1, w.2) src s2 with
      | stop o s3 => rfl
      | next u s3 => rfl

theorem sortLinesOn_truncating (K : Nat) (s : Store) :
    sortLinesOn truncatingManager K s = sortLines K s := by
  unfold sortLinesOn sortLines
  simp only [splitFromOn_truncating, mergeRoundsOn_truncating, copyBackOn_truncating]

/-- Over `truncatingManager` the model with a manager is the model of the first part. -/
theorem LinesInPlaceOn_truncating (maxLinesInMem : Int) (manager : Option Store) :
    LinesInPlaceOn truncatingManager maxLinesInMem manager =
      LinesInPlace maxLinesInMem manager := by
  unfold LinesInPlaceOn LinesInPlace
  simp only [sortLinesOn_truncating]

/-! ## The order on records -/

/-- The order used on records is the lexicographic one: the empty record is least, and two
non-empty records compare by their first byte, then by the rest. -/
theorem Record_lt_iff (a b : Nat) (l m : Record) :
    (([] : Record) < b :: m) ∧ ¬ (a :: l < ([] : Record)) ∧
      ((a :: l : Record) < b :: m ↔ a < b ∨ (a = b ∧ l < m)) := by
  refine ⟨List.Lex.nil, (fun h => by cases h), ?_⟩
  constructor
  · intro h
    cases h with
    | cons h => exact Or.inr ⟨rfl, h⟩
    | rel h => exact Or.inl h
  · rintro (h | ⟨rfl, h⟩)
    · exact List.Lex.rel h
    · exact List.Lex.cons h

/-! ## Properties of the specification, checked on the model -/

/-- C1 (fails on the code): the scenario of the specification, records "9", "8", "81",
"7", "6" with capacity 2. The call ends in a panic, and the subject file still holds the
unsorted input, not the reference sort. -/
theorem LinesInPlace_scenario_panics :
    (LinesInPlace 2 (some (newMockFileManager [[57], [56], [56, 49], [55], [54]]))).1
        = Outcome.panic ∧
      (LinesInPlace 2 (some (newMockFileManager [[57], [56], [56, 49], [55], [54]]))).2.bind
        getResult = some [[57], [56], [56, 49], [55], [54]] ∧
      naiveSort [[57], [56], [56, 49], [55], [54]] = [[54], [55], [56], [56, 49], [57]] := by
  decide

/-- C2 (fails on the code): records "9", "8" with capacity 2. The split stage writes the
runs (1,0) = "", "9" and (1,1) = "8", "9": an empty record is invented and "9" is written
twice, so the runs hold four records and are no rearrangement of the input. -/
theorem splitFrom_invents_records :
    (splitFrom 2 (newMockFileManager [[57], [56]])).store.files 1 0 = some [[], [57]] ∧
      (splitFrom 2 (newMockFileManager [[57], [56]])).store.files 1 1 = some [[56], [57]] ∧
      (splitFrom 2 (newMockFileManager [[57], [56]])).store.files 1 2 = none ∧
      ¬ (runsOf (splitFrom 2 (newMockFileManager [[57], [56]])).store 1 2).Perm
        [[57], [56]] := by
  decide

/-- C3 (fails on the code): records "1", "2" with capacity 2 on the never-failing in-memory
store. The call does not return nil: it panics in the first merge call, after the subject
file has been truncated. -/
theorem LinesInPlace_two_records_panics :
    (newMockFileManager [[49], [50]]).neverFails ∧
      (LinesInPlace 2 (some (newMockFileManager [[49], [50]]))).1 = Outcome.panic ∧
      (LinesInPlace 2 (some (newMockFileManager [[49], [50]]))).2.bind getResult
        = some [] := by
  refine ⟨fun _ _ => rfl, ?_, ?_⟩ <;> decide

/-- With a `NewTempFile` that empties the run it opens (that of `truncatingManager`): for
every content of the store, every failure schedule and every capacity of at least 2, when
`LinesInPlace` returns nil the subject file exists and each of its records is at most the
record after it. -/
theorem LinesInPlace_nil_sorted (maxLinesInMem : Int) (s : Store) (hK : 2 ≤ maxLinesInMem)
    (hnil : (LinesInPlace maxLinesInMem (some s)).1 = Outcome.nil) :
    ∃ out, (LinesInPlace maxLinesInMem (some s)).2.bind getResult = some out ∧
      ∀ i, (hi : i + 1 < out.length) → out[i] ≤ out[i + 1] := by
  have hlt : ¬ maxLinesInMem < 2 := by omega
  have hK2 : 2 ≤ maxLinesInMem.toNat := by omega
  unfold LinesInPlace at hnil ⊢
  rw [if_neg hlt] at hnil ⊢
  simp only at hnil ⊢
  obtain ⟨buf, -, hout⟩ := sortLines_nil maxLinesInMem.toNat hK2 s hnil
  refine ⟨sortStrings buf, by simpa [getResult] using hout, ?_⟩
  intro i hi
  exact List.pairwise_iff_getElem.1 (sorted_sortStrings buf) i (i + 1) (by omega) hi
    (by omega)

/-- An instance of `LinesInPlace_nil_sorted`: the single record "1" with capacity 3. -/
theorem LinesInPlace_nil_sorted_witness :
    (2 : Int) ≤ 3 ∧ (LinesInPlace 3 (some (newMockFileManager [[49]]))).1 = Outcome.nil ∧
      ∃ out, (LinesInPlace 3 (some (newMockFileManager [[49]]))).2.bind getResult = some out ∧
        ∀ i, (hi : i + 1 < out.length) → out[i] ≤ out[i + 1] :=
  ⟨by decide, by decide,
    LinesInPlace_nil_sorted 3 (newMockFileManager [[49]]) (by decide) (by decide)⟩

/-- C5: when every input of `mergeFilesInto` is an opened run and writes to the destination
never fail, the call returns nil and appends to the destination a sequence whose multiset
is the sum of the multisets of the inputs; its length is the sum of their lengths. -/
theorem mergeFilesInto_multiset (files : List fileWithCloser) (dst : Nat × Nat) (s : Store)
    (hopen : ∀ file ∈ files, file.f ≠ none ∧ file.c ≠ none) (hw : s.writable dst) :
    ∃ merged s2 out, mergeFilesInto files dst s = .next merged s2 ∧
      (s2.files dst.1 dst.2).getD [] = (s.files dst.1 dst.2).getD [] ++ out ∧
      (↑out : Multiset Record) =
        (files.map fun file => (↑(file.f.getD []) : Multiset Record)).sum ∧
      out.length = (files.map fun file => (file.f.getD []).length).sum := by
  obtain ⟨merged, s2, out, h1, h2, h3⟩ := mergeFilesInto_perm files dst s hopen hw
  refine ⟨merged, s2, out, h1, h2, ?_, ?_⟩
  · rw [← coe_pending]
    exact Multiset.coe_eq_coe.2 h3
  · rw [h3.length_eq, ← unread_eq]
    rfl

/-- Witness for C5: two opened runs, the first one not sorted. -/
theorem mergeFilesInto_multiset_witness :
    (∀ file ∈ [{ f := some [[50], [49]], c := some (Op.closeReader 1 0) },
        ({ f := some [[51]], c := some (Op.closeReader 1 1) } : fileWithCloser)],
        file.f ≠ none ∧ file.c ≠ none) ∧
      (newMockFileManager []).writable (0, 0) ∧
      ∃ merged s2 out, mergeFilesInto
          [{ f := some [[50], [49]], c := some (Op.closeReader 1 0) },
            { f := some [[51]], c := some (Op.closeReader 1 1) }] (0, 0)
          (newMockFileManager []) = .next merged s2 ∧
        (s2.files 0 0).getD [] = ((newMockFileManager []).files 0 0).getD [] ++ out ∧
        (↑out : Multiset Record) =
          ([{ f := some [[50], [49]], c := some (Op.closeReader 1 0) },
            ({ f := some [[51]], c := some (Op.closeReader 1 1) } : fileWithCloser)].map
              fun file => (↑(file.f.getD []) : Multiset Record)).sum ∧
        out.length =
          ([{ f := some [[50], [49]], c := some (Op.closeReader 1 0) },
            ({ f := some [[51]], c := some (Op.closeReader 1 1) } : fileWithCloser)].map
              fun file => (file.f.getD []).length).sum :=
  ⟨by decide, fun _ _ => rfl,
    mergeFilesInto_multiset _ (0, 0) (newMockFileManager []) (by decide) (fun _ _ => rfl)⟩

/-- C6: when every input run of `mergeFilesInto` is non-decreasing, the sequence the call
appends to the destination is non-decreasing. This holds for every store, whether or not a
write fails on the way, and whether or not every input is opened. -/
theorem mergeFilesInto_sorted (files : List fileWithCloser) (dst : Nat × Nat) (s : Store)
    (hsorted : ∀ file ∈ files, (file.f.getD []).Sorted (· ≤ ·)) :
    ∃ out, ((mergeFilesInto files dst s).store.files dst.1 dst.2).getD [] =
        (s.files dst.1 dst.2).getD [] ++ out ∧ out.Sorted (· ≤ ·) :=
  mergeFilesInto_sorted_aux files dst s hsorted

/-- Witness for C6: two opened, sorted runs. -/
theorem mergeFilesInto_sorted_witness :
    (∀ file ∈ [{ f := some [[49], [51]], c := some (Op.closeReader 1 0) },
        ({ f := some [[50]], c := some (Op.closeReader 1 1) } : fileWithCloser)],
        (file.f.getD []).Sorted (· ≤ ·)) ∧
      ∃ out, ((mergeFilesInto
          [{ f := some [[49], [51]], c := some (Op.closeReader 1 0) },
            { f := some [[50]], c := some (Op.closeReader 1 1) }] (0, 0)
          (newMockFileManager [])).store.files 0 0).getD [] =
          ((newMockFileManager []).files 0 0).getD [] ++ out ∧ out.Sorted (· ≤ ·) :=
  ⟨by decide, mergeFilesInto_sorted _ (0, 0) (newMockFileManager []) (by decide)⟩

/-- C7: a capacity below 2, or a nil store, makes `LinesInPlace` return an error with the
store exactly as it was: no operation is issued, the log and every slot are unchanged. -/
theorem LinesInPlace_rejects (maxLinesInMem : Int) (manager : Option Store)
    (h : maxLinesInMem < 2 ∨ manager = none) :
    ∃ e, LinesInPlace maxLinesInMem manager = (Outcome.err e, manager) := by
  unfold LinesInPlace
  by_cases hlt : maxLinesInMem < 2
  · exact ⟨_, by rw [if_pos hlt]⟩
  · rcases h with h | rfl
    · exact absurd h hlt
    · exact ⟨_, by rw [if_neg hlt]⟩

/-- Witness for C7: capacity 1 on the in-memory store. -/
theorem LinesInPlace_rejects_witness :
    ((1 : Int) < 2 ∨ some (newMockFileManager [[49]]) = none) ∧
      ∃ e, LinesInPlace 1 (some (newMockFileManager [[49]])) =
        (Outcome.err e, some (newMockFileManager [[49]])) :=
  ⟨Or.inl (by decide), LinesInPlace_rejects 1 _ (Or.inl (by decide))⟩

/-- C8 (fails on the code): the empty input with capacity 2. The call creates run (1,0),
issues twelve store operations, four of them writes, and leaves two empty records in the
subject file. -/
theorem LinesInPlace_empty_input_writes :
    (LinesInPlace 2 (some (newMockFileManager []))).1 = Outcome.nil ∧
      (LinesInPlace 2 (some (newMockFileManager []))).2.bind getResult = some [[], []] ∧
      (LinesInPlace 2 (some (newMockFileManager []))).2.bind (fun s => s.files 1 0)
        = some [[], []] ∧
      (LinesInPlace 2 (some (newMockFileManager []))).2.map (fun s => s.log) =
        some [Op.GetTempFile 0 0, Op.NewTempFile 1 0, Op.Write 1 0 [], Op.Write 1 0 [],
          Op.closeWriter 1 0, Op.closeReader 0 0, Op.NewTempFile 0 0, Op.GetTempFile 1 0,
          Op.Write 0 0 [], Op.Write 0 0 [], Op.closeReader 1 0, Op.closeWriter 0 0] := by
  decide

/-- C9 (fails on the code): the sorted one-record input "1" with capacity 2 comes back as
the two records "", "1"; the single empty line comes back as two empty lines. -/
theorem LinesInPlace_sorted_input_changed :
    List.Sorted (· ≤ ·) ([[49]] : List Record) ∧
      (LinesInPlace 2 (some (newMockFileManager [[49]]))).2.bind getResult
        = some [[], [49]] ∧
      (LinesInPlace 2 (some (newMockFileManager [[]]))).2.bind getResult
        = some [[], []] := by
  decide

/-- C10 (fails on the code): for the input "1" the subject file after a run with capacity 2
differs from the subject file after a run with capacity 3. -/
theorem LinesInPlace_capacity_dependent :
    (LinesInPlace 2 (some (newMockFileManager [[49]]))).2.bind getResult = some [[], [49]] ∧
      (LinesInPlace 3 (some (newMockFileManager [[49]]))).2.bind getResult
        = some [[], [], [49]] ∧
      (LinesInPlace 2 (some (newMockFileManager [[49]]))).2.bind getResult ≠
        (LinesInPlace 3 (some (newMockFileManager [[49]]))).2.bind getResult := by
  decide

/-! ## Properties of the split stage, the error paths and the merge stage -/

theorem LinesInPlace_eq (K : Nat) (hK : 2 ≤ K) (s : Store) :
    LinesInPlace (K : Int) (some s) = ((sortLines K s).1, some (sortLines K s).2) := by
  unfold LinesInPlace
  rw [if_neg (by omega)]
  simp

theorem Step.eq_of_value? {α : Type} (r : Step α) (x : α) (h : r.value? = some x) :
    r = .next x r.store := by
  cases r with
  | next a s =>
    simp only [Step.value?, Option.some.injEq] at h
    subst h
    rfl
  | stop o s => simp [Step.value?] at h

theorem Step.value?_of_eq {α : Type} (r : Step α) (x : α) (s : Store) (h : r = .next x s) :
    r.value? = some x ∧ r.store = s := by
  subst h
  exact ⟨rfl, rfl⟩

/-- C11 (fails on the code): records "1", "2" with capacity 2, an input of exactly K
records. The split stage ends with two generation-1 runs, "", "1" and "1", "2": the flush
inside the scan fired when the batch held one record, not two. -/
theorem splitFrom_exactly_K_two_runs :
    (splitFrom 2 (newMockFileManager [[49], [50]])).value? =
        some { buf := [[49], [50]], pos := 0, currentLevelFiles := 2 } ∧
      (splitFrom 2 (newMockFileManager [[49], [50]])).store.files 1 0 = some [[], [49]] ∧
      (splitFrom 2 (newMockFileManager [[49], [50]])).store.files 1 1
        = some [[49], [50]] := by
  decide

/-- C12: when, during the split stage, opening a generation-1 run for writing or writing to
it is failed by the schedule of the store, that operation is the last one of the log,
`LinesInPlace` returns its error with the store as the split stage left it, the subject
file was not opened for writing, and its content is what it was. -/
theorem LinesInPlace_split_failure (K : Nat) (hK : 2 ≤ K) (s : Store) (a b : List Op)
    (op : Op) (hlog : (splitFrom K s).store.log = s.log ++ a ++ op :: b)
    (hop : (∃ i, op = Op.NewTempFile 1 i) ∨ ∃ i l, op = Op.Write 1 i l)
    (hfail : s.fails (s.log ++ a) op = true) :
    b = [] ∧
      LinesInPlace (K : Int) (some s) =
        (Outcome.err (Err.failed op), some (splitFrom K s).store) ∧
      Op.NewTempFile 0 0 ∉ a ++ [op] ∧
      getResult (splitFrom K s).store = getResult s := by
  have ht := SplitTrace_splitFrom K s
  have hc : op.canFail = true := by
    rcases hop with ⟨i, rfl⟩ | ⟨i, l, rfl⟩ <;> rfl
  obtain ⟨h1, h2, h3⟩ := SplitTrace_failure s _ ht a b op hlog hc hfail
  refine ⟨h1, ?_, h3, ht.2.1 0 0 (by omega)⟩
  rw [LinesInPlace_eq K hK s]
  unfold sortLines
  rw [h2]
  rfl

/-- Witness for C12: the empty input with capacity 2 on a store where writing an empty
record to run (1,0) fails. -/
theorem LinesInPlace_split_failure_witness :
    (splitFrom 2 (failingOn (Op.Write 1 0 []) [])).store.log =
        (failingOn (Op.Write 1 0 []) []).log ++ [Op.GetTempFile 0 0, Op.NewTempFile 1 0] ++
          Op.Write 1 0 [] :: [] ∧
      (failingOn (Op.Write 1 0 []) []).fails
        ((failingOn (Op.Write 1 0 []) []).log ++ [Op.GetTempFile 0 0, Op.NewTempFile 1 0])
        (Op.Write 1 0 []) = true ∧
      (([] : List Op) = [] ∧
        LinesInPlace ((2 : Nat) : Int) (some (failingOn (Op.Write 1 0 []) [])) =
          (Outcome.err (Err.failed (Op.Write 1 0 [])),
            some (splitFrom 2 (failingOn (Op.Write 1 0 []) [])).store) ∧
        Op.NewTempFile 0 0 ∉ [Op.GetTempFile 0 0, Op.NewTempFile 1 0] ++ [Op.Write 1 0 []] ∧
        getResult (splitFrom 2 (failingOn (Op.Write 1 0 []) [])).store =
          getResult (failingOn (Op.Write 1 0 []) [])) :=
  ⟨by decide, by decide,
    LinesInPlace_split_failure 2 (by decide) (failingOn (Op.Write 1 0 []) [])
      [Op.GetTempFile 0 0, Op.NewTempFile 1 0] [] (Op.Write 1 0 []) (by decide)
      (Or.inr ⟨0, [], rfl⟩) (by decide)⟩

/-- With a `NewTempFile` that empties the run it opens (that of `truncatingManager`): for
every content of the store, every failure schedule and every capacity, when the split
stage completes, each of the generation-1 runs it wrote is in non-decreasing order. -/
theorem splitFrom_runs_sorted (K : Nat) (s : Store) (st : SplitState)
    (h : (splitFrom K s).value? = some st) :
    ∀ i, i < st.currentLevelFiles →
      ∃ run, (splitFrom K s).store.files 1 i = some run ∧ run.Sorted (· ≤ ·) :=
  splitFrom_sorted K s _ st (Step.eq_of_value? _ st h)

/-- An instance of `splitFrom_runs_sorted`: records "9", "8" with capacity 2. -/
theorem splitFrom_runs_sorted_witness :
    (splitFrom 2 (newMockFileManager [[57], [56]])).value? =
        some { buf := [[56], [57]], pos := 0, currentLevelFiles := 2 } ∧
      ∀ i, i < 2 →
        ∃ run, (splitFrom 2 (newMockFileManager [[57], [56]])).store.files 1 i = some run ∧
          run.Sorted (· ≤ ·) :=
  ⟨by decide, splitFrom_runs_sorted 2 (newMockFileManager [[57], [56]])
    { buf := [[56], [57]], pos := 0, currentLevelFiles := 2 } (by decide)⟩

/-- C14 (fails on the code): records "1", "2" with capacity 2, where the split stage
yields R = K = 2 runs. One merge call is made, with destination (0,0), but run (1,1) is
never opened: the log has `GetTempFile 1 0` only. When the call is made the frontier is
run (1,0) followed by an unassigned slot, and on such a frontier `mergeFilesInto` panics;
by then the subject file has been truncated. -/
theorem LinesInPlace_merge_frontier :
    (splitFrom 2 (newMockFileManager [[49], [50]])).value?.map
        (fun st => st.currentLevelFiles) = some 2 ∧
      (LinesInPlace 2 (some (newMockFileManager [[49], [50]]))).1 = Outcome.panic ∧
      (LinesInPlace 2 (some (newMockFileManager [[49], [50]]))).2.map (fun s => s.log) =
        some [Op.GetTempFile 0 0, Op.NewTempFile 1 0, Op.Write 1 0 [], Op.Write 1 0 [49],
          Op.closeWriter 1 0, Op.NewTempFile 1 1, Op.Write 1 1 [49], Op.Write 1 1 [50],
          Op.closeWriter 1 1, Op.closeReader 0 0, Op.GetTempFile 1 0, Op.NewTempFile 0 0,
          Op.closeReader 1 0] ∧
      (openLoop 2 1 0
          { age := 1, currentLevelFiles := 2, newCurrentFiles := 0,
            files := List.replicate 2 { f := none, c := none }, pos := 0 }
          ((splitFrom 2 (newMockFileManager [[49], [50]])).store.record
            (Op.closeReader 0 0))).value? =
        some { age := 1, currentLevelFiles := 2, newCurrentFiles := 0,
               files := [{ f := some [[], [49]], c := some (Op.closeReader 1 0) },
                 { f := none, c := none }], pos := 1 } ∧
      mergeFilesInto
          [{ f := some [[], [49]], c := some (Op.closeReader 1 0) }, { f := none, c := none }]
          (0, 0) (newMockFileManager []) =
        .stop .panic ((newMockFileManager []).record (Op.closeReader 1 0)) := by
  refine ⟨by decide, by decide, by decide, by decide, rfl⟩

/-- C15 (fails on the code): the empty input with capacity 2 on a store where writing an
empty record to run (1,0) fails. `LinesInPlace` returns the error of the write; the reader
of the subject file and the writer of run (1,0) were opened, and the log holds no release
of either. -/
theorem LinesInPlace_error_leaves_handles_open :
    (LinesInPlace 2 (some (failingOn (Op.Write 1 0 []) []))).1 =
        Outcome.err (Err.failed (Op.Write 1 0 [])) ∧
      (LinesInPlace 2 (some (failingOn (Op.Write 1 0 []) []))).2.map (fun s => s.log) =
        some [Op.GetTempFile 0 0, Op.NewTempFile 1 0, Op.Write 1 0 []] := by
  decide

/-- With a `NewTempFile` that empties the run it opens (that of `truncatingManager`): when
no operation fails, an input of n < K records makes `LinesInPlace` return nil with K
records in the subject file: K - n empty records, then the input in non-decreasing order.
This is the sorted rearrangement of the input padded with K - n empty records. -/
theorem LinesInPlace_small_input (K : Nat) (hK : 2 ≤ K) (s : Store) (input : List Record)
    (hnf : s.neverFails) (hin : getResult s = some input) (hn : input.length < K) :
    (LinesInPlace (K : Int) (some s)).1 = Outcome.nil ∧
      ∃ sorted out, sorted.Perm input ∧ sorted.Sorted (· ≤ ·) ∧
        (LinesInPlace (K : Int) (some s)).2.bind getResult = some out ∧
        out = List.replicate (K - input.length) [] ++ sorted ∧ out.length = K ∧
        out = sortStrings (input ++ List.replicate (K - input.length) []) := by
  rw [LinesInPlace_eq K hK s]
  obtain ⟨h1, h2⟩ := sortLines_small K s input hnf hin hn
  refine ⟨h1, sortStrings input, _, perm_sortStrings input, sorted_sortStrings input,
    by simpa [getResult] using h2, rfl, ?_, (sortStrings_pad input _).symm⟩
  simp [length_sortStrings]
  omega

/-- An instance of `LinesInPlace_small_input`: the record "1" with capacity 3. -/
theorem LinesInPlace_small_input_witness :
    (newMockFileManager [[49]]).neverFails ∧
      getResult (newMockFileManager [[49]]) = some [[49]] ∧ [[49]].length < 3 ∧
      ((LinesInPlace ((3 : Nat) : Int) (some (newMockFileManager [[49]]))).1 = Outcome.nil ∧
        ∃ sorted out, sorted.Perm [[49]] ∧ sorted.Sorted (· ≤ ·) ∧
          (LinesInPlace ((3 : Nat) : Int) (some (newMockFileManager [[49]]))).2.bind getResult
            = some out ∧
          out = List.replicate (3 - [[49]].length) [] ++ sorted ∧ out.length = 3 ∧
          out = sortStrings ([[49]] ++ List.replicate (3 - [[49]].length) [])) :=
  ⟨fun _ _ => rfl, rfl, by decide,
    LinesInPlace_small_input 3 (by decide) (newMockFileManager [[49]]) [[49]]
      (fun _ _ => rfl) rfl (by decide)⟩

/-- With a `NewTempFile` that empties the run it opens (that of `truncatingManager`): when
no operation fails, the split stage of an input of n records completes with R runs, R = 1
for n = 0 and R = (n - 1) / (K - 1) + 1 otherwise. Runs (1,0) to (1,R-1) each hold K
records, no other generation-1 slot is touched, and the runs hold K * R records in all,
more than n. -/
theorem splitFrom_run_count (K : Nat) (hK : 2 ≤ K) (s : Store) (input : List Record)
    (hnf : s.neverFails) (hin : getResult s = some input) :
    ∃ st, (splitFrom K s).value? = some st ∧
      st.currentLevelFiles =
        (if input.length = 0 then 1 else (input.length - 1) / (K - 1) + 1) ∧
      (∀ i, i < st.currentLevelFiles →
        ∃ run, (splitFrom K s).store.files 1 i = some run ∧ run.length = K) ∧
      (∀ i, st.currentLevelFiles ≤ i → (splitFrom K s).store.files 1 i = s.files 1 i) ∧
      (runsOf (splitFrom K s).store 1 st.currentLevelFiles).length
        = K * st.currentLevelFiles ∧
      input.length < K * st.currentLevelFiles := by
  obtain ⟨st, s2, h1, -, h3, h4, h5, -⟩ := splitFrom_ok K hK s input hnf hin
  obtain ⟨v1, v2⟩ := Step.value?_of_eq _ _ _ h1
  rw [v2]
  refine ⟨st, v1, h3, h4, fun i hi => h5 1 i (by omega), length_runsOf s2 1 _ K h4, ?_⟩
  rw [h3]
  by_cases hz : input.length = 0
  · rw [if_pos hz, hz]
    omega
  · rw [if_neg hz]
    have hlt := Nat.lt_mul_div_succ (input.length - 1) (show 0 < K - 1 by omega)
    have hmul : K * ((input.length - 1) / (K - 1) + 1) =
        (K - 1) * ((input.length - 1) / (K - 1) + 1) + ((input.length - 1) / (K - 1) + 1) := by
      have := Nat.add_mul (K - 1) 1 ((input.length - 1) / (K - 1) + 1)
      rwa [Nat.sub_add_cancel (by omega : 1 ≤ K), Nat.one_mul] at this
    rw [hmul]
    generalize (input.length - 1) / (K - 1) = q at hlt
    omega

/-- An instance of `splitFrom_run_count`: five records with capacity 2 give five runs of
two records. -/
theorem splitFrom_run_count_witness :
    (newMockFileManager [[57], [56], [56, 49], [55], [54]]).neverFails ∧
      getResult (newMockFileManager [[57], [56], [56, 49], [55], [54]]) =
        some [[57], [56], [56, 49], [55], [54]] ∧
      ∃ st, (splitFrom 2 (newMockFileManager [[57], [56], [56, 49], [55], [54]])).value?
          = some st ∧
        st.currentLevelFiles =
          (if [[57], [56], [56, 49], [55], [54]].length = 0 then 1
            else ([[57], [56], [56, 49], [55], [54]].length - 1) / (2 - 1) + 1) ∧
        (∀ i, i < st.currentLevelFiles →
          ∃ run, (splitFrom 2 (newMockFileManager
            [[57], [56], [56, 49], [55], [54]])).store.files 1 i = some run ∧
            run.length = 2) ∧
        (∀ i, st.currentLevelFiles ≤ i →
          (splitFrom 2 (newMockFileManager [[57], [56], [56, 49], [55], [54]])).store.files 1 i
            = (newMockFileManager [[57], [56], [56, 49], [55], [54]]).files 1 i) ∧
        (runsOf (splitFrom 2 (newMockFileManager [[57], [56], [56, 49], [55], [54]])).store 1
          st.currentLevelFiles).length = 2 * st.currentLevelFiles ∧
        [[57], [56], [56, 49], [55], [54]].length < 2 * st.currentLevelFiles :=
  ⟨fun _ _ => rfl, rfl,
    splitFrom_run_count 2 (by decide) (newMockFileManager [[57], [56], [56, 49], [55], [54]])
      [[57], [56], [56, 49], [55], [54]] (fun _ _ => rfl) rfl⟩

/-- C18: on a store that never fails, after the split stage every record occurs in the
generation-1 runs at least as often as in the input. -/
theorem splitFrom_keeps_input (K : Nat) (hK : 2 ≤ K) (s : Store) (input : List Record)
    (hnf : s.neverFails) (hin : getResult s = some input) :
    ∃ st, (splitFrom K s).value? = some st ∧
      (↑input : Multiset Record) ≤ ↑(runsOf (splitFrom K s).store 1 st.currentLevelFiles) ∧
      ∀ x, Multiset.count x (↑input : Multiset Record) ≤
        Multiset.count x
          (↑(runsOf (splitFrom K s).store 1 st.currentLevelFiles) : Multiset Record) := by
  obtain ⟨st, s2, h1, -, -, -, -, h6⟩ := splitFrom_ok K hK s input hnf hin
  obtain ⟨v1, v2⟩ := Step.value?_of_eq _ _ _ h1
  rw [v2]
  exact ⟨st, v1, h6, fun x => Multiset.le_iff_count.1 h6 x⟩

/-- Witness for C18: records "9", "8" with capacity 2. -/
theorem splitFrom_keeps_input_witness :
    (newMockFileManager [[57], [56]]).neverFails ∧
      getResult (newMockFileManager [[57], [56]]) = some [[57], [56]] ∧
      ∃ st, (splitFrom 2 (newMockFileManager [[57], [56]])).value? = some st ∧
        (↑[[57], [56]] : Multiset Record) ≤
          ↑(runsOf (splitFrom 2 (newMockFileManager [[57], [56]])).store 1
            st.currentLevelFiles) ∧
        ∀ x, Multiset.count x (↑[[57], [56]] : Multiset Record) ≤
          Multiset.count x
            (↑(runsOf (splitFrom 2 (newMockFileManager [[57], [56]])).store 1
              st.currentLevelFiles) : Multiset Record) :=
  ⟨fun _ _ => rfl, rfl,
    splitFrom_keeps_input 2 (by decide) (newMockFileManager [[57], [56]]) [[57], [56]]
      (fun _ _ => rfl) rfl⟩

/-- C19: on a store that never fails, an input of n >= K records makes `LinesInPlace`
panic. The split stage yields at least two runs, and the first merge call stops on an
unassigned slot of the frontier before it writes anything: its destination, the subject
file when there are at most K runs and run (2,0) otherwise, is left empty. -/
theorem LinesInPlace_large_input_panics (K : Nat) (hK : 2 ≤ K) (s : Store)
    (input : List Record) (hnf : s.neverFails) (hin : getResult s = some input)
    (hn : K ≤ input.length) :
    (LinesInPlace (K : Int) (some s)).1 = Outcome.panic ∧
      ∃ st, (splitFrom K s).value? = some st ∧ 2 ≤ st.currentLevelFiles ∧
        (st.currentLevelFiles ≤ K →
          (LinesInPlace (K : Int) (some s)).2.bind getResult = some []) ∧
        (K < st.currentLevelFiles →
          (LinesInPlace (K : Int) (some s)).2.bind (fun s2 => s2.files 2 0) = some []) ∧
        ∀ i, (LinesInPlace (K : Int) (some s)).2.bind (fun s2 => s2.files 1 i) =
          (splitFrom K s).store.files 1 i := by
  rw [LinesInPlace_eq K hK s]
  obtain ⟨st, s1, h1, h2, h3, h4, h5, h6⟩ := sortLines_panic K hK s input hnf hin hn
  obtain ⟨v1, v2⟩ := Step.value?_of_eq _ _ _ h1
  rw [v2]
  refine ⟨h3, st, v1, h2, fun h => by simpa [getResult] using h4 h,
    fun h => by simpa using h5 (by omega), fun i => by simpa using h6 i⟩

/-- Witness for C19: records "1", "2" with capacity 2. -/
theorem LinesInPlace_large_input_panics_witness :
    (newMockFileManager [[49], [50]]).neverFails ∧
      getResult (newMockFileManager [[49], [50]]) = some [[49], [50]] ∧
      2 ≤ [[49], [50]].length ∧
      ((LinesInPlace ((2 : Nat) : Int) (some (newMockFileManager [[49], [50]]))).1
          = Outcome.panic ∧
        ∃ st, (splitFrom 2 (newMockFileManager [[49], [50]])).value? = some st ∧
          2 ≤ st.currentLevelFiles ∧
          (st.currentLevelFiles ≤ 2 →
            (LinesInPlace ((2 : Nat) : Int) (some (newMockFileManager [[49], [50]]))).2.bind
              getResult = some []) ∧
          (2 < st.currentLevelFiles →
            (LinesInPlace ((2 : Nat) : Int) (some (newMockFileManager [[49], [50]]))).2.bind
              (fun s2 => s2.files 2 0) = some []) ∧
          ∀ i, (LinesInPlace ((2 : Nat) : Int) (some (newMockFileManager [[49], [50]]))).2.bind
              (fun s2 => s2.files 1 i) =
            (splitFrom 2 (newMockFileManager [[49], [50]])).store.files 1 i) :=
  ⟨fun _ _ => rfl, rfl, by decide,
    LinesInPlace_large_input_panics 2 (by decide) (newMockFileManager [[49], [50]])
      [[49], [50]] (fun _ _ => rfl) rfl (by decide)⟩

/-! ## `FileManager`: a run left by an earlier call

The subject file holds the record "1", the capacity is 2, and the temporary directory
still holds a run `1_0` with the records "a", "b", "z", "w". `FileManager.NewTempFile`
does not truncate: the split stage writes the three bytes of "", "1" over the first three
of the old run and the rest of it stays. -/

/-- C4 (fails on the code): with `FileManager` and a run `1_0` left by an earlier call,
`LinesInPlace` returns nil and the subject file holds "", "1", "", "z", "w": the record
"1" is followed by the smaller record "", and "z" by "w". -/
theorem FileManager_nil_unsorted :
    (LinesInPlaceOn FileManager 2
        (some (withStaleRun [[49]] [[97], [98], [122], [119]]))).1 = Outcome.nil ∧
      (LinesInPlaceOn FileManager 2
        (some (withStaleRun [[49]] [[97], [98], [122], [119]]))).2.bind getResult =
        some [[], [49], [], [122], [119]] ∧
      ¬ (([49] : Record) ≤ []) ∧ ¬ (([122] : Record) ≤ [119]) ∧
      ¬ List.Sorted (· ≤ ·) ([[], [49], [], [122], [119]] : List Record) := by
  decide

/-- C13 (fails on the code): with `FileManager` and a run `1_0` left by an earlier call,
the split stage completes with one run, and that run holds "", "1", "", "z", "w", which
is not in non-decreasing order. -/
theorem FileManager_run_unsorted :
    (splitFromOn FileManager 2 (withStaleRun [[49]] [[97], [98], [122], [119]])).value? =
        some { buf := [[], [49]], pos := 0, currentLevelFiles := 1 } ∧
      (splitFromOn FileManager 2 (withStaleRun [[49]] [[97], [98], [122], [119]])).store.files
        1 0 = some [[], [49], [], [122], [119]] ∧
      ¬ List.Sorted (· ≤ ·) ([[], [49], [], [122], [119]] : List Record) := by
  decide

/-- C16 (fails on the code): with `FileManager`, no failing operation and a run `1_0` left
by an earlier call, the input of n = 1 record with K = 2 makes `LinesInPlace` return nil
with five records in the subject file, not K. -/
theorem FileManager_small_input_five_records :
    (withStaleRun [[49]] [[97], [98], [122], [119]]).neverFails ∧
      getResult (withStaleRun [[49]] [[97], [98], [122], [119]]) = some [[49]] ∧
      (LinesInPlaceOn FileManager 2
        (some (withStaleRun [[49]] [[97], [98], [122], [119]]))).1 = Outcome.nil ∧
      (LinesInPlaceOn FileManager 2
        (some (withStaleRun [[49]] [[97], [98], [122], [119]]))).2.bind getResult =
        some [[], [49], [], [122], [119]] ∧
      ([[], [49], [], [122], [119]] : List Record).length ≠ 2 ∧
      ([[], [49], [], [122], [119]] : List Record) ≠ List.replicate (2 - 1) [] ++ [[49]] := by
  refine ⟨fun _ _ => rfl, ?_, ?_, ?_, ?_, ?_⟩ <;> decide

/-- C17 (fails on the code): with `FileManager`, no failing operation and a run `1_0` left
by an earlier call, the split stage of n = 1 record with K = 2 completes with R = 1 run,
and that run holds five records, not K; the generation-1 runs hold five records, not
K * R. -/
theorem FileManager_run_five_records :
    (withStaleRun [[49]] [[97], [98], [122], [119]]).neverFails ∧
      (splitFromOn FileManager 2
        (withStaleRun [[49]] [[97], [98], [122], [119]])).value?.map
        (fun st => st.currentLevelFiles) = some 1 ∧
      ((splitFromOn FileManager 2
        (withStaleRun [[49]] [[97], [98], [122], [119]])).store.files 1 0).map List.length =
        some 5 ∧
      (runsOf (splitFromOn FileManager 2
        (withStaleRun [[49]] [[97], [98], [122], [119]])).store 1 1).length = 5 ∧
      (5 : Nat) ≠ 2 * 1 := by
  refine ⟨fun _ _ => rfl, ?_, ?_, ?_, ?_⟩ <;> decide

/-- Without the old run `1_0`, `FileManager` leaves "", "1" in the subject file, as
`truncatingManager` does with or without the old run. -/
theorem FileManager_fresh_directory :
    (LinesInPlaceOn FileManager 2 (some (newMockFileManager [[49]]))).2.bind getResult =
        some [[], [49]] ∧
      (LinesInPlaceOn truncatingManager 2
        (some (newMockFileManager [[49]]))).2.bind getResult = some [[], [49]] ∧
      (LinesInPlaceOn truncatingManager 2
        (some (withStaleRun [[49]] [[97], [98], [122], [119]]))).2.bind getResult =
        some [[], [49]] := by
  decide

end ExternalSort
